import Mathlib

/-!
CommandLineParser: a shallow embedding and its verified properties.

The C++ class `CommandLineParser` (files `CommandLineParser.h` and
`CommandLineParser.cpp`) is embedded function by function.

* `String` (`std::string`) is `Str := List Char`; `str.c_str()` read as a C
  string is `c_str`, the part before the first NUL character.
* `Impl` is the record of the same name; methods that mutate it return the new
  record.  Output written with `printf` is not part of the state.
* An exception leaving the constructor is a `Failure`.  Reading `l[1]` or `l[2]`
  past the end of the vector of fields, and reading `argv[0]` when there is
  none, is undefined behaviour in the source and is reported as
  `Failure.undefined`.
* `void* dst` of `from_str`, `getByName` and `getByIndex` is modelled by the
  value written through it (`none` when nothing is written); `get` supplies
  the value-initialised `T()` as the source template does.
* Formatted extraction `ss >> x` follows the C++11 rules of `std::num_get` in
  the classic locale: leading white space is skipped, the longest numeric
  field is consumed, `failbit` is set when the field is empty or its value is
  out of range.  Extraction of `float` and `double` depends on binary rounding
  and is a parameter (`FloatLib`).
* `std::sort` is modelled by insertion sort that leaves equivalent elements
  in the order they had (for the short ranges of a schema the library sorts by
  insertion and moves an element only past strictly greater ones).  Wherever
  the order of equivalent elements could matter the theorems use only that the
  result is a permutation of the input.
* The two `int jj` counters only count upwards from `0`; they are natural
  numbers here.
-/

namespace CmdLine

/-- The type `String` of the source (`typedef std::string String`). -/
abbrev Str := List Char

/-- The constant `noneValue`. -/
def noneValue : Str := "<none>".toList

/-- The function `cat_string`: the text between the first and the last character
that is not a space. -/
def cat_string (str : Str) : Str :=
  ((str.dropWhile (fun c => c = ' ')).reverse.dropWhile (fun c => c = ' ')).reverse

/-- Reading `const char*` obtained from `c_str()`: the characters before the
first NUL. -/
def c_str (s : Str) : Str := s.takeWhile (fun c => c ≠ '\x00')

/-- The enumeration `Param`. -/
inductive Param where
  | BOOLEAN | CHAR | UCHAR | INT | UINT | INT64 | UINT64 | FLOAT | REAL | STRING
  deriving DecidableEq, Repr

/-- The function `get_type_name`. -/
def get_type_name : Param → Str
  | .BOOLEAN => "bool".toList
  | .CHAR => "char".toList
  | .UCHAR => "unsigned char".toList
  | .INT => "int".toList
  | .UINT => "unsigned int".toList
  | .INT64 => "long long".toList
  | .UINT64 => "unsigned long long".toList
  | .FLOAT => "float".toList
  | .REAL => "double".toList
  | .STRING => "string".toList

/-- A value written through `dst`.  Integers of every width are `int`;
floating-point numbers are given by their bit pattern. -/
inductive Value where
  | bool (b : Bool)
  | int (n : Int)
  | real (bits : Nat)
  | str (s : Str)
  deriving DecidableEq, Repr

/-- The value-initialised `T()` for the type that `ParamType<T>::type` names. -/
def zeroValue : Param → Value
  | .BOOLEAN => .bool false
  | .FLOAT => .real 0
  | .REAL => .real 0
  | .STRING => .str []
  | _ => .int 0

/-- Outcome of one formatted extraction `ss >> x`: the value stored in `x`
(`none` when `x` is left untouched) and the `failbit` of the stream. -/
structure Extraction where
  stored : Option Value
  fail : Bool
  deriving DecidableEq, Repr

/-- The extractions `ss >> float` and `ss >> double` of the standard library. -/
structure FloatLib where
  extract_float : Str → Extraction
  extract_double : Str → Extraction

/-- White space of the classic locale (`std::isspace`). -/
def isspace (c : Char) : Bool :=
  c = ' ' || c = '\t' || c = '\n' || c = '\x0b' || c = '\x0c' || c = '\r'

/-- Decimal digits (`std::isdigit`). -/
def isdigit (c : Char) : Bool := decide ('0' ≤ c) && decide (c ≤ '9')

/-- The number denoted by a sequence of decimal digits. -/
def digitsValue (ds : Str) : Nat :=
  ds.foldl (fun acc c => 10 * acc + (c.toNat - 48)) 0

/-- The numeric field gathered by `num_get` for a decimal integer: after the
white space, an optional sign and the digits that follow it. -/
def intField (content : Str) : Bool × Str :=
  let s := content.dropWhile isspace
  if s.head? = some '-' then (true, s.tail.takeWhile isdigit)
  else if s.head? = some '+' then (false, s.tail.takeWhile isdigit)
  else (false, s.takeWhile isdigit)

/-- Extraction `ss >> x` for a signed integer `x` of `bits` bits. -/
def extract_signed (bits : Nat) (content : Str) : Extraction :=
  if content.dropWhile isspace = [] then ⟨none, true⟩
  else
    let f := intField content
    if f.2 = [] then ⟨some (.int 0), true⟩
    else
      let x : Int := if f.1 then -(digitsValue f.2 : Int) else (digitsValue f.2 : Int)
      if x > 2 ^ (bits - 1) - 1 then ⟨some (.int (2 ^ (bits - 1) - 1)), true⟩
      else if x < -(2 ^ (bits - 1)) then ⟨some (.int (-(2 ^ (bits - 1)))), true⟩
      else ⟨some (.int x), false⟩

/-- Extraction `ss >> x` for an unsigned integer `x` of `bits` bits. -/
def extract_unsigned (bits : Nat) (content : Str) : Extraction :=
  if content.dropWhile isspace = [] then ⟨none, true⟩
  else
    let f := intField content
    if f.2 = [] then ⟨some (.int 0), true⟩
    else
      let m : Nat := digitsValue f.2
      if m > 2 ^ bits - 1 then ⟨some (.int ((2 ^ bits - 1 : Nat) : Int)), true⟩
      else if f.1 then ⟨some (.int (((2 ^ bits - m) % 2 ^ bits : Nat) : Int)), false⟩
      else ⟨some (.int (m : Int)), false⟩

/-- Extraction `ss >> temp` for a `std::string`: the white-space delimited
token and the `failbit` (set when no character was extracted). -/
def extract_token (content : Str) : Str × Bool :=
  let t := (content.dropWhile isspace).takeWhile (fun c => !isspace c)
  (t, t.isEmpty)

/-- The function `details::char_tolower` (`std::tolower` in the C locale). -/
def char_tolower (ch : Char) : Char :=
  if 'A' ≤ ch ∧ ch ≤ 'Z' then Char.ofNat (ch.toNat + 32) else ch

/-- The function `parse_bool`.  A token longer than one character is read with
`std::boolalpha` (it is `true` when it starts with the name `true`; a failed
match stores `false`), a single character is read as a number (`0` is `false`,
any other digit is `true`, anything else stores `false`).  The `failbit` of
the local stream `is` is not inspected by the source.  For the empty token the
source returns an uninitialised `bool`; the embedding takes `false`. -/
def parse_bool (str : Str) : Bool :=
  let s := str.map char_tolower
  if s.length > 1 then decide (s.take 4 = "true".toList)
  else
    match s with
    | [c] => isdigit c && c != '0'
    | _ => false

/-- What `from_str` leaves behind: the value written through `dst` and, when it
throws, the text of `what()`. -/
structure FromStr where
  dst : Option Value
  thrown : Option Str
  deriving DecidableEq, Repr

/-- The extraction selected by the type, or `none` for an unsupported one.  For
`BOOLEAN` the stream `ss` only delivers the token; when it delivers none, the
`bool` written through `dst` is the uninitialised one of `parse_bool` and the
embedding records no write. -/
def from_str_extract (fl : FloatLib) (str : Str) : Param → Option Extraction
  | .BOOLEAN =>
      let t := extract_token (c_str str)
      some ⟨if t.2 then none else some (.bool (parse_bool t.1)), t.2⟩
  | .INT => some (extract_signed 32 (c_str str))
  | .UINT => some (extract_unsigned 32 (c_str str))
  | .INT64 => some (extract_signed 64 (c_str str))
  | .UINT64 => some (extract_unsigned 64 (c_str str))
  | .FLOAT => some (fl.extract_float (c_str str))
  | .REAL => some (fl.extract_double (c_str str))
  | .STRING => some ⟨some (.str str), false⟩
  | _ => none

/-- The function `from_str`. -/
def from_str (fl : FloatLib) (str : Str) (type : Param) : FromStr :=
  match from_str_extract fl str type with
  | none => ⟨none, some "unknown/unsupported parameter type".toList⟩
  | some e =>
      if e.fail then
        ⟨e.stored, some (c_str ("can not convert: [".toList ++ str ++ "] to [".toList
          ++ get_type_name type ++ "]".toList))⟩
      else ⟨e.stored, none⟩

/-- The record `CommandLineParserParams`. -/
structure CommandLineParserParams where
  help_message : Str
  def_value : Str
  keys : List Str
  number : Int
  deriving DecidableEq, Repr

/-- The record `Impl`. -/
structure Impl where
  error : Bool
  error_message : Str
  about_message : Str
  path_to_app : Str
  app_name : Str
  data : List CommandLineParserParams
  deriving DecidableEq, Repr

/-- How the constructor can fail: `std::exception` with its text,
`std::out_of_range` thrown by `substr`, or undefined behaviour. -/
inductive Failure where
  | exception (what : Str)
  | out_of_range
  | undefined
  deriving DecidableEq, Repr

deriving instance DecidableEq for Except

/-- The text thrown by `split_range_string`. -/
def split_range_error (str : Str) (fs ss : Char) : Failure :=
  .exception (c_str ("error in split_range_string(".toList ++ str ++ ", ".toList ++ [fs]
    ++ ", ".toList ++ [ss] ++ ")".toList))

/-- The second and third `if` of the loop body of `split_range_string`, with
`str[0]` of an empty string being the NUL character: the new `vec`, `word`
and `begin`. -/
def split_range_close (fs ss : Char) (str : Str) (vec : List Str) (word : Str)
    (begin : Bool) : Except Failure (List Str × Str × Bool) :=
  if str.headD '\x00' = ss then
    if begin = false then .error (split_range_error str fs ss)
    else .ok (vec ++ [word], word, false)
  else if begin then .ok (vec, word ++ [str.headD '\x00'], true)
  else .ok (vec, word, false)

/-- The `while` loop of `split_range_string` and the test that follows it.  One
iteration consumes the opening character, if `str` starts with it, and then one
more character; `substr(1, ...)` on an empty string throws
`std::out_of_range`. -/
def split_range_loop (fs ss : Char) : Str → List Str → Str → Bool → Except Failure (List Str)
  | [], vec, _, begin => if begin then .error (split_range_error [] fs ss) else .ok vec
  | c :: rest, vec, word, begin =>
    if c = fs then
      if begin then .error (split_range_error (c :: rest) fs ss)
      else
        match rest with
        | [] => .error .out_of_range
        | d :: rest2 =>
          match split_range_close fs ss (d :: rest2) vec [] true with
          | .error e => .error e
          | .ok r => split_range_loop fs ss rest2 r.1 r.2.1 r.2.2
    else
      match split_range_close fs ss (c :: rest) vec word begin with
      | .error e => .error e
      | .ok r => split_range_loop fs ss rest r.1 r.2.1 r.2.2

/-- The method `Impl::split_range_string`. -/
def split_range_string (str : Str) (fs ss : Char) : Except Failure (List Str) :=
  split_range_loop fs ss str [] [] false

/-- The `while` loop of `split_string` and the final `push_back`. -/
def split_string_loop (symbol : Char) (create_empty_item : Bool) :
    Str → List Str → Str → List Str
  | [], vec, word => if word ≠ [] ∨ create_empty_item = true then vec ++ [word] else vec
  | c :: rest, vec, word =>
    if c = symbol then
      if word ≠ [] ∨ create_empty_item = true then
        split_string_loop symbol create_empty_item rest (vec ++ [word]) []
      else split_string_loop symbol create_empty_item rest vec word
    else split_string_loop symbol create_empty_item rest vec (word ++ [c])

/-- The method `Impl::split_string`. -/
def split_string (str : Str) (symbol : Char) (create_empty_item : Bool) : List Str :=
  split_string_loop symbol create_empty_item str [] []

/-- `s.find_last_of(set)`: the index of the last character of `s` that occurs
in `set`. -/
def find_last_of : Str → Str → Option Nat
  | [], _ => none
  | c :: cs, set =>
    match find_last_of cs set with
    | some i => some (i + 1)
    | none => if c ∈ set then some 0 else none

/-- `s.find(c)`: the index of the first occurrence of `c`. -/
def find : Str → Char → Option Nat
  | [], _ => none
  | d :: ds, c => if d = c then some 0 else (find ds c).map (fun i => i + 1)

/-- `s.substr(pos, n)` for `pos ≤ s.length`. -/
def substr (s : Str) (pos n : Nat) : Str := (s.drop pos).take n

/-- Whether one of the keys of `p` equals `name` (the inner `for` loops of
`apply_params`, `has` and `getByName`). -/
def hasKey (p : CommandLineParserParams) (name : Str) : Bool :=
  p.keys.any (fun k => decide (name = k))

/-- The body of the outer loop of `apply_params(key, value)`: the inner loop
stores the value when it meets the key and then stops. -/
def set_if_key (key value : Str) (p : CommandLineParserParams) : CommandLineParserParams :=
  if hasKey p key then { p with def_value := value } else p

/-- The method `Impl::apply_params(const String& key, const String& value)`:
the outer loop visits every record (`break` leaves the inner loop only). -/
def Impl.apply_params (impl : Impl) (key value : Str) : Impl :=
  { impl with data := impl.data.map (set_if_key key value) }

/-- The loop of `Impl::apply_params(int i, String value)`: the first record
whose `number` is `i` gets the value. -/
def apply_index (i : Int) (value : Str) :
    List CommandLineParserParams → List CommandLineParserParams
  | [] => []
  | p :: ps =>
    if p.number = i then { p with def_value := value } :: ps
    else p :: apply_index i value ps

/-- The method `Impl::apply_params(int i, String value)`. -/
def Impl.apply_params_index (impl : Impl) (i : Int) (value : Str) : Impl :=
  { impl with data := apply_index i value impl.data }

/-- `a.compare(b) < 0` and `a < b` for `std::string`. -/
def str_lt : Str → Str → Bool
  | [], [] => false
  | [], _ :: _ => true
  | _ :: _, [] => false
  | a :: as, b :: bs =>
    if a.toNat < b.toNat then true
    else if b.toNat < a.toNat then false
    else str_lt as bs

/-- The function `cmp_params`. -/
def cmp_params (p1 p2 : CommandLineParserParams) : Bool :=
  if p1.number < p2.number then true
  else if p1.number > p2.number then false
  else str_lt (p1.keys.headD []) (p2.keys.headD [])

/-- The first loop of `sort_params`: the keys of one record are sorted. -/
def sort_keys (p : CommandLineParserParams) : CommandLineParserParams :=
  { p with keys := p.keys.insertionSort (fun a b => str_lt a b = true) }

/-- The method `Impl::sort_params`.  A record is placed before the first
record that is not less than it, so records that `cmp_params` does not order
keep the order of the schema. -/
def Impl.sort_params (impl : Impl) : Impl :=
  { impl with data :=
      (impl.data.map sort_keys).insertionSort (fun p q => cmp_params q p = false) }

/-- The body of the loop over the blocks of the schema (`// parse keys`). -/
def parse_block (impl : Impl) (jj : Nat) (block : Str) : Except Failure (Impl × Nat) :=
  match split_string block '|' true with
  | l0 :: l1 :: l2 :: _ =>
    let p : CommandLineParserParams :=
      { keys := split_string l0 ' ' false, def_value := l1,
        help_message := cat_string l2, number := -1 }
    if p.keys.length ≤ 0 then
      .ok ({ impl with error := true,
                       error_message := "Field KEYS could not be empty\n".toList }, jj)
    else if (p.keys.headD []).headD '\x00' = '@' then
      .ok ({ impl with data := impl.data ++ [{ p with number := (jj : Int) }] }, jj + 1)
    else .ok ({ impl with data := impl.data ++ [p] }, jj)
  | _ => .error .undefined

/-- The loop over the blocks of the schema. -/
def parse_keys : List Str → Impl → Nat → Except Failure (Impl × Nat)
  | [], impl, jj => .ok (impl, jj)
  | b :: bs, impl, jj =>
    match parse_block impl jj b with
    | .error e => .error e
    | .ok r => parse_keys bs r.1 r.2

/-- The test `hasSingleDash` of the loop over `argv`. -/
def hasSingleDash (s : Str) : Bool := decide (s.length > 1) && decide (s.headD '\x00' = '-')

/-- The test `hasDoubleDash`. -/
def hasDoubleDash (s : Str) : Bool := decide (s.length > 2) && decide (s.getD 1 '\x00' = '-')

/-- The `key` and the `value` computed from a token that has a single dash. -/
def key_value (s : Str) : Str × Str :=
  let key := s.drop (if hasDoubleDash s then 2 else 1)
  match find key '=' with
  | some equalsPos => (substr key 0 equalsPos, key.drop (equalsPos + 1))
  | none => (key, "true".toList)

/-- The loop over `argv[1..]` (`// parse argv`). -/
def parse_argv : List Str → Nat → Impl → Impl
  | [], _, impl => impl
  | s :: rest, jj, impl =>
    if hasSingleDash s then
      parse_argv rest jj (impl.apply_params (key_value s).1 (key_value s).2)
    else parse_argv rest (jj + 1) (impl.apply_params_index (jj : Int) s)

/-- The constructor up to the end of the loop over the blocks of the schema
(`// path to application` and `// parse keys`). -/
def parse_schema (argv0 : Str) (keys : Str) : Except Failure Impl :=
  let impl0 : Impl :=
    { error := false, error_message := [], about_message := [], data := [],
      path_to_app :=
        match find_last_of argv0 "/\\".toList with
        | none => []
        | some pos_s => substr argv0 0 pos_s,
      app_name :=
        match find_last_of argv0 "/\\".toList with
        | none => argv0
        | some pos_s => substr argv0 (pos_s + 1) (argv0.length - pos_s) }
  match split_range_string keys '{' '}' with
  | .error e => .error e
  | .ok k =>
    match parse_keys k impl0 0 with
    | .error e => .error e
    | .ok r => .ok r.1

/-- The constructor `CommandLineParser::CommandLineParser(argc, argv, keys)`,
with `argc = argv.length`. -/
def CommandLineParser (argv : List Str) (keys : Str) : Except Failure Impl :=
  match argv with
  | [] => .error .undefined
  | argv0 :: args =>
    match parse_schema argv0 keys with
    | .error e => .error e
    | .ok impl => .ok (parse_argv args 0 impl).sort_params

/-- The method `about`. -/
def about (impl : Impl) (message : Str) : Impl := { impl with about_message := message }

/-- The method `getPathToApplication`. -/
def getPathToApplication (impl : Impl) : Str := impl.path_to_app

/-- The method `check`. -/
def check (impl : Impl) : Bool := impl.error == false

/-- The search of `has` and `getByName`: the first record one of whose keys is
`name`. -/
def findByName (data : List CommandLineParserParams) (name : Str) :
    Option CommandLineParserParams :=
  data.find? (fun p => hasKey p name)

/-- The search of `getByIndex`: the first record whose `number` is `index`. -/
def findByIndex (data : List CommandLineParserParams) (index : Int) :
    Option CommandLineParserParams :=
  data.find? (fun p => decide (p.number = index))

/-- The method `has` (its diagnostic on an undeclared key is printed, not
stored). -/
def has (impl : Impl) (name : Str) : Bool :=
  match findByName impl.data name with
  | some p => decide (cat_string p.def_value ≠ []) && decide (cat_string p.def_value ≠ noneValue)
  | none => false

/-- `std::to_string(int)`. -/
def to_string (i : Int) : Str :=
  if i < 0 then '-' :: (Nat.repr i.natAbs).toList else (Nat.repr i.toNat).toList

/-- The body shared by `getByName` and `getByIndex` once the record is found:
`v` is its value, `missing` and `pre` are the texts that name the parameter in
the two error messages. -/
def retrieve (fl : FloatLib) (impl : Impl) (missing pre : Str) (def_value : Str)
    (space_delete : Bool) (type : Param) : Impl × Option Value :=
  let v := if space_delete then cat_string def_value else def_value
  if (v = [] ∧ type ≠ Param.STRING) ∨ v = noneValue then
    ({ impl with error := true, error_message := impl.error_message ++ missing }, none)
  else
    match (from_str fl v type).thrown with
    | some what =>
      ({ impl with error := true,
                   error_message := impl.error_message ++ pre ++ what ++ "\n".toList },
       (from_str fl v type).dst)
    | none => (impl, (from_str fl v type).dst)

/-- The method `getByName`: the new state and the value written through `dst`. -/
def getByName (fl : FloatLib) (impl : Impl) (name : Str) (space_delete : Bool)
    (type : Param) : Impl × Option Value :=
  match findByName impl.data name with
  | some p =>
    retrieve fl impl ("Missing parameter: '".toList ++ name ++ "'\n".toList)
      ("Parameter '".toList ++ name ++ "': ".toList) p.def_value space_delete type
  | none =>
    ({ impl with error := true,
                 error_message := impl.error_message ++ "undeclared key '".toList ++ name
                   ++ "' requested".toList }, none)

/-- The method `getByIndex`: the new state and the value written through `dst`. -/
def getByIndex (fl : FloatLib) (impl : Impl) (index : Int) (space_delete : Bool)
    (type : Param) : Impl × Option Value :=
  match findByIndex impl.data index with
  | some p =>
    retrieve fl impl ("Missing parameter #".toList ++ to_string index ++ "\n".toList)
      ("Parameter #".toList ++ to_string index ++ " ".toList) p.def_value space_delete type
  | none =>
    ({ impl with error := true,
                 error_message := impl.error_message ++ "undeclared position ".toList
                   ++ to_string index ++ " requested".toList }, none)

/-- The template `get<T>(name, space_delete)`, with `type = ParamType<T>::type`:
the new state and the returned `val`. -/
def get (fl : FloatLib) (impl : Impl) (name : Str) (space_delete : Bool) (type : Param) :
    Impl × Value :=
  ((getByName fl impl name space_delete type).1,
   ((getByName fl impl name space_delete type).2).getD (zeroValue type))

/-- The template `get<T>(index, space_delete)`. -/
def get_index (fl : FloatLib) (impl : Impl) (index : Int) (space_delete : Bool)
    (type : Param) : Impl × Value :=
  ((getByIndex fl impl index space_delete type).1,
   ((getByIndex fl impl index space_delete type).2).getD (zeroValue type))

/-! ## Auxiliary definitions for the statements -/

/-- No alias occurs in two declarations. -/
def UniqueAliases (data : List CommandLineParserParams) : Prop :=
  data.Pairwise (fun p q => ∀ k ∈ p.keys, k ∉ q.keys)

instance (data : List CommandLineParserParams) : Decidable (UniqueAliases data) := by
  unfold UniqueAliases; infer_instance

/-- A record gets the value when its `number` is `i`. -/
def set_if_number (i : Int) (value : Str) (p : CommandLineParserParams) :
    CommandLineParserParams :=
  if p.number = i then { p with def_value := value } else p

/-- The text does not start with a decimal digit. -/
def NoDigitHead (rest : Str) : Prop := ∀ c r, rest = c :: r → isdigit c = false

/-- A decimal integer written in full, as the specification reads it: an optional
sign, then one or more decimal digits and nothing else; its value. -/
def decimalInteger (s : Str) : Option Int :=
  if s.head? = some '-' then
    (if s.tail ≠ [] ∧ s.tail.all isdigit = true then some (-(digitsValue s.tail : Int)) else none)
  else if s.head? = some '+' then
    (if s.tail ≠ [] ∧ s.tail.all isdigit = true then some (digitsValue s.tail : Int) else none)
  else if s ≠ [] ∧ s.all isdigit = true then some (digitsValue s : Int)
  else none

/-- The text without one leading sign. -/
def stripSign (s : Str) : Str :=
  if s.head? = some '-' ∨ s.head? = some '+' then s.tail else s

/-- The largest value of the integer type a `Param` names
(`std::numeric_limits<T>::max()`). -/
def intMax : Param → Nat
  | .INT => 2 ^ 31 - 1
  | .UINT => 2 ^ 32 - 1
  | .INT64 => 2 ^ 63 - 1
  | .UINT64 => 2 ^ 64 - 1
  | _ => 0

/-- The effect of the loop over `argv[1..]` on one record: a token with a single
dash whose key is a key of the record, and the token counted `number`-th among
the others, overwrite its value. -/
def overlay : List Str → Nat → CommandLineParserParams → CommandLineParserParams
  | [], _, p => p
  | s :: rest, jj, p =>
    if hasSingleDash s then overlay rest jj (set_if_key (key_value s).1 (key_value s).2 p)
    else overlay rest (jj + 1) (set_if_number (jj : Int) s p)

/-- The tokens that do not have the named form, in order. -/
def positionals (args : List Str) : List Str := args.filter (fun s => !hasSingleDash s)

/-- Positions that are not negative are not repeated. -/
def DistinctPos (data : List CommandLineParserParams) : Prop :=
  (data.map (fun p => p.number)).Pairwise (fun a b => 0 ≤ a → a ≠ b)

/-- The invariant of the loop over the blocks: positions are below the counter
and not repeated. -/
def BlocksInv (impl : Impl) (jj : Nat) : Prop :=
  DistinctPos impl.data ∧ ∀ p ∈ impl.data, p.number < (jj : Int)

/-- The public operations that can be called on a constructed parser. -/
inductive Op where
  | getByName (name : Str) (space_delete : Bool) (type : Param)
  | getByIndex (index : Int) (space_delete : Bool) (type : Param)
  | has (name : Str)
  | check
  | about (message : Str)
  | printErrors
  | printMessage
  | getPathToApplication

/-- The state after one operation.  `has`, `check`, `printErrors`,
`printMessage` and `getPathToApplication` are `const` methods. -/
def step (fl : FloatLib) (impl : Impl) : Op → Impl
  | .getByName name space_delete type => (getByName fl impl name space_delete type).1
  | .getByIndex index space_delete type => (getByIndex fl impl index space_delete type).1
  | .about message => about impl message
  | .has _ => impl
  | .check => impl
  | .printErrors => impl
  | .printMessage => impl
  | .getPathToApplication => impl

/-- The state after a sequence of operations. -/
def run (fl : FloatLib) : Impl → List Op → Impl
  | impl, [] => impl
  | impl, op :: ops => run fl (step fl impl op) ops

/-- The scan of the schema ends with an exception (not with undefined
behaviour). -/
def Throws (x : Except Failure (List Str)) : Prop :=
  ∃ e, x = .error e ∧ e ≠ Failure.undefined

/-- The key field of a block body: the text before its first `|`. -/
def keyField (block : Str) : Str := block.takeWhile (fun c => c ≠ '|')

/-- The key field contains a character that is not a space, that is, at least
one alias. -/
def hasAlias (block : Str) : Bool := (keyField block).any (fun c => c ≠ ' ')

/-- The aliases written in a block, in the order written. -/
def aliases (block : Str) : List Str := split_string (keyField block) ' ' false

/-- The first alias of a declaration starts with `@`. -/
def isPositional (p : CommandLineParserParams) : Bool :=
  p.keys.head?.bind List.head? == some '@'

/-- The invariant of the loop over the blocks for the positions: the positional
declarations so far carry `0, 1, ..., jj - 1` in this order, the others `-1`. -/
def PositionsInv (impl : Impl) (jj : Nat) : Prop :=
  (impl.data.filter isPositional).map (fun p => p.number) = (List.range jj).map Int.ofNat
    ∧ ∀ p ∈ impl.data, isPositional p = false → p.number = -1

/-- The reference split, first step: the text before the first occurrence of the
delimiter `c` and the segments that follow that occurrence (none when `c` does
not occur). -/
def first_and_rest (c : Char) : Str → Str × List Str
  | [] => ([], [])
  | d :: rest =>
    if d = c then ([], (first_and_rest c rest).1 :: (first_and_rest c rest).2)
    else (d :: (first_and_rest c rest).1, (first_and_rest c rest).2)

/-- The reference split of `s` at the delimiter `c`: the segments between the
occurrences of `c`, empty ones included. -/
def reference_split (s : Str) (c : Char) : List Str :=
  (first_and_rest c s).1 :: (first_and_rest c s).2

/-- The named form of a token, as the specification reads it: the token is
longer than one character and starts with `-`. -/
def namedForm (t : Str) : Bool := decide (1 < t.length ∧ t.head? = some '-')

/-- The other tokens, as the specification reads them: the length is at most 1
or the token does not start with `-`. -/
def positionalForm (t : Str) : Bool := decide (t.length ≤ 1 ∨ t.head? ≠ some '-')

/-- The key of a token in named form, as the specification reads it: one leading
`-` is stripped, or two when the token is longer than two characters and its
second character is `-` as well; the key is what remains, up to its first
`=`. -/
def tokenKey (t : Str) : Str :=
  (if 2 < t.length ∧ t.tail.head? = some '-' then t.drop 2 else t.drop 1).takeWhile
    (fun c => c ≠ '=')

/-! ## Concrete inputs -/

/-- A floating-point library for the concrete inputs (none of them asks for a
floating-point value). -/
def noFloat : FloatLib := ⟨fun _ => ⟨none, true⟩, fun _ => ⟨none, true⟩⟩

/-- The declarations of the schema `{@arg1||}{@arg2||}`. -/
def C2_schema : Impl :=
  { error := false, error_message := [], about_message := [], path_to_app := [],
    app_name := "app".toList,
    data := [⟨[], [], ["@arg1".toList], 0⟩, ⟨[], [], ["@arg2".toList], 1⟩] }

/-- The store built from `{@arg1||}{@arg2||}` and `app abc qwe`. -/
def C2_store : Impl :=
  { error := false, error_message := [], about_message := [], path_to_app := [],
    app_name := "app".toList,
    data := [⟨[], "abc".toList, ["@arg1".toList], 0⟩, ⟨[], "qwe".toList, ["@arg2".toList], 1⟩] }

/-- The store built from `{@x||}` and `app hello`. -/
def C3_store : Impl :=
  { error := false, error_message := [], about_message := [], path_to_app := [],
    app_name := "app".toList,
    data := [⟨[], "hello".toList, ["@x".toList], 0⟩] }

/-- The declarations of the schema `{@x||}`. -/
def C3_schema : Impl :=
  { error := false, error_message := [], about_message := [], path_to_app := [],
    app_name := "app".toList,
    data := [⟨[], [], ["@x".toList], 0⟩] }

/-- A store with an empty value, a `<none>` value between spaces and a plain
value. -/
def sample_store : Impl :=
  { error := false, error_message := "earlier\n".toList, about_message := [],
    path_to_app := [], app_name := "app".toList,
    data := [⟨[], [], ["e".toList], -1⟩, ⟨[], " <none> ".toList, ["r".toList], -1⟩,
             ⟨[], "7".toList, ["@p".toList], 0⟩] }

/-- The declarations of the schema `{n count| 100 |count of objects}`. -/
def C5_schema : Impl :=
  { error := false, error_message := [], about_message := [], path_to_app := [],
    app_name := "app".toList,
    data := [⟨"count of objects".toList, " 100 ".toList, ["n".toList, "count".toList], -1⟩] }

/-- The store built from `{n count| 100 |count of objects}` and `app`. -/
def C5_store : Impl :=
  { error := false, error_message := [], about_message := [], path_to_app := [],
    app_name := "app".toList,
    data := [⟨"count of objects".toList, " 100 ".toList, ["count".toList, "n".toList], -1⟩] }

/-- The store built from `{v||}` and `app -v=<TAB>5`. -/
def C7_store_tab : Impl :=
  { error := false, error_message := [], about_message := [], path_to_app := [],
    app_name := "app".toList,
    data := [⟨[], "\t5".toList, ["v".toList], -1⟩] }

/-- The store built from the schema `{v|a<NUL>b|}` and `app`. -/
def C7_store_nul : Impl :=
  { error := false, error_message := [], about_message := [], path_to_app := [],
    app_name := "app".toList,
    data := [⟨[], "a\x00b".toList, ["v".toList], -1⟩] }

/-- The store built from `{v||}` and `app -v=notanumber`. -/
def C7_store : Impl :=
  { error := false, error_message := [], about_message := [], path_to_app := [],
    app_name := "app".toList,
    data := [⟨[], "notanumber".toList, ["v".toList], -1⟩] }

/-- The store built from `{v|12abc|}` and `app`. -/
def C8_store : Impl :=
  { error := false, error_message := [], about_message := [], path_to_app := [],
    app_name := "app".toList,
    data := [⟨[], "12abc".toList, ["v".toList], -1⟩] }

/-- The store built from `{b||}` and `app -b=maybe`. -/
def C9_store : Impl :=
  { error := false, error_message := [], about_message := [], path_to_app := [],
    app_name := "app".toList,
    data := [⟨[], "maybe".toList, ["b".toList], -1⟩] }

/-- The declarations of the schema `{f||}`. -/
def C10_schema : Impl :=
  { error := false, error_message := [], about_message := [], path_to_app := [],
    app_name := "app".toList,
    data := [⟨[], [], ["f".toList], -1⟩] }

/-- The store built from `{f||}` and `app -f`. -/
def C10_store : Impl :=
  { error := false, error_message := [], about_message := [], path_to_app := [],
    app_name := "app".toList,
    data := [⟨[], "true".toList, ["f".toList], -1⟩] }

/-- A store in which two declarations list the key `k`. -/
def C15_store : Impl :=
  { error := false, error_message := [], about_message := [], path_to_app := [],
    app_name := "app".toList,
    data := [⟨[], "1".toList, ["k".toList], -1⟩, ⟨[], "2".toList, ["j".toList, "k".toList], -1⟩,
             ⟨[], "3".toList, ["m".toList], -1⟩] }

/-- The store built from the schema `{a|1|}{@p a|2|}` and `app`. -/
def C19_store : Impl :=
  { error := false, error_message := [], about_message := [], path_to_app := [],
    app_name := "app".toList,
    data := [⟨[], "1".toList, ["a".toList], -1⟩, ⟨[], "2".toList, ["@p".toList, "a".toList], 0⟩] }

/-- The declarations of the schema `{@b|200.0|}{s|str|}`. -/
def C19_schema_ok : Impl :=
  { error := false, error_message := [], about_message := [], path_to_app := [],
    app_name := "app".toList,
    data := [⟨[], "200.0".toList, ["@b".toList], 0⟩, ⟨[], "str".toList, ["s".toList], -1⟩] }

/-- The store built from the schema `{@b|200.0|}{s|str|}` and `app 7`. -/
def C19_store_ok : Impl :=
  { error := false, error_message := [], about_message := [], path_to_app := [],
    app_name := "app".toList,
    data := [⟨[], "str".toList, ["s".toList], -1⟩, ⟨[], "7".toList, ["@b".toList], 0⟩] }

/-- The store built from the schema `{{||}` and `app`. -/
def C12_store : Impl :=
  { error := false, error_message := [], about_message := [], path_to_app := [],
    app_name := "app".toList,
    data := [⟨[], [], ["\x7b".toList], -1⟩] }

/-- The store built from the schema `{t||}` and `./bin/my-executable`. -/
def C20_store : Impl :=
  { error := false, error_message := [], about_message := [],
    path_to_app := "./bin".toList, app_name := "my-executable".toList,
    data := [⟨[], [], ["t".toList], -1⟩] }

/-- The store built from the schema `{@x||}` and `app -@x=1 -@x=2 abc`. -/
def C16_store_positional : Impl :=
  { error := false, error_message := [], about_message := [], path_to_app := [],
    app_name := "app".toList,
    data := [⟨[], "abc".toList, ["@x".toList], 0⟩] }

/-- The declarations of the schema `{n count|100|}{s|str|}`. -/
def C16_schema : Impl :=
  { error := false, error_message := [], about_message := [], path_to_app := [],
    app_name := "app".toList,
    data := [⟨[], "100".toList, ["n".toList, "count".toList], -1⟩,
             ⟨[], "str".toList, ["s".toList], -1⟩] }

/-- The store built from the schema `{n count|100|}{s|str|}` and
`app -n=1 --count=2 -s=x`. -/
def C16_store : Impl :=
  { error := false, error_message := [], about_message := [], path_to_app := [],
    app_name := "app".toList,
    data := [⟨[], "2".toList, ["count".toList, "n".toList], -1⟩,
             ⟨[], "x".toList, ["s".toList], -1⟩] }

/-- The declarations of the schema `{help h||}{@a||}{ ||}{@b||}{s||}`. -/
def C14_schema : Impl :=
  { error := true, error_message := "Field KEYS could not be empty\n".toList,
    about_message := [], path_to_app := [], app_name := "app".toList,
    data := [⟨[], [], ["help".toList, "h".toList], -1⟩, ⟨[], [], ["@a".toList], 0⟩,
             ⟨[], [], ["@b".toList], 1⟩, ⟨[], [], ["s".toList], -1⟩] }

/-- The declarations of the schema `{@arg1||}{@arg2||}{v||}`. -/
def C2_schema_named : Impl :=
  { error := false, error_message := [], about_message := [], path_to_app := [],
    app_name := "app".toList,
    data := [⟨[], [], ["@arg1".toList], 0⟩, ⟨[], [], ["@arg2".toList], 1⟩,
             ⟨[], [], ["v".toList], -1⟩] }

/-- The store built from `{@arg1||}{@arg2||}{v||}` and `app -v=1 - --v qwe`. -/
def C2_store_named : Impl :=
  { error := false, error_message := [], about_message := [], path_to_app := [],
    app_name := "app".toList,
    data := [⟨[], "true".toList, ["v".toList], -1⟩, ⟨[], "-".toList, ["@arg1".toList], 0⟩,
             ⟨[], "qwe".toList, ["@arg2".toList], 1⟩] }

/-- The store built from the schema `{a||}{{b||}` and `app`. -/
def C11_store : Impl :=
  { error := false, error_message := [], about_message := [], path_to_app := [],
    app_name := "app".toList,
    data := [⟨[], [], ["a".toList], -1⟩, ⟨[], [], ["\x7bb".toList], -1⟩] }

/-! ## Lemmas -/

theorem hasKey_iff (p : CommandLineParserParams) (name : Str) :
    hasKey p name = true ↔ name ∈ p.keys := by
  unfold hasKey
  simp [List.any_eq_true]

theorem findByName_of_forall {data : List CommandLineParserParams} {name v : Str}
    (hex : ∃ p ∈ data, name ∈ p.keys)
    (hall : ∀ p ∈ data, name ∈ p.keys → p.def_value = v) :
    ∃ p, findByName data name = some p ∧ p.def_value = v := by
  unfold findByName
  cases h : data.find? (fun p => hasKey p name) with
  | none =>
    obtain ⟨p, hp, hk⟩ := hex
    have := List.find?_eq_none.mp h p hp
    simp [hasKey_iff] at this
    exact absurd hk this
  | some q =>
    refine ⟨q, rfl, hall q (List.mem_of_find?_eq_some h) ?_⟩
    have := List.find?_some h
    exact (hasKey_iff q name).mp this

theorem findByIndex_of_forall {data : List CommandLineParserParams} {i : Int} {v : Str}
    (hex : ∃ p ∈ data, p.number = i)
    (hall : ∀ p ∈ data, p.number = i → p.def_value = v) :
    ∃ p, findByIndex data i = some p ∧ p.def_value = v := by
  unfold findByIndex
  cases h : data.find? (fun p => decide (p.number = i)) with
  | none =>
    obtain ⟨p, hp, hk⟩ := hex
    have := List.find?_eq_none.mp h p hp
    simp at this
    exact absurd hk this
  | some q =>
    refine ⟨q, rfl, hall q (List.mem_of_find?_eq_some h) ?_⟩
    have := List.find?_some h
    simpa using this

theorem set_if_key_fields (key value : Str) (p : CommandLineParserParams) :
    (set_if_key key value p).keys = p.keys ∧ (set_if_key key value p).number = p.number
      ∧ (set_if_key key value p).help_message = p.help_message := by
  unfold set_if_key; split <;> exact ⟨rfl, rfl, rfl⟩

theorem set_if_number_fields (i : Int) (value : Str) (p : CommandLineParserParams) :
    (set_if_number i value p).keys = p.keys ∧ (set_if_number i value p).number = p.number
      ∧ (set_if_number i value p).help_message = p.help_message := by
  unfold set_if_number; split <;> exact ⟨rfl, rfl, rfl⟩

theorem hasKey_congr {p q : CommandLineParserParams} (h : p.keys = q.keys) (name : Str) :
    hasKey p name = hasKey q name := by
  unfold hasKey; rw [h]

theorem apply_index_eq_map (i : Nat) (value : Str) (data : List CommandLineParserParams)
    (h : DistinctPos data) :
    apply_index (i : Int) value data = data.map (set_if_number (i : Int) value) := by
  induction data with
  | nil => rfl
  | cons p ps ih =>
    unfold DistinctPos at h
    rw [List.map_cons, List.pairwise_cons] at h
    by_cases hp : p.number = (i : Int)
    · have hps : ∀ q ∈ ps, q.number ≠ (i : Int) := by
        intro q hq hqi
        have := h.1 q.number (List.mem_map_of_mem _ hq) (by rw [hp]; exact Int.ofNat_nonneg i)
        exact this (hp.trans hqi.symm)
      simp only [apply_index, set_if_number, hp, if_true, List.map_cons]
      congr 1
      symm
      conv_rhs => rw [← List.map_id ps]
      apply List.map_congr_left
      intro q hq
      simp [set_if_number, hps q hq]
    · simp only [apply_index, set_if_number, hp, if_false, List.map_cons]
      congr 1
      exact ih h.2

theorem overlay_fields (args : List Str) (jj : Nat) (p : CommandLineParserParams) :
    (overlay args jj p).keys = p.keys ∧ (overlay args jj p).number = p.number
      ∧ (overlay args jj p).help_message = p.help_message := by
  induction args generalizing jj p with
  | nil => exact ⟨rfl, rfl, rfl⟩
  | cons s rest ih =>
    unfold overlay
    split
    · obtain ⟨h1, h2, h3⟩ := ih jj (set_if_key (key_value s).1 (key_value s).2 p)
      obtain ⟨g1, g2, g3⟩ := set_if_key_fields (key_value s).1 (key_value s).2 p
      exact ⟨h1.trans g1, h2.trans g2, h3.trans g3⟩
    · obtain ⟨h1, h2, h3⟩ := ih (jj + 1) (set_if_number (jj : Int) s p)
      obtain ⟨g1, g2, g3⟩ := set_if_number_fields (jj : Int) s p
      exact ⟨h1.trans g1, h2.trans g2, h3.trans g3⟩

theorem distinctPos_map {f : CommandLineParserParams → CommandLineParserParams}
    (hf : ∀ p, (f p).number = p.number) {data : List CommandLineParserParams}
    (h : DistinctPos data) : DistinctPos (data.map f) := by
  unfold DistinctPos at *
  rw [List.map_map]
  have : ((fun p => p.number) ∘ f) = (fun p : CommandLineParserParams => p.number) := by
    funext p; exact hf p
  rw [this]; exact h

theorem parse_argv_eq (args : List Str) (jj : Nat) (impl : Impl) (h : DistinctPos impl.data) :
    parse_argv args jj impl = { impl with data := impl.data.map (overlay args jj) } := by
  induction args generalizing jj impl with
  | nil => simp [parse_argv, overlay]
  | cons s rest ih =>
    unfold parse_argv
    split
    · rename_i hs
      rw [ih jj _ (distinctPos_map (fun p => (set_if_key_fields _ _ p).2.1) h)]
      simp only [Impl.apply_params, List.map_map]
      congr 1
      apply List.map_congr_left
      intro p _
      simp [overlay, hs]
    · rename_i hs
      have hd : DistinctPos (impl.apply_params_index (jj : Int) s).data := by
        simp only [Impl.apply_params_index]
        rw [apply_index_eq_map jj s impl.data h]
        exact distinctPos_map (fun p => (set_if_number_fields _ _ p).2.1) h
      rw [ih (jj + 1) _ hd]
      simp only [Impl.apply_params_index]
      rw [apply_index_eq_map jj s impl.data h]
      simp only [List.map_map]
      congr 1
      apply List.map_congr_left
      intro p _
      simp [overlay, hs]

theorem distinctPos_append_single {data : List CommandLineParserParams}
    {q : CommandLineParserParams} (h : DistinctPos data)
    (hq : ∀ p ∈ data, 0 ≤ p.number → p.number ≠ q.number) : DistinctPos (data ++ [q]) := by
  unfold DistinctPos at *
  rw [List.map_append, List.pairwise_append]
  refine ⟨h, by simp, ?_⟩
  intro a ha b hb
  rw [List.mem_map] at ha
  obtain ⟨p, hp, rfl⟩ := ha
  simp only [List.map_cons, List.map_nil, List.mem_singleton] at hb
  subst hb
  exact hq p hp

theorem parse_block_inv {impl : Impl} {jj : Nat} {block : Str} {r : Impl × Nat}
    (hinv : BlocksInv impl jj) (h : parse_block impl jj block = .ok r) : BlocksInv r.1 r.2 := by
  unfold parse_block at h
  split at h
  · dsimp only at h
    split at h
    · cases h; exact hinv
    · split at h
      · cases h
        refine ⟨distinctPos_append_single hinv.1 ?_, ?_⟩
        · intro p hp _
          have := hinv.2 p hp
          simp only
          omega
        · intro p hp
          rw [List.mem_append, List.mem_singleton] at hp
          rcases hp with hp | rfl
          · have := hinv.2 p hp
            push_cast
            omega
          · push_cast
            simp
      · cases h
        refine ⟨distinctPos_append_single hinv.1 ?_, ?_⟩
        · intro p hp h0
          simp only
          omega
        · intro p hp
          rw [List.mem_append, List.mem_singleton] at hp
          rcases hp with hp | rfl
          · exact hinv.2 p hp
          · simp only
            omega
  · cases h

theorem parse_keys_inv (blocks : List Str) {impl : Impl} {jj : Nat} {r : Impl × Nat}
    (hinv : BlocksInv impl jj) (h : parse_keys blocks impl jj = .ok r) : BlocksInv r.1 r.2 := by
  induction blocks generalizing impl jj with
  | nil => simp only [parse_keys] at h; cases h; exact hinv
  | cons b bs ih =>
    simp only [parse_keys] at h
    split at h
    · cases h
    · rename_i r1 hb
      exact ih (parse_block_inv hinv hb) h

theorem parse_schema_distinct {argv0 keys : Str} {impl : Impl}
    (h : parse_schema argv0 keys = .ok impl) : DistinctPos impl.data := by
  unfold parse_schema at h
  simp only at h
  split at h
  · cases h
  · split at h
    · cases h
    · rename_i r hr
      cases h
      refine (parse_keys_inv _ ?_ hr).1
      exact ⟨by simp [DistinctPos], by simp⟩

theorem hasKey_sort_keys (p : CommandLineParserParams) (name : Str) :
    hasKey (sort_keys p) name = hasKey p name := by
  have h : ∀ q : CommandLineParserParams, hasKey q name = decide (name ∈ q.keys) := by
    intro q
    rw [Bool.eq_iff_iff, hasKey_iff]; simp
  rw [h, h]
  simp only [sort_keys]
  congr 1
  exact propext (List.perm_insertionSort _ _).mem_iff

theorem mem_sort_params {impl : Impl} {q : CommandLineParserParams} :
    q ∈ impl.sort_params.data ↔ ∃ p ∈ impl.data, q = sort_keys p := by
  simp only [Impl.sort_params]
  rw [(List.perm_insertionSort _ _).mem_iff, List.mem_map]
  constructor
  · rintro ⟨p, hp, rfl⟩; exact ⟨p, hp, rfl⟩
  · rintro ⟨p, hp, rfl⟩; exact ⟨p, hp, rfl⟩

/-- The store built by the constructor: every declaration of the schema, with the
value the arguments give it and its keys sorted, in some order. -/
theorem constructed_store {argv0 keys : Str} {args : List Str} {impl st : Impl}
    (hs : parse_schema argv0 keys = .ok impl)
    (hc : CommandLineParser (argv0 :: args) keys = .ok st) :
    (∀ q, q ∈ st.data ↔ ∃ p ∈ impl.data, q = sort_keys (overlay args 0 p))
      ∧ st.error = impl.error ∧ st.error_message = impl.error_message := by
  unfold CommandLineParser at hc
  simp only [hs] at hc
  cases hc
  rw [parse_argv_eq args 0 impl (parse_schema_distinct hs)]
  refine ⟨?_, rfl, rfl⟩
  intro q
  rw [mem_sort_params]
  simp only [List.mem_map]
  constructor
  · rintro ⟨p, ⟨p0, hp0, rfl⟩, rfl⟩; exact ⟨p0, hp0, rfl⟩
  · rintro ⟨p0, hp0, rfl⟩; exact ⟨_, ⟨p0, hp0, rfl⟩, rfl⟩

theorem set_if_key_of_not {key value : Str} {p : CommandLineParserParams}
    (h : key ∉ p.keys) : set_if_key key value p = p := by
  unfold set_if_key
  rw [if_neg]
  rw [hasKey_iff]; exact h

theorem set_if_key_of_mem {key value : Str} {p : CommandLineParserParams}
    (h : key ∈ p.keys) : (set_if_key key value p).def_value = value := by
  unfold set_if_key
  rw [if_pos ((hasKey_iff p key).mpr h)]

/-- Tokens that neither name the record nor reach its position leave it alone. -/
theorem overlay_untouched (args : List Str) (jj : Nat) (p : CommandLineParserParams)
    (hnamed : ∀ t ∈ args, hasSingleDash t = true → (key_value t).1 ∉ p.keys)
    (hpos : p.number < (jj : Int)) : overlay args jj p = p := by
  induction args generalizing jj with
  | nil => rfl
  | cons s rest ih =>
    have hrest : ∀ t ∈ rest, hasSingleDash t = true → (key_value t).1 ∉ p.keys :=
      fun t ht => hnamed t (List.mem_cons_of_mem _ ht)
    unfold overlay
    split
    · rename_i hs
      rw [set_if_key_of_not (hnamed s (List.mem_cons_self _ _) hs)]
      exact ih jj hrest hpos
    · have hne : ¬ p.number = (jj : Int) := by omega
      simp only [set_if_number, hne, if_false]
      exact ih (jj + 1) hrest (by push_cast; omega)

theorem positionals_cons_named {s : Str} (rest : List Str) (hs : hasSingleDash s = true) :
    positionals (s :: rest) = positionals rest := by
  simp [positionals, List.filter_cons, hs]

theorem positionals_cons_other {s : Str} (rest : List Str) (hs : ¬ hasSingleDash s = true) :
    positionals (s :: rest) = s :: positionals rest := by
  simp [positionals, List.filter_cons, hs]

theorem overlay_cons_named {s : Str} (rest : List Str) (jj : Nat)
    (p : CommandLineParserParams) (hs : hasSingleDash s = true) :
    overlay (s :: rest) jj p = overlay rest jj (set_if_key (key_value s).1 (key_value s).2 p) := by
  rw [overlay, if_pos hs]

theorem overlay_cons_other {s : Str} (rest : List Str) (jj : Nat)
    (p : CommandLineParserParams) (hs : ¬ hasSingleDash s = true) :
    overlay (s :: rest) jj p = overlay rest (jj + 1) (set_if_number (jj : Int) s p) := by
  rw [overlay, if_neg hs]

theorem overlay_append (a b : List Str) (jj : Nat) (p : CommandLineParserParams) :
    overlay (a ++ b) jj p = overlay b (jj + (positionals a).length) (overlay a jj p) := by
  induction a generalizing jj p with
  | nil => simp [overlay, positionals]
  | cons s rest ih =>
    by_cases hs : hasSingleDash s = true
    · rw [positionals_cons_named rest hs, List.cons_append, overlay_cons_named _ _ _ hs,
        overlay_cons_named _ _ _ hs]
      exact ih _ _
    · rw [positionals_cons_other rest hs, List.cons_append, overlay_cons_other _ _ _ hs,
        overlay_cons_other _ _ _ hs, ih, List.length_cons]
      congr 1
      omega

/-- The value a declaration without a position has after the loop over the
arguments is the value of the last token whose key is one of its keys. -/
theorem overlay_last_named (pre post : List Str) (T : Str) (jj : Nat)
    (d : CommandLineParserParams) (hn : d.number < 0)
    (hT : hasSingleDash T = true) (hk : (key_value T).1 ∈ d.keys)
    (hlast : ∀ t ∈ post, hasSingleDash t = true → (key_value t).1 ∉ d.keys) :
    (overlay (pre ++ T :: post) jj d).def_value = (key_value T).2 := by
  rw [overlay_append]
  obtain ⟨hk1, hn1, _⟩ := overlay_fields pre jj d
  generalize overlay pre jj d = d1 at hk1 hn1
  rw [overlay_cons_named _ _ _ hT]
  obtain ⟨hk2, hn2, _⟩ := set_if_key_fields (key_value T).1 (key_value T).2 d1
  rw [overlay_untouched]
  · exact set_if_key_of_mem (hk1 ▸ hk)
  · intro t ht hst
    rw [hk2, hk1]; exact hlast t ht hst
  · rw [hn2, hn1]
    have : (0 : Int) ≤ ((jj + (positionals pre).length : Nat) : Int) := Int.ofNat_nonneg _
    omega

/-- A declaration that shares a key with `d` is `d`, when aliases are unique. -/
theorem eq_of_shared_key {data : List CommandLineParserParams} (hu : UniqueAliases data)
    {p d : CommandLineParserParams} (hp : p ∈ data) (hd : d ∈ data) {b : Str}
    (hbp : b ∈ p.keys) (hbd : b ∈ d.keys) : p = d := by
  by_contra hne
  have hsymm : Symmetric (fun p q : CommandLineParserParams => ∀ k ∈ p.keys, k ∉ q.keys) := by
    intro x y hxy k hky hkx
    exact hxy k hkx hky
  exact List.Pairwise.forall hsymm hu hp hd hne b hbp hbd

/-- In the constructed store, looking up an alias of the declaration `d` that no
other declaration lists finds the value the arguments give to `d`. -/
theorem constructed_findByName_of_only {argv0 keys : Str} {args : List Str} {impl st : Impl}
    (hs : parse_schema argv0 keys = .ok impl)
    (hc : CommandLineParser (argv0 :: args) keys = .ok st)
    {d : CommandLineParserParams} (hd : d ∈ impl.data)
    {b : Str} (hb : b ∈ d.keys) (honly : ∀ p ∈ impl.data, b ∈ p.keys → p = d) :
    ∃ q, findByName st.data b = some q ∧ q.def_value = (overlay args 0 d).def_value := by
  obtain ⟨hmem, _, _⟩ := constructed_store hs hc
  have hkeys : ∀ p, b ∈ (sort_keys (overlay args 0 p)).keys ↔ b ∈ p.keys := by
    intro p
    rw [← hasKey_iff, hasKey_sort_keys, hasKey_iff, (overlay_fields args 0 p).1]
  apply findByName_of_forall
  · exact ⟨_, (hmem _).mpr ⟨d, hd, rfl⟩, (hkeys d).mpr hb⟩
  · intro q hq hbq
    obtain ⟨p, hp, rfl⟩ := (hmem q).mp hq
    have : p = d := honly p hp ((hkeys p).mp hbq)
    subst this
    rfl

/-- In the constructed store, looking up an alias of the declaration `d` of a
schema with unique aliases finds the value the arguments give to `d`. -/
theorem constructed_findByName {argv0 keys : Str} {args : List Str} {impl st : Impl}
    (hs : parse_schema argv0 keys = .ok impl)
    (hc : CommandLineParser (argv0 :: args) keys = .ok st)
    (hu : UniqueAliases impl.data) {d : CommandLineParserParams} (hd : d ∈ impl.data)
    {b : Str} (hb : b ∈ d.keys) :
    ∃ q, findByName st.data b = some q ∧ q.def_value = (overlay args 0 d).def_value :=
  constructed_findByName_of_only hs hc hd hb
    (fun _ hp hbp => eq_of_shared_key hu hp hd hbp hb)

/-- A name that no declaration of the schema lists is found in no record of the
constructed store. -/
theorem constructed_findByName_none {argv0 keys : Str} {args : List Str} {impl st : Impl}
    (hs : parse_schema argv0 keys = .ok impl)
    (hc : CommandLineParser (argv0 :: args) keys = .ok st)
    {x : Str} (hx : ∀ p ∈ impl.data, x ∉ p.keys) : findByName st.data x = none := by
  obtain ⟨hmem, _, _⟩ := constructed_store hs hc
  unfold findByName
  rw [List.find?_eq_none]
  intro q hq
  obtain ⟨p, hp, rfl⟩ := (hmem q).mp hq
  rw [hasKey_sort_keys, hasKey_congr (overlay_fields args 0 p).1, hasKey_iff]
  exact hx p hp

/-- The search by name returns the first record that lists the name. -/
theorem findByName_first {front : List CommandLineParserParams}
    (back : List CommandLineParserParams) {p : CommandLineParserParams} {name : Str}
    (hfront : ∀ q ∈ front, name ∉ q.keys) (hp : name ∈ p.keys) :
    findByName (front ++ p :: back) name = some p := by
  unfold findByName
  induction front with
  | nil => simp [List.find?_cons, (hasKey_iff p name).mpr hp]
  | cons q qs ih =>
    have hq : hasKey q name = false := by
      rw [Bool.eq_false_iff, Ne, hasKey_iff]
      exact hfront q (List.mem_cons_self _ _)
    rw [List.cons_append, List.find?_cons, hq]
    exact ih (fun r hr => hfront r (List.mem_cons_of_mem _ hr))

/-- The search by position returns the first record that has the position. -/
theorem findByIndex_first {front : List CommandLineParserParams}
    (back : List CommandLineParserParams) {p : CommandLineParserParams} {index : Int}
    (hfront : ∀ q ∈ front, q.number ≠ index) (hp : p.number = index) :
    findByIndex (front ++ p :: back) index = some p := by
  unfold findByIndex
  induction front with
  | nil => simp [List.find?_cons, hp]
  | cons q qs ih =>
    have hq : decide (q.number = index) = false := by
      simpa using hfront q (List.mem_cons_self _ _)
    rw [List.cons_append, List.find?_cons, hq]
    exact ih (fun r hr => hfront r (List.mem_cons_of_mem _ hr))

theorem set_if_number_of_ne {i : Int} {value : Str} {p : CommandLineParserParams}
    (h : p.number ≠ i) : set_if_number i value p = p := by
  unfold set_if_number
  rw [if_neg h]

theorem set_if_number_of_eq {i : Int} {value : Str} {p : CommandLineParserParams}
    (h : p.number = i) : (set_if_number i value p).def_value = value := by
  unfold set_if_number
  rw [if_pos h]

/-- The value a declaration with position `jj + i` has after the loop over the
arguments, when no token names it: the `i`-th token that is not in named form,
or its old value when there are not that many. -/
theorem overlay_positional (args : List Str) (jj i : Nat) (p : CommandLineParserParams)
    (hnum : p.number = ((jj + i : Nat) : Int))
    (hnamed : ∀ t ∈ args, hasSingleDash t = true → (key_value t).1 ∉ p.keys) :
    (overlay args jj p).def_value = ((positionals args)[i]?).getD p.def_value := by
  induction args generalizing jj i p with
  | nil => simp [overlay, positionals]
  | cons s rest ih =>
    have hrest : ∀ t ∈ rest, hasSingleDash t = true → (key_value t).1 ∉ p.keys :=
      fun t ht => hnamed t (List.mem_cons_of_mem _ ht)
    by_cases hs : hasSingleDash s = true
    · rw [overlay_cons_named _ _ _ hs, positionals_cons_named _ hs,
        set_if_key_of_not (hnamed s (List.mem_cons_self _ _) hs)]
      exact ih jj i p hnum hrest
    · rw [overlay_cons_other _ _ _ hs, positionals_cons_other _ hs]
      cases i with
      | zero =>
        obtain ⟨hk, hn, _⟩ := set_if_number_fields (jj : Int) s p
        rw [overlay_untouched rest (jj + 1) _ (by rw [hk]; exact hrest)
          (by rw [hn, hnum]; push_cast; omega)]
        rw [set_if_number_of_eq (by rw [hnum]; simp)]
        simp
      | succ k =>
        rw [set_if_number_of_ne (by rw [hnum]; push_cast; omega)]
        rw [ih (jj + 1) k p (by rw [hnum]; push_cast; omega) hrest]
        simp

theorem eq_of_same_position {data : List CommandLineParserParams} (h : DistinctPos data)
    {p d : CommandLineParserParams} (hp : p ∈ data) (hd : d ∈ data)
    (h0 : 0 ≤ d.number) (heq : p.number = d.number) : p = d := by
  by_contra hne
  unfold DistinctPos at h
  rw [List.pairwise_map] at h
  have hsymm : Symmetric (fun a b : CommandLineParserParams =>
      0 ≤ a.number → a.number ≠ b.number) := by
    intro x y hxy hy hyx
    exact hxy (hyx ▸ hy) hyx.symm
  exact List.Pairwise.forall hsymm h hp hd hne (heq ▸ h0) heq

/-- In the constructed store, looking up the position of the declaration `d`
finds the value the arguments give to `d`. -/
theorem constructed_findByIndex {argv0 keys : Str} {args : List Str} {impl st : Impl}
    (hs : parse_schema argv0 keys = .ok impl)
    (hc : CommandLineParser (argv0 :: args) keys = .ok st)
    {d : CommandLineParserParams} (hd : d ∈ impl.data) {i : Nat} (hi : d.number = (i : Int)) :
    ∃ q, findByIndex st.data (i : Int) = some q
      ∧ q.def_value = (overlay args 0 d).def_value := by
  obtain ⟨hmem, _, _⟩ := constructed_store hs hc
  have hnum : ∀ p, (sort_keys (overlay args 0 p)).number = p.number := by
    intro p
    simp only [sort_keys]
    exact (overlay_fields args 0 p).2.1
  apply findByIndex_of_forall
  · exact ⟨_, (hmem _).mpr ⟨d, hd, rfl⟩, (hnum d).trans hi⟩
  · intro q hq hqi
    obtain ⟨p, hp, rfl⟩ := (hmem q).mp hq
    have : p = d := eq_of_same_position (parse_schema_distinct hs) hp hd
      (by rw [hi]; exact Int.ofNat_nonneg i) (by rw [← hnum p, hqi, hi])
    subst this
    rfl

theorem retrieve_string (fl : FloatLib) (impl : Impl) (missing pre v : Str)
    (space_delete : Bool)
    (h : (if space_delete then cat_string v else v) ≠ noneValue) :
    retrieve fl impl missing pre v space_delete Param.STRING
      = (impl, some (Value.str (if space_delete then cat_string v else v))) := by
  unfold retrieve
  simp only
  rw [if_neg (by simp [h])]
  simp [from_str, from_str_extract]

theorem isdigit_not_special {c : Char} (h : isdigit c = true) :
    isspace c = false ∧ c ≠ '-' ∧ c ≠ '+' ∧ c ≠ '\x00' ∧ c ≠ '<' := by
  refine ⟨?_, ?_, ?_, ?_, ?_⟩
  · cases hsp : isspace c with
    | false => rfl
    | true =>
      simp only [isspace, Bool.or_eq_true, decide_eq_true_eq] at hsp
      rcases hsp with ((((rfl | rfl) | rfl) | rfl) | rfl) | rfl <;> revert h <;> decide
  all_goals (rintro rfl; revert h; decide)

theorem takeWhile_isdigit_field {ds rest : Str} (hds : ∀ c ∈ ds, isdigit c = true)
    (hrest : NoDigitHead rest) : (ds ++ rest).takeWhile isdigit = ds := by
  rw [List.takeWhile_append_of_pos hds]
  cases rest with
  | nil => simp
  | cons c r => rw [List.takeWhile_cons_of_neg (by simp [hrest c r rfl])]; simp

theorem c_str_digits (ds rest : Str) (hds : ∀ c ∈ ds, isdigit c = true) :
    c_str (ds ++ rest) = ds ++ c_str rest := by
  unfold c_str
  exact List.takeWhile_append_of_pos
    (fun c hc => by simpa using (isdigit_not_special (hds c hc)).2.2.2.1)

theorem noDigitHead_c_str {rest : Str} (h : NoDigitHead rest) : NoDigitHead (c_str rest) := by
  intro c r hcr
  cases rest with
  | nil => simp [c_str] at hcr
  | cons x xs =>
    unfold c_str at hcr
    by_cases hx : x = '\x00'
    · rw [List.takeWhile_cons_of_neg (by simp [hx])] at hcr
      cases hcr
    · rw [List.takeWhile_cons_of_pos (by simp [hx])] at hcr
      cases hcr
      exact h c xs rfl

theorem intField_plain {ds rest : Str} (hds : ∀ c ∈ ds, isdigit c = true) (hne : ds ≠ [])
    (hrest : NoDigitHead rest) :
    (ds ++ rest).dropWhile isspace ≠ [] ∧ intField (ds ++ rest) = (false, ds) := by
  cases ds with
  | nil => exact absurd rfl hne
  | cons c cs =>
    obtain ⟨hsp, hm, hp, _, _⟩ := isdigit_not_special (hds c (List.mem_cons_self _ _))
    have hdrop : (c :: cs ++ rest).dropWhile isspace = c :: cs ++ rest := by
      rw [List.cons_append, List.dropWhile_cons_of_neg (by simp [hsp])]
    refine ⟨by rw [hdrop]; simp, ?_⟩
    unfold intField
    simp only [hdrop]
    rw [if_neg (by simpa using hm), if_neg (by simpa using hp), takeWhile_isdigit_field hds hrest]

theorem intField_signed (sign : Char) (hsign : sign = '-' ∨ sign = '+') {ds rest : Str}
    (hds : ∀ c ∈ ds, isdigit c = true) (hrest : NoDigitHead rest) :
    (sign :: (ds ++ rest)).dropWhile isspace ≠ []
      ∧ intField (sign :: (ds ++ rest)) = (decide (sign = '-'), ds) := by
  have hsp : isspace sign = false := by rcases hsign with rfl | rfl <;> decide
  have hdrop : (sign :: (ds ++ rest)).dropWhile isspace = sign :: (ds ++ rest) := by
    rw [List.dropWhile_cons_of_neg (by simp [hsp])]
  refine ⟨by rw [hdrop]; simp, ?_⟩
  unfold intField
  simp only [hdrop, List.head?_cons, List.tail_cons, takeWhile_isdigit_field hds hrest]
  rcases hsign with rfl | rfl <;> simp

theorem extract_signed_of_field {bits : Nat} {content ds : Str} {neg : Bool}
    (h : content.dropWhile isspace ≠ [] ∧ intField content = (neg, ds)) (hne : ds ≠ []) :
    extract_signed bits content
      = (if (if neg then -(digitsValue ds : Int) else (digitsValue ds : Int))
            > 2 ^ (bits - 1) - 1 then ⟨some (.int (2 ^ (bits - 1) - 1)), true⟩
         else if (if neg then -(digitsValue ds : Int) else (digitsValue ds : Int))
            < -(2 ^ (bits - 1)) then ⟨some (.int (-(2 ^ (bits - 1)))), true⟩
         else ⟨some (.int (if neg then -(digitsValue ds : Int) else (digitsValue ds : Int))),
                false⟩) := by
  unfold extract_signed
  rw [if_neg h.1]
  simp only [h.2]
  rw [if_neg hne]

theorem extract_unsigned_of_field {bits : Nat} {content ds : Str} {neg : Bool}
    (h : content.dropWhile isspace ≠ [] ∧ intField content = (neg, ds)) (hne : ds ≠ []) :
    extract_unsigned bits content
      = (if digitsValue ds > 2 ^ bits - 1 then ⟨some (.int ((2 ^ bits - 1 : Nat) : Int)), true⟩
         else if neg then
           ⟨some (.int (((2 ^ bits - digitsValue ds) % 2 ^ bits : Nat) : Int)), false⟩
         else ⟨some (.int (digitsValue ds : Int)), false⟩) := by
  unfold extract_unsigned
  rw [if_neg h.1]
  simp only [h.2]
  rw [if_neg hne]

theorem from_str_of_extract {fl : FloatLib} {str : Str} {type : Param} {e : Extraction}
    (h : from_str_extract fl str type = some e) :
    from_str fl str type
      = (if e.fail then
          ⟨e.stored, some (c_str ("can not convert: [".toList ++ str ++ "] to [".toList
            ++ get_type_name type ++ "]".toList))⟩
         else ⟨e.stored, none⟩) := by
  unfold from_str
  rw [h]

theorem retrieve_ok {fl : FloatLib} {impl : Impl} {missing pre def_value : Str}
    {space_delete : Bool} {type : Param} {x : Option Value}
    (hv : ¬ (((if space_delete then cat_string def_value else def_value) = []
        ∧ type ≠ Param.STRING)
      ∨ (if space_delete then cat_string def_value else def_value) = noneValue))
    (h : from_str fl (if space_delete then cat_string def_value else def_value) type
      = ⟨x, none⟩) :
    retrieve fl impl missing pre def_value space_delete type = (impl, x) := by
  unfold retrieve
  simp only
  rw [if_neg hv, h]

theorem retrieve_thrown {fl : FloatLib} {impl : Impl} {missing pre def_value : Str}
    {space_delete : Bool} {type : Param} (x : Option Value) (what : Str)
    (hv : ¬ (((if space_delete then cat_string def_value else def_value) = []
        ∧ type ≠ Param.STRING)
      ∨ (if space_delete then cat_string def_value else def_value) = noneValue))
    (h : from_str fl (if space_delete then cat_string def_value else def_value) type
      = ⟨x, some what⟩) :
    retrieve fl impl missing pre def_value space_delete type
      = ({ impl with error := true,
                     error_message := impl.error_message ++ pre ++ what ++ "\n".toList }, x) := by
  unfold retrieve
  simp only
  rw [if_neg hv, h]

theorem eq_cons_of_head? {s : Str} {c : Char} (h : s.head? = some c) : s = c :: s.tail := by
  cases s with
  | nil => simp at h
  | cons x xs => simp only [List.head?_cons, Option.some.injEq] at h; subst h; rfl

theorem c_str_sign_digits (sign : Char) (hsign : sign = '-' ∨ sign = '+') (ds rest : Str)
    (hds : ∀ c ∈ ds, isdigit c = true) :
    c_str (sign :: (ds ++ rest)) = sign :: (ds ++ c_str rest) := by
  have := c_str_digits ds rest hds
  unfold c_str at this ⊢
  rw [List.takeWhile_cons_of_pos (by rcases hsign with rfl | rfl <;> decide), this]

theorem decimalInteger_extract {v : Str} {n : Int} (h : decimalInteger v = some n)
    (hlo : -(2 ^ 31) ≤ n) (hhi : n ≤ 2 ^ 31 - 1) :
    v ≠ [] ∧ v ≠ noneValue ∧ extract_signed 32 (c_str v) = ⟨some (.int n), false⟩ := by
  have hnone : v ≠ noneValue := by
    intro hv
    have : decimalInteger noneValue = none := by decide
    rw [hv, this] at h
    cases h
  have hnil : NoDigitHead [] := fun _ _ hh => by cases hh
  have hcnil : c_str [] = [] := rfl
  refine ⟨?_, hnone, ?_⟩
  · rintro rfl
    simp [decimalInteger] at h
  unfold decimalInteger at h
  by_cases hm : v.head? = some '-'
  · rw [if_pos hm] at h
    by_cases hr : v.tail ≠ [] ∧ v.tail.all isdigit = true
    · rw [if_pos hr] at h
      cases h
      have hds : ∀ x ∈ v.tail, isdigit x = true := by simpa [List.all_eq_true] using hr.2
      have hv : v = '-' :: (v.tail ++ []) := by simpa using eq_cons_of_head? hm
      generalize v.tail = r at hv hds hr hlo hhi ⊢
      subst hv
      rw [c_str_sign_digits '-' (Or.inl rfl) r [] hds, hcnil,
        extract_signed_of_field (intField_signed '-' (Or.inl rfl) hds hnil) hr.1]
      simp only [decide_True, if_true]
      rw [if_neg (by omega), if_neg (by omega)]
    · rw [if_neg hr] at h; cases h
  · rw [if_neg hm] at h
    by_cases hp : v.head? = some '+'
    · rw [if_pos hp] at h
      by_cases hr : v.tail ≠ [] ∧ v.tail.all isdigit = true
      · rw [if_pos hr] at h
        cases h
        have hds : ∀ x ∈ v.tail, isdigit x = true := by simpa [List.all_eq_true] using hr.2
        have hv : v = '+' :: (v.tail ++ []) := by simpa using eq_cons_of_head? hp
        generalize v.tail = r at hv hds hr hlo hhi ⊢
        subst hv
        rw [c_str_sign_digits '+' (Or.inr rfl) r [] hds, hcnil,
          extract_signed_of_field (intField_signed '+' (Or.inr rfl) hds hnil) hr.1]
        simp only [show decide ('+' = '-') = false by decide, Bool.false_eq_true, if_false]
        rw [if_neg (by omega), if_neg (by omega)]
      · rw [if_neg hr] at h; cases h
    · rw [if_neg hp] at h
      by_cases hr : v ≠ [] ∧ v.all isdigit = true
      · rw [if_pos hr] at h
        cases h
        have hds : ∀ x ∈ v, isdigit x = true := by simpa [List.all_eq_true] using hr.2
        have hcs : c_str v = v ++ [] := by
          have := c_str_digits v [] hds
          rw [hcnil] at this
          simpa using this
        rw [hcs, extract_signed_of_field (intField_plain hds hr.1 hnil) hr.1]
        simp only [Bool.false_eq_true, if_false]
        rw [if_neg (by omega), if_neg (by omega)]
      · rw [if_neg hr] at h; cases h

/-- The missing-parameter outcome of `retrieve` occurs exactly under the test of
the source; the two other outcomes differ from it in the error text. -/
theorem retrieve_missing_iff (fl : FloatLib) (impl : Impl) (missing pre def_value : Str)
    (space_delete : Bool) (type : Param)
    (hM : missing.head? = some 'M') (hP : pre.head? = some 'P') :
    retrieve fl impl missing pre def_value space_delete type
        = ({ impl with error := true, error_message := impl.error_message ++ missing }, none)
      ↔ (((if space_delete then cat_string def_value else def_value) = []
            ∧ type ≠ Param.STRING)
          ∨ (if space_delete then cat_string def_value else def_value) = noneValue) := by
  have hm : missing = 'M' :: missing.tail := eq_cons_of_head? hM
  have hp : pre = 'P' :: pre.tail := eq_cons_of_head? hP
  unfold retrieve
  simp only
  constructor
  · intro h
    by_contra hc
    rw [if_neg hc] at h
    split at h
    · have h2 := congrArg (fun x : Impl × Option Value => x.1.error_message) h
      simp only [List.append_assoc] at h2
      have h3 := List.append_cancel_left h2
      rw [hm, hp] at h3
      simp only [List.cons_append, List.cons.injEq] at h3
      exact absurd h3.1 (by decide)
    · have h2 := congrArg (fun x : Impl × Option Value => x.1.error_message) h
      simp only at h2
      have h3 : missing = [] := by simpa using h2
      rw [h3] at hM
      simp at hM
  · intro hc
    rw [if_pos hc]

theorem takeWhile_isdigit_nil {r : Str} (h : NoDigitHead r) : r.takeWhile isdigit = [] := by
  cases r with
  | nil => rfl
  | cons c cs => rw [List.takeWhile_cons_of_neg (by simp [h c cs rfl])]

theorem c_str_of_no_nul {s : Str} (h : '\x00' ∉ s) : c_str s = s := by
  unfold c_str
  rw [List.takeWhile_eq_self_iff]
  intro c hc
  simp only [ne_eq, decide_not, Bool.not_eq_true', decide_eq_false_iff_not]
  rintro rfl
  exact h hc

/-- Extraction of a signed integer fails, storing nothing or `0`, when the text
after white space and a sign does not start with a digit. -/
theorem extract_signed_no_digit (bits : Nat) (content : Str)
    (h : NoDigitHead (stripSign (content.dropWhile isspace))) :
    (extract_signed bits content).fail = true
      ∧ ((extract_signed bits content).stored).getD (Value.int 0) = Value.int 0 := by
  unfold extract_signed
  by_cases hd : content.dropWhile isspace = []
  · rw [if_pos hd]; exact ⟨rfl, rfl⟩
  · rw [if_neg hd]
    have hf : (intField content).2 = [] := by
      unfold intField
      unfold stripSign at h
      by_cases hm : (content.dropWhile isspace).head? = some '-'
      · rw [if_pos (Or.inl hm)] at h
        simp only [hm, if_true]
        exact takeWhile_isdigit_nil h
      · by_cases hp : (content.dropWhile isspace).head? = some '+'
        · rw [if_pos (Or.inr hp)] at h
          simp only [hm, hp, if_true, if_false]
          exact takeWhile_isdigit_nil h
        · rw [if_neg (by rintro (x | x); exact hm x; exact hp x)] at h
          simp only [hm, hp, if_false]
          exact takeWhile_isdigit_nil h
    simp only [hf]
    simp

theorem find_eq_none {s : Str} {c : Char} (h : c ∉ s) : find s c = none := by
  induction s with
  | nil => rfl
  | cons d ds ih =>
    rw [List.mem_cons, not_or] at h
    unfold find
    rw [if_neg (fun hd => h.1 hd.symm), ih h.2]
    rfl

/-- A token without `=` has the literal value `true`. -/
theorem key_value_bare {T : Str} (h : '=' ∉ T) : (key_value T).2 = "true".toList := by
  unfold key_value
  simp only
  rw [find_eq_none (fun hm => h (List.mem_of_mem_drop hm))]

theorem retrieve_true_boolean (fl : FloatLib) (impl : Impl) (missing pre : Str) :
    retrieve fl impl missing pre "true".toList true Param.BOOLEAN
      = (impl, some (Value.bool true)) := by
  have hcat : cat_string "true".toList = "true".toList := by decide!
  apply retrieve_ok
  · simp only [if_true, hcat]
    decide
  · simp only [if_true, hcat]
    have hfe : from_str_extract fl "true".toList Param.BOOLEAN
        = some ⟨if (extract_token (c_str "true".toList)).2 then none
                else some (.bool (parse_bool (extract_token (c_str "true".toList)).1)),
                (extract_token (c_str "true".toList)).2⟩ := rfl
    have hval : (⟨if (extract_token (c_str "true".toList)).2 then none
                else some (.bool (parse_bool (extract_token (c_str "true".toList)).1)),
                (extract_token (c_str "true".toList)).2⟩ : Extraction)
        = ⟨some (.bool true), false⟩ := by decide!
    rw [from_str_of_extract hfe, hval]
    rfl

/-- Retrieval of an integer type from a value that starts with the digits `ds`
followed by something that is not a digit. -/
theorem retrieve_digits_prefix (fl : FloatLib) (impl : Impl) (missing pre def_value : Str)
    (space_delete : Bool) (type : Param) (ds rest : Str)
    (htype : type = Param.INT ∨ type = Param.UINT ∨ type = Param.INT64 ∨ type = Param.UINT64)
    (hv : (if space_delete then cat_string def_value else def_value) = ds ++ rest)
    (hds : ∀ c ∈ ds, isdigit c = true) (hne : ds ≠ []) (hrest : NoDigitHead rest) :
    (digitsValue ds ≤ intMax type →
        retrieve fl impl missing pre def_value space_delete type
          = (impl, some (Value.int (digitsValue ds))))
      ∧ (intMax type < digitsValue ds →
        (retrieve fl impl missing pre def_value space_delete type).1.error = true) := by
  have hfield := intField_plain hds hne (noDigitHead_c_str hrest)
  rw [← c_str_digits ds rest hds, ← hv] at hfield
  have hcond : ¬ (((if space_delete then cat_string def_value else def_value) = []
        ∧ type ≠ Param.STRING)
      ∨ (if space_delete then cat_string def_value else def_value) = noneValue) := by
    rw [hv]
    cases ds with
    | nil => exact absurd rfl hne
    | cons c cs =>
      have hc := (isdigit_not_special (hds c (List.mem_cons_self _ _))).2.2.2.2
      rintro (⟨h, _⟩ | h)
      · cases h
      · have : noneValue = '<' :: "none>".toList := rfl
        rw [this, List.cons_append] at h
        exact hc (List.cons.inj h).1
  have hsigned : ∀ bits : Nat, 0 < bits →
      extract_signed bits (c_str (if space_delete then cat_string def_value else def_value))
        = (if (digitsValue ds : Int) > 2 ^ (bits - 1) - 1
            then ⟨some (.int (2 ^ (bits - 1) - 1)), true⟩
            else ⟨some (.int (digitsValue ds : Int)), false⟩) := by
    intro bits _
    rw [extract_signed_of_field hfield hne]
    simp only [Bool.false_eq_true, if_false]
    split
    · rfl
    · rw [if_neg]
      have : (0 : Int) < 2 ^ (bits - 1) := by positivity
      omega
  have hunsigned : ∀ bits : Nat,
      extract_unsigned bits (c_str (if space_delete then cat_string def_value else def_value))
        = (if digitsValue ds > 2 ^ bits - 1
            then ⟨some (.int ((2 ^ bits - 1 : Nat) : Int)), true⟩
            else ⟨some (.int (digitsValue ds : Int)), false⟩) := by
    intro bits
    rw [extract_unsigned_of_field hfield hne]
    simp only [Bool.false_eq_true, if_false]
  have key : ∀ e : Extraction,
      from_str_extract fl (if space_delete then cat_string def_value else def_value) type
        = some e →
      (digitsValue ds ≤ intMax type → e = ⟨some (.int (digitsValue ds : Int)), false⟩) →
      (intMax type < digitsValue ds → e.fail = true) →
      (digitsValue ds ≤ intMax type →
        retrieve fl impl missing pre def_value space_delete type
          = (impl, some (Value.int (digitsValue ds))))
      ∧ (intMax type < digitsValue ds →
        (retrieve fl impl missing pre def_value space_delete type).1.error = true) := by
    intro e he hok hover
    refine ⟨?_, ?_⟩
    · intro hle
      apply retrieve_ok hcond
      rw [from_str_of_extract he, hok hle]
      rfl
    · intro hlt
      rw [retrieve_thrown e.stored
        (c_str ("can not convert: [".toList
          ++ (if space_delete then cat_string def_value else def_value) ++ "] to [".toList
          ++ get_type_name type ++ "]".toList)) hcond]
      rw [from_str_of_extract he, hover hlt, if_pos rfl]
  rcases htype with rfl | rfl | rfl | rfl
  · refine key _ rfl ?_ ?_
    · intro hle
      rw [hsigned 32 (by norm_num), if_neg]
      simp only [intMax] at hle
      norm_num
      omega
    · intro hlt
      rw [hsigned 32 (by norm_num), if_pos]
      simp only [intMax] at hlt
      norm_num
      omega
  · refine key _ rfl ?_ ?_
    · intro hle
      rw [hunsigned 32, if_neg]
      simp only [intMax] at hle
      omega
    · intro hlt
      rw [hunsigned 32, if_pos]
      simp only [intMax] at hlt
      omega
  · refine key _ rfl ?_ ?_
    · intro hle
      rw [hsigned 64 (by norm_num), if_neg]
      simp only [intMax] at hle
      norm_num
      omega
    · intro hlt
      rw [hsigned 64 (by norm_num), if_pos]
      simp only [intMax] at hlt
      norm_num
      omega
  · refine key _ rfl ?_ ?_
    · intro hle
      rw [hunsigned 64, if_neg]
      simp only [intMax] at hle
      omega
    · intro hlt
      rw [hunsigned 64, if_pos]
      simp only [intMax] at hlt
      omega

/-- The three outcomes of `retrieve`. -/
theorem retrieve_cases (fl : FloatLib) (impl : Impl) (missing pre def_value : Str)
    (space_delete : Bool) (type : Param) :
    ((((if space_delete then cat_string def_value else def_value) = []
          ∧ type ≠ Param.STRING)
        ∨ (if space_delete then cat_string def_value else def_value) = noneValue)
      ∧ retrieve fl impl missing pre def_value space_delete type
          = ({ impl with error := true, error_message := impl.error_message ++ missing }, none))
    ∨ (¬ (((if space_delete then cat_string def_value else def_value) = []
            ∧ type ≠ Param.STRING)
          ∨ (if space_delete then cat_string def_value else def_value) = noneValue)
      ∧ ∃ w, (from_str fl (if space_delete then cat_string def_value else def_value)
                type).thrown = some w
        ∧ retrieve fl impl missing pre def_value space_delete type
          = ({ impl with error := true,
                         error_message := impl.error_message ++ pre ++ w ++ "\n".toList },
             (from_str fl (if space_delete then cat_string def_value else def_value) type).dst))
    ∨ (¬ (((if space_delete then cat_string def_value else def_value) = []
            ∧ type ≠ Param.STRING)
          ∨ (if space_delete then cat_string def_value else def_value) = noneValue)
      ∧ (from_str fl (if space_delete then cat_string def_value else def_value) type).thrown
          = none
      ∧ retrieve fl impl missing pre def_value space_delete type
          = (impl, (from_str fl (if space_delete then cat_string def_value else def_value)
              type).dst)) := by
  unfold retrieve
  simp only
  generalize (if space_delete then cat_string def_value else def_value) = v
  by_cases hc : ((v = [] ∧ type ≠ Param.STRING) ∨ v = noneValue)
  · left
    rw [if_pos hc]
    exact ⟨hc, rfl⟩
  · right
    rw [if_neg hc]
    cases hthrown : (from_str fl v type).thrown with
    | none => right; exact ⟨hc, rfl, rfl⟩
    | some w => left; exact ⟨hc, w, rfl, rfl⟩

/-- `retrieve` keeps a set error flag and only appends to the error text. -/
theorem retrieve_monotone (fl : FloatLib) (impl : Impl) (missing pre def_value : Str)
    (space_delete : Bool) (type : Param) :
    (impl.error = true →
        (retrieve fl impl missing pre def_value space_delete type).1.error = true)
      ∧ impl.error_message
          <+: (retrieve fl impl missing pre def_value space_delete type).1.error_message := by
  rcases retrieve_cases fl impl missing pre def_value space_delete type with
    ⟨_, h⟩ | ⟨_, w, _, h⟩ | ⟨_, _, h⟩ <;> rw [h]
  · exact ⟨fun _ => rfl, List.prefix_append _ _⟩
  · refine ⟨fun _ => rfl, ?_⟩
    simp only [List.append_assoc]
    exact List.prefix_append _ _
  · exact ⟨fun h => h, List.prefix_refl _⟩

/-- What `retrieve` writes through `dst` does not depend on the texts that name
the parameter. -/
theorem retrieve_snd_indep (fl : FloatLib) (impl : Impl) (m1 p1 m2 p2 def_value : Str)
    (space_delete : Bool) (type : Param) :
    (retrieve fl impl m1 p1 def_value space_delete type).2
      = (retrieve fl impl m2 p2 def_value space_delete type).2 := by
  rcases retrieve_cases fl impl m1 p1 def_value space_delete type with
    ⟨c1, h1⟩ | ⟨c1, w1, t1, h1⟩ | ⟨c1, t1, h1⟩ <;>
  rcases retrieve_cases fl impl m2 p2 def_value space_delete type with
    ⟨c2, h2⟩ | ⟨c2, w2, t2, h2⟩ | ⟨c2, t2, h2⟩ <;>
  first
    | exact absurd c1 c2
    | exact absurd c2 c1
    | (rw [t1] at t2; cases t2; done)
    | (rw [h1, h2])

theorem retrieve_error_indep (fl : FloatLib) (impl : Impl) (m1 p1 m2 p2 def_value : Str)
    (space_delete : Bool) (type : Param) :
    (retrieve fl impl m1 p1 def_value space_delete type).1.error
      = (retrieve fl impl m2 p2 def_value space_delete type).1.error := by
  rcases retrieve_cases fl impl m1 p1 def_value space_delete type with
    ⟨c1, h1⟩ | ⟨c1, w1, t1, h1⟩ | ⟨c1, t1, h1⟩ <;>
  rcases retrieve_cases fl impl m2 p2 def_value space_delete type with
    ⟨c2, h2⟩ | ⟨c2, w2, t2, h2⟩ | ⟨c2, t2, h2⟩ <;>
  first
    | exact absurd c1 c2
    | exact absurd c2 c1
    | (rw [t1] at t2; cases t2; done)
    | (rw [h1, h2])

/-- `retrieve` returns the store unchanged exactly when it records no error. -/
theorem retrieve_unchanged_iff (fl : FloatLib) (impl : Impl) (missing pre def_value : Str)
    (space_delete : Bool) (type : Param) (hm : missing ≠ []) :
    (retrieve fl impl missing pre def_value space_delete type).1 = impl
      ↔ (¬ (((if space_delete then cat_string def_value else def_value) = []
              ∧ type ≠ Param.STRING)
            ∨ (if space_delete then cat_string def_value else def_value) = noneValue)
          ∧ (from_str fl (if space_delete then cat_string def_value else def_value) type).thrown
              = none) := by
  rcases retrieve_cases fl impl missing pre def_value space_delete type with
    ⟨c, h⟩ | ⟨c, w, t, h⟩ | ⟨c, t, h⟩ <;> rw [h]
  · constructor
    · intro h1
      have h2 := congrArg Impl.error_message h1
      simp only at h2
      exact absurd (List.append_right_eq_self.mp h2) hm
    · intro h1
      exact absurd c h1.1
  · constructor
    · intro h1
      have h2 := congrArg Impl.error_message h1
      simp only [List.append_assoc] at h2
      have h3 : pre ++ (w ++ "\n".toList) = [] := List.append_right_eq_self.mp h2
      have h4 := congrArg List.length h3
      simp at h4
    · intro h1
      rw [t] at h1
      cases h1.2
  · exact ⟨fun _ => ⟨c, t⟩, fun _ => rfl⟩

theorem find_last_of_none {s set : Str} (h : find_last_of s set = none) :
    ∀ c ∈ s, c ∉ set := by
  induction s with
  | nil => intro c hc; cases hc
  | cons x xs ih =>
    unfold find_last_of at h
    cases hxs : find_last_of xs set with
    | some j => rw [hxs] at h; cases h
    | none =>
      rw [hxs] at h
      simp only at h
      have hx : x ∉ set := by
        intro hx
        rw [if_pos hx] at h
        cases h
      intro c hc
      rcases List.mem_cons.mp hc with rfl | hc
      · exact hx
      · exact ih hxs c hc

/-- The index `find_last_of` returns splits the text at its last character from
the set. -/
theorem find_last_of_some {s set : Str} {i : Nat} (h : find_last_of s set = some i) :
    ∃ sep, sep ∈ set ∧ s = s.take i ++ sep :: s.drop (i + 1)
      ∧ ∀ c ∈ s.drop (i + 1), c ∉ set := by
  induction s generalizing i with
  | nil => cases h
  | cons x xs ih =>
    unfold find_last_of at h
    cases hxs : find_last_of xs set with
    | some j =>
      rw [hxs] at h
      cases h
      obtain ⟨sep, hsep, hsplit, hrest⟩ := ih hxs
      refine ⟨sep, hsep, ?_, ?_⟩
      · simp only [List.take_succ_cons, List.drop_succ_cons, List.cons_append]
        rw [← hsplit]
      · simpa only [List.drop_succ_cons] using hrest
    | none =>
      rw [hxs] at h
      simp only at h
      by_cases hx : x ∈ set
      · rw [if_pos hx] at h
        cases h
        exact ⟨x, hx, by simp, by simpa using find_last_of_none hxs⟩
      · rw [if_neg hx] at h
        cases h

theorem parse_block_fields {impl : Impl} {jj : Nat} {block : Str} {r : Impl × Nat}
    (h : parse_block impl jj block = .ok r) :
    r.1.path_to_app = impl.path_to_app ∧ r.1.app_name = impl.app_name
      ∧ r.1.about_message = impl.about_message := by
  unfold parse_block at h
  split at h
  · dsimp only at h
    split at h
    · cases h; exact ⟨rfl, rfl, rfl⟩
    · split at h <;> (cases h; exact ⟨rfl, rfl, rfl⟩)
  · cases h

theorem parse_keys_fields (blocks : List Str) {impl : Impl} {jj : Nat} {r : Impl × Nat}
    (h : parse_keys blocks impl jj = .ok r) :
    r.1.path_to_app = impl.path_to_app ∧ r.1.app_name = impl.app_name
      ∧ r.1.about_message = impl.about_message := by
  induction blocks generalizing impl jj with
  | nil => simp only [parse_keys] at h; cases h; exact ⟨rfl, rfl, rfl⟩
  | cons b bs ih =>
    simp only [parse_keys] at h
    split at h
    · cases h
    · rename_i r1 hb
      obtain ⟨h1, h2, h3⟩ := ih h
      obtain ⟨g1, g2, g3⟩ := parse_block_fields hb
      exact ⟨h1.trans g1, h2.trans g2, h3.trans g3⟩

/-- The path and the name the constructor stores are the two parts of
`argv[0]` computed before the schema is read. -/
theorem constructed_path {argv0 keys : Str} {args : List Str} {st : Impl}
    (hc : CommandLineParser (argv0 :: args) keys = .ok st) :
    st.path_to_app
        = (match find_last_of argv0 "/\\".toList with
          | none => []
          | some pos_s => substr argv0 0 pos_s)
      ∧ st.app_name
        = (match find_last_of argv0 "/\\".toList with
          | none => argv0
          | some pos_s => substr argv0 (pos_s + 1) (argv0.length - pos_s)) := by
  unfold CommandLineParser at hc
  simp only at hc
  cases hs : parse_schema argv0 keys with
  | error e => rw [hs] at hc; cases hc
  | ok impl =>
    rw [hs] at hc
    cases hc
    rw [parse_argv_eq args 0 impl (parse_schema_distinct hs)]
    simp only [Impl.sort_params]
    unfold parse_schema at hs
    simp only at hs
    split at hs
    · cases hs
    · split at hs
      · cases hs
      · rename_i r hr
        cases hs
        obtain ⟨h1, h2, _⟩ := parse_keys_fields _ hr
        exact ⟨h1, h2⟩

/-- Tokens that neither name the record nor are counted with its position leave
it alone. -/
theorem overlay_untouched_of_range (args : List Str) (jj : Nat) (p : CommandLineParserParams)
    (hnamed : ∀ t ∈ args, hasSingleDash t = true → (key_value t).1 ∉ p.keys)
    (hpos : ∀ i : Nat, p.number = (i : Int) → i < jj ∨ jj + (positionals args).length ≤ i) :
    overlay args jj p = p := by
  induction args generalizing jj with
  | nil => rfl
  | cons s rest ih =>
    have hrest : ∀ t ∈ rest, hasSingleDash t = true → (key_value t).1 ∉ p.keys :=
      fun t ht => hnamed t (List.mem_cons_of_mem _ ht)
    by_cases hs : hasSingleDash s = true
    · rw [overlay_cons_named _ _ _ hs, set_if_key_of_not (hnamed s (List.mem_cons_self _ _) hs)]
      rw [positionals_cons_named _ hs] at hpos
      exact ih jj hrest hpos
    · rw [overlay_cons_other _ _ _ hs]
      rw [positionals_cons_other _ hs, List.length_cons] at hpos
      have hne : p.number ≠ (jj : Int) := by
        intro h
        have := hpos jj h
        omega
      rw [set_if_number_of_ne hne]
      refine ih (jj + 1) hrest ?_
      intro i hi
      have := hpos i hi
      omega

/-- The value a declaration has after the loop over the arguments is the value of
the last token whose key is one of its keys, when no later token is counted with
its position. -/
theorem overlay_last_named_of_range (pre post : List Str) (T : Str) (jj : Nat)
    (d : CommandLineParserParams)
    (hT : hasSingleDash T = true) (hk : (key_value T).1 ∈ d.keys)
    (hlast : ∀ t ∈ post, hasSingleDash t = true → (key_value t).1 ∉ d.keys)
    (hpos : ∀ i : Nat, d.number = (i : Int) →
      i < jj + (positionals pre).length
        ∨ jj + (positionals pre).length + (positionals post).length ≤ i) :
    (overlay (pre ++ T :: post) jj d).def_value = (key_value T).2 := by
  rw [overlay_append]
  obtain ⟨hk1, hn1, _⟩ := overlay_fields pre jj d
  generalize overlay pre jj d = d1 at hk1 hn1
  rw [overlay_cons_named _ _ _ hT]
  obtain ⟨hk2, hn2, _⟩ := set_if_key_fields (key_value T).1 (key_value T).2 d1
  rw [overlay_untouched_of_range]
  · exact set_if_key_of_mem (hk1 ▸ hk)
  · intro t ht hst
    rw [hk2, hk1]; exact hlast t ht hst
  · intro i hi
    rw [hn2, hn1] at hi
    exact hpos i hi

theorem find_drop {s : Str} {c : Char} (h : c ∈ s) :
    ∃ i, find s c = some i ∧ s.drop (i + 1) = (s.dropWhile (fun x => x ≠ c)).drop 1 := by
  induction s with
  | nil => cases h
  | cons d ds ih =>
    by_cases hd : d = c
    · refine ⟨0, by simp [find, hd], ?_⟩
      rw [List.dropWhile_cons_of_neg (by simp [hd])]
    · have hc : c ∈ ds := by
        rcases List.mem_cons.mp h with h1 | h1
        · exact absurd h1.symm hd
        · exact h1
      obtain ⟨i, hi, hdrop⟩ := ih hc
      refine ⟨i + 1, by simp [find, hd, hi], ?_⟩
      rw [List.dropWhile_cons_of_pos (by simp [hd]), List.drop_succ_cons]
      exact hdrop

/-- The value of a token in named form that contains `=` is the text after its
first `=`. -/
theorem key_value_after_equals {T : Str} (hT : hasSingleDash T = true) (h : '=' ∈ T) :
    (key_value T).2 = (T.dropWhile (fun x => x ≠ '=')).drop 1 := by
  have hkey : ∀ key : Str, '=' ∈ key →
      (match find key '=' with
        | some equalsPos => (substr key 0 equalsPos, key.drop (equalsPos + 1))
        | none => (key, "true".toList)).2 = (key.dropWhile (fun x => x ≠ '=')).drop 1 := by
    intro key hk
    obtain ⟨i, hi, hdrop⟩ := find_drop hk
    rw [hi]
    exact hdrop
  cases T with
  | nil => simp [hasSingleDash] at hT
  | cons a t =>
    have ha : a = '-' := by
      simp only [hasSingleDash, List.headD_cons, Bool.and_eq_true, decide_eq_true_eq] at hT
      exact hT.2
    subst ha
    have ht : '=' ∈ t := by
      rcases List.mem_cons.mp h with h1 | h1
      · exact absurd h1 (by decide)
      · exact h1
    unfold key_value
    simp only
    by_cases hdd : hasDoubleDash ('-' :: t) = true
    · rw [if_pos hdd]
      cases t with
      | nil => cases ht
      | cons b t2 =>
        have hb : b = '-' := by
          simp only [hasDoubleDash, Bool.and_eq_true, decide_eq_true_eq] at hdd
          simpa using hdd.2
        subst hb
        have ht2 : '=' ∈ t2 := by
          rcases List.mem_cons.mp ht with h1 | h1
          · exact absurd h1 (by decide)
          · exact h1
        have := hkey t2 ht2
        simp only [List.drop_succ_cons, List.drop_zero]
        rw [this, List.dropWhile_cons_of_pos (by decide), List.dropWhile_cons_of_pos (by decide)]
    · rw [if_neg hdd]
      have := hkey t ht
      simp only [List.drop_succ_cons, List.drop_zero]
      rw [this, List.dropWhile_cons_of_pos (by decide)]

theorem mem_keys_of_sorted_eq {p d : CommandLineParserParams}
    (h : (sort_keys p).keys = (sort_keys d).keys) (k : Str) : k ∈ p.keys ↔ k ∈ d.keys := by
  simp only [sort_keys] at h
  have hp := (List.perm_insertionSort (fun a b => str_lt a b = true) p.keys).mem_iff (a := k)
  have hd := (List.perm_insertionSort (fun a b => str_lt a b = true) d.keys).mem_iff (a := k)
  rw [← hp, h, hd]

theorem loop_nil (vec : List Str) (word : Str) (begin : Bool) :
    split_range_loop '{' '}' [] vec word begin
      = if begin then .error (split_range_error [] '{' '}') else .ok vec := by
  rw [split_range_loop]

theorem loop_open_open (rest : Str) (vec : List Str) (word : Str) :
    split_range_loop '{' '}' ('{' :: rest) vec word true
      = .error (split_range_error ('{' :: rest) '{' '}') := by
  cases rest <;> simp [split_range_loop]

theorem loop_open_last (vec : List Str) (word : Str) :
    split_range_loop '{' '}' ['{'] vec word false = .error .out_of_range := by
  rw [split_range_loop]
  simp

theorem loop_open_close (rest : Str) (vec : List Str) (word : Str) :
    split_range_loop '{' '}' ('{' :: '}' :: rest) vec word false
      = split_range_loop '{' '}' rest (vec ++ [[]]) [] false := by
  rw [split_range_loop]
  simp [split_range_close]

theorem loop_open_char {d : Char} (hd : d ≠ '}') (rest : Str) (vec : List Str) (word : Str) :
    split_range_loop '{' '}' ('{' :: d :: rest) vec word false
      = split_range_loop '{' '}' rest vec [d] true := by
  rw [split_range_loop]
  simp [split_range_close, hd]

theorem loop_close_open (rest : Str) (vec : List Str) (word : Str) :
    split_range_loop '{' '}' ('}' :: rest) vec word true
      = split_range_loop '{' '}' rest (vec ++ [word]) word false := by
  cases rest <;> simp [split_range_loop, split_range_close]

theorem loop_close_closed (rest : Str) (vec : List Str) (word : Str) :
    split_range_loop '{' '}' ('}' :: rest) vec word false
      = .error (split_range_error ('}' :: rest) '{' '}') := by
  cases rest <;> simp [split_range_loop, split_range_close]

theorem loop_char_open {c : Char} (h1 : c ≠ '{') (h2 : c ≠ '}') (rest : Str) (vec : List Str)
    (word : Str) :
    split_range_loop '{' '}' (c :: rest) vec word true
      = split_range_loop '{' '}' rest vec (word ++ [c]) true := by
  cases rest <;> simp [split_range_loop, split_range_close, h1, h2]

theorem loop_char_closed {c : Char} (h1 : c ≠ '{') (h2 : c ≠ '}') (rest : Str)
    (vec : List Str) (word : Str) :
    split_range_loop '{' '}' (c :: rest) vec word false
      = split_range_loop '{' '}' rest vec word false := by
  cases rest <;> simp [split_range_loop, split_range_close, h1, h2]

theorem throws_error_exception (str : Str) :
    Throws (.error (split_range_error str '{' '}')) :=
  ⟨_, rfl, by simp [split_range_error]⟩

theorem throws_out_of_range : Throws (.error Failure.out_of_range) :=
  ⟨_, rfl, by simp⟩

/-- The scan throws when some `{` has no `}` after it, and when it is inside a
block and no `}` follows. -/
theorem loop_throws_of_unclosed (n : Nat) :
    ∀ (str : Str) (vec : List Str) (word : Str) (begin : Bool), str.length = n →
      ((∃ pre post, str = pre ++ '{' :: post ∧ '}' ∉ post) ∨ (begin = true ∧ '}' ∉ str)) →
      Throws (split_range_loop '{' '}' str vec word begin) := by
  induction n using Nat.strong_induction_on with
  | _ n ih =>
    intro str vec word begin hlen h
    cases str with
    | nil =>
      rcases h with ⟨pre, post, hsplit, _⟩ | ⟨hb, _⟩
      · cases pre <;> cases hsplit
      · rw [loop_nil, hb]
        exact throws_error_exception []
    | cons c rest =>
      have hrest : rest.length < n := by rw [← hlen]; simp
      by_cases hc : c = '{'
      · subst hc
        cases begin with
        | true => rw [loop_open_open]; exact throws_error_exception _
        | false =>
          cases rest with
          | nil => rw [loop_open_last]; exact throws_out_of_range
          | cons d rest2 =>
            have hrest2 : rest2.length < n := by rw [← hlen]; simp; omega
            rcases h with ⟨pre, post, hsplit, hpost⟩ | ⟨hb, _⟩
            · by_cases hd : d = '}'
              · subst hd
                rw [loop_open_close]
                apply ih _ hrest2 _ _ _ _ rfl
                left
                cases pre with
                | nil =>
                  simp only [List.nil_append, List.cons.injEq, true_and] at hsplit
                  rw [← hsplit] at hpost
                  simp at hpost
                | cons x pre1 =>
                  cases pre1 with
                  | nil =>
                    simp only [List.cons_append, List.nil_append, List.cons.injEq] at hsplit
                    exact absurd hsplit.2.1 (by decide)
                  | cons y pre2 =>
                    simp only [List.cons_append, List.cons.injEq] at hsplit
                    exact ⟨pre2, post, hsplit.2.2, hpost⟩
              · rw [loop_open_char hd]
                apply ih _ hrest2 _ _ _ _ rfl
                cases pre with
                | nil =>
                  simp only [List.nil_append, List.cons.injEq, true_and] at hsplit
                  right
                  refine ⟨rfl, ?_⟩
                  rw [← hsplit] at hpost
                  exact fun hm => hpost (List.mem_cons_of_mem _ hm)
                | cons x pre1 =>
                  cases pre1 with
                  | nil =>
                    simp only [List.cons_append, List.nil_append, List.cons.injEq] at hsplit
                    right
                    refine ⟨rfl, ?_⟩
                    rw [hsplit.2.2]
                    exact hpost
                  | cons y pre2 =>
                    simp only [List.cons_append, List.cons.injEq] at hsplit
                    left
                    exact ⟨pre2, post, hsplit.2.2, hpost⟩
            · cases hb
      · have hfirst : (∃ pre post, c :: rest = pre ++ '{' :: post ∧ '}' ∉ post) →
            ∃ pre post, rest = pre ++ '{' :: post ∧ '}' ∉ post := by
          rintro ⟨pre, post, hsplit, hpost⟩
          cases pre with
          | nil =>
            simp only [List.nil_append, List.cons.injEq] at hsplit
            exact absurd hsplit.1 hc
          | cons x pre1 =>
            simp only [List.cons_append, List.cons.injEq] at hsplit
            exact ⟨pre1, post, hsplit.2, hpost⟩
        by_cases hcc : c = '}'
        · subst hcc
          cases begin with
          | false => rw [loop_close_closed]; exact throws_error_exception _
          | true =>
            rw [loop_close_open]
            apply ih _ hrest _ _ _ _ rfl
            left
            rcases h with h1 | ⟨_, h2⟩
            · exact hfirst h1
            · exact absurd (List.mem_cons_self _ _) h2
        · cases begin with
          | false =>
            rw [loop_char_closed hc hcc]
            apply ih _ hrest _ _ _ _ rfl
            left
            rcases h with h1 | ⟨hb, _⟩
            · exact hfirst h1
            · cases hb
          | true =>
            rw [loop_char_open hc hcc]
            apply ih _ hrest _ _ _ _ rfl
            rcases h with h1 | ⟨_, h2⟩
            · left; exact hfirst h1
            · right; exact ⟨rfl, fun hm => h2 (List.mem_cons_of_mem _ hm)⟩

/-- The scan throws when a `}` comes at a point where the `{` before it, and the
block the scan starts in, are not more numerous than the `}` before it. -/
theorem loop_throws_of_extra_close (n : Nat) :
    ∀ (str : Str) (vec : List Str) (word : Str) (begin : Bool), str.length = n →
      (∃ pre post, str = pre ++ '}' :: post
        ∧ pre.count '{' + (if begin = true then 1 else 0) ≤ pre.count '}') →
      Throws (split_range_loop '{' '}' str vec word begin) := by
  induction n using Nat.strong_induction_on with
  | _ n ih =>
    intro str vec word begin hlen h
    obtain ⟨pre, post, hsplit, hcount⟩ := h
    cases pre with
    | nil =>
      simp only [List.nil_append] at hsplit
      subst hsplit
      cases begin with
      | true => simp at hcount
      | false => rw [loop_close_closed]; exact throws_error_exception _
    | cons c pre1 =>
      simp only [List.cons_append] at hsplit
      subst hsplit
      have hrest : (pre1 ++ '}' :: post).length < n := by rw [← hlen]; simp
      by_cases hc : c = '{'
      · subst hc
        cases begin with
        | true => rw [loop_open_open]; exact throws_error_exception _
        | false =>
          cases pre1 with
          | nil => simp at hcount
          | cons d pre2 =>
            have hrest2 : (pre2 ++ '}' :: post).length < n := by rw [← hlen]; simp; omega
            simp only [List.cons_append]
            by_cases hd : d = '}'
            · subst hd
              rw [loop_open_close]
              apply ih _ hrest2 _ _ _ _ rfl
              refine ⟨pre2, post, rfl, ?_⟩
              simp [List.count_cons] at hcount ⊢
              omega
            · rw [loop_open_char hd]
              apply ih _ hrest2 _ _ _ _ rfl
              refine ⟨pre2, post, rfl, ?_⟩
              have hd2 : (d == '}') = false := by simpa using hd
              have e1 : ('{' == '}') = false := by decide
              simp only [List.count_cons, hd2, e1, beq_self_eq_true, if_true,
                Bool.false_eq_true, if_false, Nat.add_zero] at hcount ⊢
              split at hcount <;> omega
      · by_cases hcc : c = '}'
        · subst hcc
          cases begin with
          | false => rw [loop_close_closed]; exact throws_error_exception _
          | true =>
            rw [loop_close_open]
            apply ih _ hrest _ _ _ _ rfl
            refine ⟨pre1, post, rfl, ?_⟩
            simp [List.count_cons] at hcount ⊢
            omega
        · have h1 : (c == '{') = false := by simpa using hc
          have h2 : (c == '}') = false := by simpa using hcc
          simp only [List.count_cons, h1, h2, Bool.false_eq_true, if_false, Nat.add_zero]
            at hcount
          cases begin with
          | false =>
            rw [loop_char_closed hc hcc]
            exact ih _ hrest _ _ _ _ rfl ⟨pre1, post, rfl, hcount⟩
          | true =>
            rw [loop_char_open hc hcc]
            exact ih _ hrest _ _ _ _ rfl ⟨pre1, post, rfl, hcount⟩

/-- After a text that the scan accepts, the scan of what follows starts outside
a block. -/
theorem loop_append_of_ok (n : Nat) :
    ∀ (pre : Str) (vec : List Str) (word : Str) (begin : Bool) (v : List Str),
      pre.length = n → split_range_loop '{' '}' pre vec word begin = .ok v →
      ∀ rest : Str, ∃ w, split_range_loop '{' '}' (pre ++ rest) vec word begin
        = split_range_loop '{' '}' rest v w false := by
  induction n using Nat.strong_induction_on with
  | _ n ih =>
    intro pre vec word begin v hlen hok rest
    cases pre with
    | nil =>
      rw [loop_nil] at hok
      cases begin with
      | true => simp at hok
      | false =>
        simp only [Bool.false_eq_true, if_false, Except.ok.injEq] at hok
        subst hok
        exact ⟨word, rfl⟩
    | cons c pre1 =>
      have hrest : pre1.length < n := by rw [← hlen]; simp
      by_cases hc : c = '{'
      · subst hc
        cases begin with
        | true => rw [loop_open_open] at hok; cases hok
        | false =>
          cases pre1 with
          | nil => rw [loop_open_last] at hok; cases hok
          | cons d pre2 =>
            have hrest2 : pre2.length < n := by rw [← hlen]; simp; omega
            simp only [List.cons_append]
            by_cases hd : d = '}'
            · subst hd
              rw [loop_open_close] at hok ⊢
              exact ih _ hrest2 _ _ _ _ _ rfl hok rest
            · rw [loop_open_char hd] at hok ⊢
              exact ih _ hrest2 _ _ _ _ _ rfl hok rest
      · simp only [List.cons_append]
        by_cases hcc : c = '}'
        · subst hcc
          cases begin with
          | false => rw [loop_close_closed] at hok; cases hok
          | true =>
            rw [loop_close_open] at hok ⊢
            exact ih _ hrest _ _ _ _ _ rfl hok rest
        · cases begin with
          | false =>
            rw [loop_char_closed hc hcc] at hok ⊢
            exact ih _ hrest _ _ _ _ _ rfl hok rest
          | true =>
            rw [loop_char_open hc hcc] at hok ⊢
            exact ih _ hrest _ _ _ _ _ rfl hok rest

theorem split_string_loop_vec (c : Char) (e : Bool) (s : Str) (vec : List Str) (word : Str) :
    split_string_loop c e s vec word = vec ++ split_string_loop c e s [] word := by
  induction s generalizing vec word with
  | nil =>
    simp only [split_string_loop]
    split <;> simp
  | cons d rest ih =>
    simp only [split_string_loop]
    split
    · split
      · rw [ih (vec ++ [word]) [], ih ([] ++ [word]) []]
        simp
      · exact ih vec word
    · exact ih vec (word ++ [d])

theorem split_string_loop_length (c : Char) (s : Str) (vec : List Str) (word : Str) :
    (split_string_loop c true s vec word).length = vec.length + s.count c + 1 := by
  induction s generalizing vec word with
  | nil => simp [split_string_loop]
  | cons d rest ih =>
    simp only [split_string_loop]
    by_cases hd : d = c
    · subst hd
      simp only [if_true, or_true, ih, List.length_append, List.length_singleton,
        List.count_cons_self]
      omega
    · rw [if_neg hd, ih, List.count_cons_of_ne (fun h => hd h.symm)]

theorem split_string_loop_head (c : Char) (s : Str) (word : Str) :
    (split_string_loop c true s [] word).head?
      = some (word ++ s.takeWhile (fun x => x ≠ c)) := by
  induction s generalizing word with
  | nil => simp [split_string_loop]
  | cons d rest ih =>
    simp only [split_string_loop]
    by_cases hd : d = c
    · subst hd
      simp only [if_true, or_true]
      rw [split_string_loop_vec, List.takeWhile_cons_of_neg (by simp)]
      simp
    · rw [if_neg hd, ih, List.takeWhile_cons_of_pos (by simp [hd])]
      simp

theorem split_string_loop_eq_nil (c : Char) (s : Str) (vec : List Str) (word : Str) :
    split_string_loop c false s vec word = [] ↔ vec = [] ∧ word = [] ∧ ∀ x ∈ s, x = c := by
  induction s generalizing vec word with
  | nil =>
    simp only [split_string_loop]
    by_cases hw : word = []
    · simp [hw]
    · simp [hw]
  | cons d rest ih =>
    simp only [split_string_loop]
    by_cases hd : d = c
    · subst hd
      rw [if_pos rfl]
      by_cases hw : word = []
      · simp [hw, ih]
      · simp [hw, ih]
    · rw [if_neg hd, ih]
      simp [hd]

/-- The aliases of a block are empty exactly when its key field has no character
other than spaces. -/
theorem aliases_eq_nil_iff (block : Str) : aliases block = [] ↔ hasAlias block = false := by
  unfold aliases split_string hasAlias
  rw [split_string_loop_eq_nil]
  simp only [true_and]
  rw [Bool.eq_false_iff, Ne, List.any_eq_true]
  constructor
  · rintro h ⟨x, hx, hne⟩
    simp [h x hx] at hne
  · intro h x hx
    by_contra hne
    exact h ⟨x, hx, by simpa using hne⟩

theorem isPositional_iff (p : CommandLineParserParams) :
    isPositional p = true ↔ (p.keys.headD []).headD '\x00' = '@' := by
  unfold isPositional
  cases p.keys with
  | nil => simp
  | cons k ks =>
    cases k with
    | nil => simp
    | cons c cs => simp

/-- A block with at least two `|` has three fields, the first of which is its key
field. -/
theorem split_string_fields (block : Str) (h : 2 ≤ block.count '|') :
    ∃ l1 l2 tail, split_string block '|' true = keyField block :: l1 :: l2 :: tail := by
  have hlen := split_string_loop_length '|' block [] []
  have hhead := split_string_loop_head '|' block []
  unfold split_string keyField
  cases hl : split_string_loop '|' true block [] [] with
  | nil => rw [hl] at hlen; simp at hlen
  | cons a t =>
    rw [hl] at hlen hhead
    simp only [List.head?_cons, Option.some.injEq, List.nil_append] at hhead
    subst hhead
    cases t with
    | nil => simp at hlen; omega
    | cons b t2 =>
      cases t2 with
      | nil => simp at hlen; omega
      | cons c2 t3 => exact ⟨b, c2, t3, rfl⟩

/-- What the body of the loop over the blocks does, when it returns. -/
theorem parse_block_spec {impl : Impl} {jj : Nat} {block : Str} {r : Impl × Nat}
    (h : parse_block impl jj block = .ok r) :
    (hasAlias block = false
        ∧ r = ({ impl with error := true,
                           error_message := "Field KEYS could not be empty\n".toList }, jj))
      ∨ (hasAlias block = true
        ∧ ∃ p : CommandLineParserParams, p.keys = aliases block
          ∧ r.1 = { impl with data := impl.data ++ [p] }
          ∧ ((isPositional p = true ∧ p.number = (jj : Int) ∧ r.2 = jj + 1)
            ∨ (isPositional p = false ∧ p.number = -1 ∧ r.2 = jj))) := by
  unfold parse_block at h
  have hhead := split_string_loop_head '|' block []
  split at h
  · rename_i l0 l1 l2 tail hsplit
    unfold split_string at hsplit
    rw [hsplit] at hhead
    simp only [List.head?_cons, Option.some.injEq, List.nil_append] at hhead
    have hl0 : split_string l0 ' ' false = aliases block := by
      unfold aliases keyField
      rw [hhead]
    dsimp only at h
    rw [hl0] at h
    split at h
    · rename_i hempty
      left
      cases h
      refine ⟨(aliases_eq_nil_iff block).mp ?_, rfl⟩
      exact List.length_eq_zero.mp (Nat.le_zero.mp hempty)
    · rename_i hne
      right
      have hal : hasAlias block = true := by
        cases hb : hasAlias block with
        | true => rfl
        | false =>
          rw [(aliases_eq_nil_iff block).mpr hb] at hne
          simp at hne
      refine ⟨hal, ?_⟩
      split at h
      · rename_i hat
        cases h
        refine ⟨_, rfl, rfl, Or.inl ⟨?_, rfl, rfl⟩⟩
        exact (isPositional_iff _).mpr hat
      · rename_i hat
        cases h
        refine ⟨_, rfl, rfl, Or.inr ⟨?_, rfl, rfl⟩⟩
        rw [Bool.eq_false_iff, Ne, isPositional_iff]
        exact hat
  · cases h

/-- The body of the loop over the blocks returns for a block with at least two
`|`. -/
theorem parse_block_ok (impl : Impl) (jj : Nat) (block : Str) (h : 2 ≤ block.count '|') :
    ∃ r, parse_block impl jj block = .ok r := by
  obtain ⟨l1, l2, tail, hsplit⟩ := split_string_fields block h
  unfold parse_block
  rw [hsplit]
  dsimp only
  split
  · exact ⟨_, rfl⟩
  · split <;> exact ⟨_, rfl⟩

theorem parse_keys_ok (blocks : List Str) (impl : Impl) (jj : Nat)
    (h : ∀ b ∈ blocks, 2 ≤ b.count '|') : ∃ r, parse_keys blocks impl jj = .ok r := by
  induction blocks generalizing impl jj with
  | nil => exact ⟨_, rfl⟩
  | cons b bs ih =>
    obtain ⟨r1, hr1⟩ := parse_block_ok impl jj b (h b (List.mem_cons_self _ _))
    simp only [parse_keys, hr1]
    exact ih r1.1 r1.2 (fun x hx => h x (List.mem_cons_of_mem _ hx))

/-- The loop over the blocks appends, in order, one declaration for each block
that has an alias, with the aliases of the block as its keys. -/
theorem parse_keys_keys (blocks : List Str) {impl : Impl} {jj : Nat} {r : Impl × Nat}
    (h : parse_keys blocks impl jj = .ok r) :
    r.1.data.map (fun p => p.keys)
      = impl.data.map (fun p => p.keys) ++ (blocks.filter hasAlias).map aliases := by
  induction blocks generalizing impl jj with
  | nil => simp only [parse_keys] at h; cases h; simp
  | cons b bs ih =>
    simp only [parse_keys] at h
    split at h
    · cases h
    · rename_i r1 hb
      rw [ih h]
      rcases parse_block_spec hb with ⟨hal, hr⟩ | ⟨hal, p, hp, hr, _⟩
      · rw [hr, List.filter_cons_of_neg (by simp [hal])]
      · rw [hr, List.filter_cons_of_pos hal]
        simp [hp]

/-- The error flag after the loop over the blocks is set exactly when it was set
before or some block has no alias. -/
theorem parse_keys_error (blocks : List Str) {impl : Impl} {jj : Nat} {r : Impl × Nat}
    (h : parse_keys blocks impl jj = .ok r) :
    r.1.error = true ↔ (impl.error = true ∨ ∃ b ∈ blocks, hasAlias b = false) := by
  induction blocks generalizing impl jj with
  | nil => simp only [parse_keys] at h; cases h; simp
  | cons b bs ih =>
    simp only [parse_keys] at h
    split at h
    · cases h
    · rename_i r1 hb
      rw [ih h]
      rcases parse_block_spec hb with ⟨hal, hr⟩ | ⟨hal, p, hp, hr, _⟩
      · rw [hr]
        simp [hal]
      · rw [hr]
        simp [hal]

theorem parse_block_positions {impl : Impl} {jj : Nat} {block : Str} {r : Impl × Nat}
    (hinv : PositionsInv impl jj) (h : parse_block impl jj block = .ok r) :
    PositionsInv r.1 r.2 := by
  rcases parse_block_spec h with ⟨_, hr⟩ | ⟨_, p, _, hr, hpos | hpos⟩
  · rw [hr]; exact hinv
  · obtain ⟨h1, h2, h3⟩ := hpos
    unfold PositionsInv
    rw [hr, h3]
    refine ⟨?_, ?_⟩
    · simp only [List.filter_append, List.map_append, hinv.1, List.range_succ]
      rw [List.filter_cons_of_pos h1]
      simp [h2]
    · intro q hq hqp
      rcases List.mem_append.mp hq with hq | hq
      · exact hinv.2 q hq hqp
      · rw [List.mem_singleton] at hq
        subst hq
        rw [h1] at hqp
        cases hqp
  · obtain ⟨h1, h2, h3⟩ := hpos
    unfold PositionsInv
    rw [hr, h3]
    refine ⟨?_, ?_⟩
    · simp only [List.filter_append, List.map_append, hinv.1]
      rw [List.filter_cons_of_neg (by simp [h1])]
      simp
    · intro q hq hqp
      rcases List.mem_append.mp hq with hq | hq
      · exact hinv.2 q hq hqp
      · rw [List.mem_singleton] at hq
        subst hq
        exact h2

theorem parse_keys_positions (blocks : List Str) {impl : Impl} {jj : Nat} {r : Impl × Nat}
    (hinv : PositionsInv impl jj) (h : parse_keys blocks impl jj = .ok r) :
    PositionsInv r.1 r.2 := by
  induction blocks generalizing impl jj with
  | nil => simp only [parse_keys] at h; cases h; exact hinv
  | cons b bs ih =>
    simp only [parse_keys] at h
    split at h
    · cases h
    · rename_i r1 hb
      exact ih (parse_block_positions hinv hb) h

/-- The constructor turns the declarations of the schema, in some order, into
records with the value the arguments give them and with sorted keys. -/
theorem constructed_perm {argv0 keys : Str} {args : List Str} {impl st : Impl}
    (hs : parse_schema argv0 keys = .ok impl)
    (hc : CommandLineParser (argv0 :: args) keys = .ok st) :
    st.data.Perm (impl.data.map (fun p => sort_keys (overlay args 0 p)))
      ∧ st.error = impl.error ∧ st.error_message = impl.error_message := by
  unfold CommandLineParser at hc
  simp only [hs] at hc
  cases hc
  rw [parse_argv_eq args 0 impl (parse_schema_distinct hs)]
  refine ⟨?_, rfl, rfl⟩
  simp only [Impl.sort_params, List.map_map]
  exact List.perm_insertionSort _ _

/-- The parts of a successful `parse_schema`: the blocks and the loop over
them. -/
theorem parse_schema_parts {argv0 keys : Str} {impl : Impl}
    (hs : parse_schema argv0 keys = .ok impl) :
    ∃ blocks impl0 r, split_range_string keys '{' '}' = .ok blocks
      ∧ impl0.data = [] ∧ impl0.error = false
      ∧ parse_keys blocks impl0 0 = .ok r ∧ r.1 = impl := by
  unfold parse_schema at hs
  simp only at hs
  split at hs
  · cases hs
  · rename_i blocks hb
    split at hs
    · cases hs
    · rename_i r hr
      cases hs
      exact ⟨blocks, _, r, hb, rfl, rfl, hr, rfl⟩

theorem parse_schema_ok (argv0 keys : Str) (blocks : List Str)
    (hwf : split_range_string keys '{' '}' = .ok blocks)
    (hfields : ∀ b ∈ blocks, 2 ≤ b.count '|') : ∃ impl, parse_schema argv0 keys = .ok impl := by
  unfold parse_schema
  simp only [hwf]
  obtain ⟨r, hr⟩ := parse_keys_ok blocks
    { error := false, error_message := [], about_message := [], data := [],
      path_to_app :=
        match find_last_of argv0 "/\\".toList with
        | none => []
        | some pos_s => substr argv0 0 pos_s,
      app_name :=
        match find_last_of argv0 "/\\".toList with
        | none => argv0
        | some pos_s => substr argv0 (pos_s + 1) (argv0.length - pos_s) } 0 hfields
  rw [hr]
  exact ⟨_, rfl⟩

/-- With empty items kept, the loop of `split_string` yields the reference split
with the pending word in front of the first segment. -/
theorem split_string_loop_keep (c : Char) (s : Str) (word : Str) :
    split_string_loop c true s [] word
      = (word ++ (first_and_rest c s).1) :: (first_and_rest c s).2 := by
  induction s generalizing word with
  | nil => simp [split_string_loop, first_and_rest]
  | cons d rest ih =>
    simp only [split_string_loop, first_and_rest]
    by_cases hd : d = c
    · subst hd
      simp only [if_true, or_true]
      rw [split_string_loop_vec, ih []]
      simp
    · rw [if_neg hd, if_neg hd, ih (word ++ [d])]
      simp

/-- Without empty items, the loop of `split_string` yields the same list with the
empty segments left out. -/
theorem split_string_loop_drop (c : Char) (s : Str) (word : Str) :
    split_string_loop c false s [] word
      = ((word ++ (first_and_rest c s).1) :: (first_and_rest c s).2).filter
          (fun seg => decide (seg ≠ [])) := by
  induction s generalizing word with
  | nil =>
    simp only [split_string_loop, first_and_rest, List.append_nil]
    by_cases hw : word = []
    · simp [hw]
    · simp [hw]
  | cons d rest ih =>
    simp only [split_string_loop, first_and_rest]
    by_cases hd : d = c
    · subst hd
      simp only [if_true]
      by_cases hw : word = []
      · subst hw
        simp only [ne_eq, not_true_eq_false, Bool.false_eq_true, or_self, if_false]
        rw [ih []]
        simp
      · simp only [ne_eq, hw, not_false_eq_true, Bool.false_eq_true, or_false, if_true]
        rw [split_string_loop_vec, ih []]
        simp [hw]
    · rw [if_neg hd, if_neg hd, ih (word ++ [d])]
      simp

theorem first_and_rest_length (c : Char) (s : Str) :
    (first_and_rest c s).2.length = s.count c := by
  induction s with
  | nil => rfl
  | cons d rest ih =>
    simp only [first_and_rest]
    by_cases hd : d = c
    · subst hd
      simp [ih]
    · rw [if_neg hd, ih, List.count_cons_of_ne (fun h => hd h.symm)]

theorem first_and_rest_no_delimiter (c : Char) (s : Str) :
    c ∉ (first_and_rest c s).1 ∧ ∀ seg ∈ (first_and_rest c s).2, c ∉ seg := by
  induction s with
  | nil => simp [first_and_rest]
  | cons d rest ih =>
    simp only [first_and_rest]
    by_cases hd : d = c
    · subst hd
      simp only [if_true]
      refine ⟨by simp, ?_⟩
      intro seg hseg
      rcases List.mem_cons.mp hseg with rfl | hseg
      · exact ih.1
      · exact ih.2 seg hseg
    · rw [if_neg hd]
      refine ⟨?_, ih.2⟩
      intro hmem
      rcases List.mem_cons.mp hmem with h | h
      · exact hd h.symm
      · exact ih.1 h

theorem intercalate_cons_cons (c : Char) (a b : Str) (l : List Str) :
    [c].intercalate (a :: b :: l) = a ++ c :: [c].intercalate (b :: l) := by
  simp [List.intercalate, List.intersperse]

theorem intercalate_cons_char (c d : Char) (a : Str) (l : List Str) :
    [c].intercalate ((d :: a) :: l) = d :: [c].intercalate (a :: l) := by
  cases l with
  | nil => simp [List.intercalate, List.intersperse]
  | cons b l2 => rw [intercalate_cons_cons, intercalate_cons_cons]; rfl

/-- Joining the segments of the reference split with the delimiter gives the text
back. -/
theorem reference_split_intercalate (c : Char) (s : Str) :
    [c].intercalate (reference_split s c) = s := by
  unfold reference_split
  induction s with
  | nil => simp [first_and_rest, List.intercalate, List.intersperse]
  | cons d rest ih =>
    simp only [first_and_rest]
    by_cases hd : d = c
    · subst hd
      simp only [if_true]
      rw [intercalate_cons_cons, ih]
      rfl
    · rw [if_neg hd, intercalate_cons_char, ih]

/-- The reference split is the split of the list library. -/
theorem reference_split_eq_splitOn (c : Char) (s : Str) :
    reference_split s c = s.splitOn c := by
  have h : ([c].intercalate (reference_split s c)).splitOn c = reference_split s c :=
    List.splitOn_intercalate (reference_split s c) c
    (by
      intro seg hseg
      unfold reference_split at hseg
      rcases List.mem_cons.mp hseg with rfl | hseg
      · exact (first_and_rest_no_delimiter c s).1
      · exact (first_and_rest_no_delimiter c s).2 seg hseg)
    (by simp [reference_split])
  rw [reference_split_intercalate] at h
  exact h.symm

/-- The test of the loop over the arguments is the named form of the
specification. -/
theorem hasSingleDash_eq_namedForm (t : Str) : hasSingleDash t = namedForm t := by
  cases t with
  | nil => rfl
  | cons c r =>
    simp only [hasSingleDash, namedForm, List.headD_cons, List.head?_cons, Option.some.injEq,
      Bool.decide_and, gt_iff_lt]

theorem positionalForm_eq (t : Str) : positionalForm t = !hasSingleDash t := by
  rw [hasSingleDash_eq_namedForm]
  unfold positionalForm namedForm
  by_cases h1 : 1 < t.length
  · by_cases h2 : t.head? = some '-'
    · have h3 : ¬ t.length ≤ 1 := by omega
      simp [h1, h2, h3]
    · simp [h1, h2]
  · have h3 : t.length ≤ 1 := by omega
    simp [h1, h3]

/-- The tokens the loop counts are the tokens not in named form. -/
theorem positionals_eq_filter (args : List Str) :
    positionals args = args.filter positionalForm := by
  unfold positionals
  congr 1
  funext t
  exact (positionalForm_eq t).symm

theorem find_take (s : Str) (c : Char) :
    (∀ i, find s c = some i → s.take i = s.takeWhile (fun x => x ≠ c))
      ∧ (find s c = none → s.takeWhile (fun x => x ≠ c) = s) := by
  induction s with
  | nil => exact ⟨fun i _ => by simp, fun _ => rfl⟩
  | cons d ds ih =>
    by_cases hd : d = c
    · refine ⟨fun i hi => ?_, fun hn => ?_⟩
      · simp only [find, hd, if_true, Option.some.injEq] at hi
        subst hi
        rw [List.takeWhile_cons_of_neg (by simp [hd])]
        rfl
      · simp [find, hd] at hn
    · refine ⟨fun i hi => ?_, fun hn => ?_⟩
      · simp only [find, hd, if_false, Option.map_eq_some'] at hi
        obtain ⟨j, hj, rfl⟩ := hi
        rw [List.takeWhile_cons_of_pos (by simp [hd]), List.take_succ_cons, ih.1 j hj]
      · simp only [find, hd, if_false, Option.map_eq_none'] at hn
        rw [List.takeWhile_cons_of_pos (by simp [hd]), ih.2 hn]

theorem hasDoubleDash_iff (t : Str) :
    hasDoubleDash t = true ↔ 2 < t.length ∧ t.tail.head? = some '-' := by
  cases t with
  | nil => simp [hasDoubleDash]
  | cons a r =>
    cases r with
    | nil => simp [hasDoubleDash]
    | cons b r2 => simp [hasDoubleDash]

/-- The key the loop over the arguments computes is the key of the
specification. -/
theorem key_value_fst (t : Str) : (key_value t).1 = tokenKey t := by
  have hkey : ∀ key : Str,
      (match find key '=' with
        | some equalsPos => (substr key 0 equalsPos, key.drop (equalsPos + 1))
        | none => (key, "true".toList)).1 = key.takeWhile (fun c => c ≠ '=') := by
    intro key
    cases hf : find key '=' with
    | none => exact ((find_take key '=').2 hf).symm
    | some i =>
      have := (find_take key '=').1 i hf
      simpa [substr] using this
  unfold key_value tokenKey
  simp only
  rw [hkey]
  by_cases hdd : hasDoubleDash t = true
  · rw [if_pos hdd, if_pos ((hasDoubleDash_iff t).mp hdd)]
  · rw [if_neg hdd, if_neg (fun h => hdd ((hasDoubleDash_iff t).mpr h))]

/-- The key and the value the loop computes from a text without `=` left after
the dashes. -/
theorem key_value_of_bare (T k : Str) (h : '=' ∉ k)
    (hdrop : T.drop (if hasDoubleDash T then 2 else 1) = k) :
    key_value T = (k, "true".toList) := by
  unfold key_value
  simp only [hdrop]
  rw [find_eq_none h]

/-- The text `--k` with `k` not empty: the loop reads the key `k` and the value
`true`. -/
theorem key_value_double_bare (k : Str) (h : '=' ∉ k) (hne : k ≠ []) :
    hasSingleDash ('-' :: '-' :: k) = true
      ∧ key_value ('-' :: '-' :: k) = (k, "true".toList) := by
  have hdd : hasDoubleDash ('-' :: '-' :: k) = true := by
    rw [hasDoubleDash_iff]
    cases k with
    | nil => exact absurd rfl hne
    | cons c r => simp
  refine ⟨by simp [hasSingleDash], key_value_of_bare _ k h ?_⟩
  rw [if_pos hdd]
  rfl

/-- The text `-k` with `k` not empty and either one character long or not
starting with `-`: the loop reads the key `k` and the value `true`. -/
theorem key_value_single_bare (k : Str) (h : '=' ∉ k) (hne : k ≠ [])
    (hd : k.length ≤ 1 ∨ k.head? ≠ some '-') :
    hasSingleDash ('-' :: k) = true ∧ key_value ('-' :: k) = (k, "true".toList) := by
  have hdd : ¬ hasDoubleDash ('-' :: k) = true := by
    rw [hasDoubleDash_iff]
    rintro ⟨h1, h2⟩
    rcases hd with hd | hd
    · simp only [List.length_cons] at h1; omega
    · exact hd h2
  have hs : hasSingleDash ('-' :: k) = true := by
    cases k with
    | nil => exact absurd rfl hne
    | cons c r => simp [hasSingleDash]
  refine ⟨hs, key_value_of_bare _ k h ?_⟩
  rw [if_neg hdd]
  rfl

/-- A token of the text `--k`, or of the text `-k` (which the loop reads as
`--x` when `k` is `-x` with `x` not empty), whose key is among `keys`: the loop
takes it as a named token with a key among `keys` and the value `true`. -/
theorem bare_flag_form {T k : Str} {keys : List Str}
    (hform : T = '-' :: '-' :: k
      ∨ (T = '-' :: k ∧ (k.length ≤ 1 ∨ k.head? ≠ some '-' ∨ k.tail ∈ keys)))
    (hbare : '=' ∉ k) (hne : k ≠ []) (hk : k ∈ keys) :
    hasSingleDash T = true ∧ (key_value T).1 ∈ keys ∧ (key_value T).2 = "true".toList := by
  rcases hform with rfl | ⟨rfl, hcase⟩
  · obtain ⟨h1, h2⟩ := key_value_double_bare k hbare hne
    rw [h2]; exact ⟨h1, hk, rfl⟩
  · by_cases hd : k.length ≤ 1 ∨ k.head? ≠ some '-'
    · obtain ⟨h1, h2⟩ := key_value_single_bare k hbare hne hd
      rw [h2]; exact ⟨h1, hk, rfl⟩
    · have htail : k.tail ∈ keys := by
        rcases hcase with h | h | h
        · exact absurd (Or.inl h) hd
        · exact absurd (Or.inr h) hd
        · exact h
      rw [not_or, not_not] at hd
      cases k with
      | nil => exact absurd rfl hne
      | cons c r =>
        have hc : c = '-' := by simpa using hd.2
        subst hc
        have hr : '=' ∉ r := fun hm => hbare (List.mem_cons_of_mem _ hm)
        have hrne : r ≠ [] := by
          intro hr0
          subst hr0
          simp at hd
        obtain ⟨h1, h2⟩ := key_value_double_bare r hr hrne
        rw [h2]
        exact ⟨h1, htail, rfl⟩

/-- No named token, read as the specification reads it, names the declaration:
the same for the test and the key of the loop. -/
theorem unnamed_of_forms {args : List Str} {keys : List Str}
    (h : ∀ t ∈ args, namedForm t = true → tokenKey t ∉ keys) :
    ∀ t ∈ args, hasSingleDash t = true → (key_value t).1 ∉ keys := by
  intro t ht hs
  rw [key_value_fst]
  exact h t ht (by rw [← hasSingleDash_eq_namedForm]; exact hs)

/-- The aliases of a declaration of the schema are not empty. -/
theorem declared_alias_ne_nil {argv0 keys : Str} {impl : Impl}
    (hs : parse_schema argv0 keys = .ok impl) {d : CommandLineParserParams}
    (hd : d ∈ impl.data) {k : Str} (hk : k ∈ d.keys) : k ≠ [] := by
  obtain ⟨blocks, impl0, r, _, hdata, _, hr, rfl⟩ := parse_schema_parts hs
  have hkeys := parse_keys_keys blocks hr
  rw [hdata, List.map_nil, List.nil_append] at hkeys
  have hmem : d.keys ∈ r.1.data.map (fun p => p.keys) := List.mem_map.mpr ⟨d, hd, rfl⟩
  rw [hkeys, List.mem_map] at hmem
  obtain ⟨b, _, hb⟩ := hmem
  rw [← hb] at hk
  unfold aliases split_string at hk
  rw [split_string_loop_drop, List.mem_filter] at hk
  simpa using hk.2

/-! ## The claims -/

/-- C2: for a well-formed schema and any arguments, where a token counts as
positional when its length is at most 1 or it does not start with `-`: (1) right
after the loop over the arguments has processed a positional token, every
declaration whose position is the number of positional tokens before it holds
that token, whether or not such a declaration exists; (2) for a declaration `d`
with position `i` that no token in named form names, the store holds the `i`-th
positional token as its value and `getByIndex(i, space_delete, STRING)` returns
it (trimmed when `space_delete`) unless that is `<none>`; (3) when there are at
most `i` positional tokens, `d` keeps its default. -/
theorem C2_positional_tokens_fill_positions (fl : FloatLib) (argv0 keys : Str)
    (args : List Str) (impl st : Impl)
    (hs : parse_schema argv0 keys = .ok impl)
    (hc : CommandLineParser (argv0 :: args) keys = .ok st) :
    (∀ (front : List Str) (tok : Str), (tok.length ≤ 1 ∨ tok.head? ≠ some '-') →
        ∀ q ∈ (parse_argv (front ++ [tok]) 0 impl).data,
          q.number = ((front.filter positionalForm).length : Int) → q.def_value = tok)
      ∧ (∀ d ∈ impl.data, ∀ i : Nat, d.number = (i : Int) →
          (∀ t ∈ args, namedForm t = true → tokenKey t ∉ d.keys) →
          (∀ tok, (args.filter positionalForm)[i]? = some tok →
            (∃ q, findByIndex st.data (i : Int) = some q ∧ q.def_value = tok)
              ∧ (tok ≠ noneValue →
                  getByIndex fl st (i : Int) false Param.STRING = (st, some (Value.str tok)))
              ∧ (cat_string tok ≠ noneValue →
                  getByIndex fl st (i : Int) true Param.STRING
                    = (st, some (Value.str (cat_string tok)))))
            ∧ ((args.filter positionalForm).length ≤ i →
                ∃ q, findByIndex st.data (i : Int) = some q ∧ q.def_value = d.def_value)) := by
  refine ⟨?_, ?_⟩
  · intro front tok htok q hq hnum
    rw [← positionals_eq_filter] at hnum
    have htok2 : hasSingleDash tok = false := by
      have := positionalForm_eq tok
      rw [positionalForm, decide_eq_true htok] at this
      simpa using this.symm
    rw [parse_argv_eq _ 0 impl (parse_schema_distinct hs)] at hq
    simp only [List.mem_map] at hq
    obtain ⟨p, _, rfl⟩ := hq
    rw [overlay_append] at hnum ⊢
    obtain ⟨_, hn1, _⟩ := overlay_fields front 0 p
    generalize overlay front 0 p = p1 at hn1 hnum ⊢
    have hne : ¬ hasSingleDash tok = true := by simp [htok2]
    rw [overlay_cons_other _ _ _ hne] at hnum ⊢
    simp only [overlay] at hnum ⊢
    rw [(set_if_number_fields _ _ _).2.1] at hnum
    apply set_if_number_of_eq
    rw [hnum]; simp
  · intro d hd i hi hnamed
    rw [← positionals_eq_filter]
    obtain ⟨q, hq, hv⟩ := constructed_findByIndex hs hc hd hi
    rw [overlay_positional args 0 i d (by rw [hi]; simp) (unnamed_of_forms hnamed)] at hv
    refine ⟨?_, ?_⟩
    · intro tok htok
      rw [htok, Option.getD_some] at hv
      refine ⟨⟨q, hq, hv⟩, ?_, ?_⟩
      · intro hne
        unfold getByIndex
        rw [hq]
        simp only [hv]
        exact retrieve_string fl st _ _ tok false (by simpa using hne)
      · intro hne
        unfold getByIndex
        rw [hq]
        simp only [hv]
        exact retrieve_string fl st _ _ tok true (by simpa using hne)
    · intro hlen
      rw [List.getElem?_eq_none (by omega), Option.getD_none] at hv
      exact ⟨q, hq, hv⟩

/-- C2 at the schema `{@arg1||}{@arg2||}` and the arguments `app abc qwe`:
`get<String>(0)` is `abc` and `get<String>(1)` is `qwe`; and at the schema
`{@arg1||}{@arg2||}{v||}` and the arguments `app -v=1 - --v qwe`, where the
tokens `-v=1` and `--v` are in named form and the token `-` is not:
`get<String>(0)` is `-` and `get<String>(1)` is `qwe`. -/
theorem C2_witness :
    (CommandLineParser ["app".toList, "abc".toList, "qwe".toList] "{@arg1||}{@arg2||}".toList
        = .ok C2_store
      ∧ get_index noFloat C2_store 0 true Param.STRING = (C2_store, Value.str "abc".toList)
      ∧ get_index noFloat C2_store 1 true Param.STRING = (C2_store, Value.str "qwe".toList))
    ∧ (CommandLineParser ["app".toList, "-v=1".toList, "-".toList, "--v".toList, "qwe".toList]
          "{@arg1||}{@arg2||}{v||}".toList = .ok C2_store_named
      ∧ get_index noFloat C2_store_named 0 true Param.STRING
          = (C2_store_named, Value.str "-".toList)
      ∧ get_index noFloat C2_store_named 1 true Param.STRING
          = (C2_store_named, Value.str "qwe".toList)) := by
  have hs : parse_schema "app".toList "{@arg1||}{@arg2||}".toList = .ok C2_schema := by decide!
  have hc : CommandLineParser ["app".toList, "abc".toList, "qwe".toList]
      "{@arg1||}{@arg2||}".toList = .ok C2_store := by decide!
  have hs2 : parse_schema "app".toList "{@arg1||}{@arg2||}{v||}".toList
      = .ok C2_schema_named := by decide!
  have hc2 : CommandLineParser
      ["app".toList, "-v=1".toList, "-".toList, "--v".toList, "qwe".toList]
      "{@arg1||}{@arg2||}{v||}".toList = .ok C2_store_named := by decide!
  have h := (C2_positional_tokens_fill_positions noFloat "app".toList
    "{@arg1||}{@arg2||}".toList ["abc".toList, "qwe".toList] C2_schema C2_store hs hc).2
  have h0 := ((h ⟨[], [], ["@arg1".toList], 0⟩ (by decide!) 0 rfl (by decide!)).1
    "abc".toList (by decide!)).2.2 (by decide!)
  have h1 := ((h ⟨[], [], ["@arg2".toList], 1⟩ (by decide!) 1 rfl (by decide!)).1
    "qwe".toList (by decide!)).2.2 (by decide!)
  have g := (C2_positional_tokens_fill_positions noFloat "app".toList
    "{@arg1||}{@arg2||}{v||}".toList
    ["-v=1".toList, "-".toList, "--v".toList, "qwe".toList] C2_schema_named C2_store_named
    hs2 hc2).2
  have g0 := ((g ⟨[], [], ["@arg1".toList], 0⟩ (by decide!) 0 rfl (by decide!)).1
    "-".toList (by decide!)).2.2 (by decide!)
  have g1 := ((g ⟨[], [], ["@arg2".toList], 1⟩ (by decide!) 1 rfl (by decide!)).1
    "qwe".toList (by decide!)).2.2 (by decide!)
  refine ⟨⟨hc, ?_, ?_⟩, hc2, ?_, ?_⟩
  · unfold get_index
    rw [show ((0 : Int)) = ((0 : Nat) : Int) from rfl, h0]
    decide!
  · unfold get_index
    rw [show ((1 : Int)) = ((1 : Nat) : Int) from rfl, h1]
    decide!
  · unfold get_index
    rw [show ((0 : Int)) = ((0 : Nat) : Int) from rfl, g0]
    decide!
  · unfold get_index
    rw [show ((1 : Int)) = ((1 : Nat) : Int) from rfl, g1]
    decide!

/-- C3 fails as stated: with the schema `{@x||}` and the arguments `app hello`
the positional token is stored (`get<String>(0)` is `hello`), yet `has("x")` is
false; the key of the declaration is `@x`. -/
theorem C3_counterexample :
    CommandLineParser ["app".toList, "hello".toList] "{@x||}".toList = .ok C3_store
      ∧ get_index noFloat C3_store 0 true Param.STRING = (C3_store, Value.str "hello".toList)
      ∧ has C3_store "x".toList = false := by
  decide!

/-- C3, amended: for a declaration with position `i` and a declared alias `a` of
it (such as `@x`, with the `@`) that no other declaration lists: when no named
token names the declaration and the `i`-th token that is not in named form is,
after trimming spaces, neither empty nor `<none>`, `has(a)` is true.  A name that
no declaration lists, such as the bare `x`, gives false. -/
theorem C3_has_with_declared_alias (argv0 keys : Str) (args : List Str) (impl st : Impl)
    (hs : parse_schema argv0 keys = .ok impl)
    (hc : CommandLineParser (argv0 :: args) keys = .ok st) :
    (∀ d ∈ impl.data, ∀ (i : Nat) (a tok : Str), d.number = (i : Int) → a ∈ d.keys →
        (∀ p ∈ impl.data, a ∈ p.keys → p = d) →
        (∀ t ∈ args, hasSingleDash t = true → (key_value t).1 ∉ d.keys) →
        (positionals args)[i]? = some tok →
        cat_string tok ≠ [] → cat_string tok ≠ noneValue → has st a = true)
      ∧ (∀ x : Str, (∀ p ∈ impl.data, x ∉ p.keys) → has st x = false) := by
  refine ⟨?_, ?_⟩
  · intro d hd i a tok hi ha honly hnamed htok hne hnn
    obtain ⟨q, hq, hv⟩ := constructed_findByName_of_only hs hc hd ha honly
    rw [overlay_positional args 0 i d (by rw [hi]; simp) hnamed, htok, Option.getD_some] at hv
    unfold has
    rw [hq]
    simp [hv, hne, hnn]
  · intro x hx
    unfold has
    rw [constructed_findByName_none hs hc hx]

/-- C3, amended, at the schema `{@x||}` and the arguments `app hello`:
`has("@x")` is true and `has("x")` is false. -/
theorem C3_witness :
    CommandLineParser ["app".toList, "hello".toList] "{@x||}".toList = .ok C3_store
      ∧ has C3_store "@x".toList = true ∧ has C3_store "x".toList = false := by
  have hs : parse_schema "app".toList "{@x||}".toList = .ok C3_schema := by decide!
  have hc : CommandLineParser ["app".toList, "hello".toList] "{@x||}".toList = .ok C3_store := by
    decide!
  have h := C3_has_with_declared_alias "app".toList "{@x||}".toList ["hello".toList]
    C3_schema C3_store hs hc
  refine ⟨hc, ?_, ?_⟩
  · exact h.1 ⟨[], [], ["@x".toList], 0⟩ (by decide!) 0 "@x".toList "hello".toList rfl
      (by decide!) (by decide!) (by decide!) (by decide!) (by decide!) (by decide!)
  · exact h.2 "x".toList (by decide!)

/-- C4: for a store and a name listed by some declaration, `has(name)` is true
exactly when the value of the first declaration that lists the name, with the
spaces at both ends removed, is neither empty nor `<none>`; it is false when that
trimmed value is `<none>`. -/
theorem C4_has_iff_trimmed_value_present (impl : Impl) (name : Str)
    (front back : List CommandLineParserParams) (p : CommandLineParserParams)
    (hdata : impl.data = front ++ p :: back)
    (hfront : ∀ q ∈ front, name ∉ q.keys) (hp : name ∈ p.keys) :
    (has impl name = true ↔ cat_string p.def_value ≠ [] ∧ cat_string p.def_value ≠ noneValue)
      ∧ (cat_string p.def_value = noneValue → has impl name = false) := by
  unfold has
  rw [hdata, findByName_first back hfront hp]
  constructor
  · simp
  · intro h
    simp [h]

/-- C4 at a store whose declaration `r` has the value `<none>` between spaces and
whose declaration `@p` has the value `7`: `has("r")` is false and `has("@p")` is
true. -/
theorem C4_witness :
    has sample_store "r".toList = false ∧ has sample_store "@p".toList = true := by
  have hr := C4_has_iff_trimmed_value_present sample_store "r".toList
    [⟨[], [], ["e".toList], -1⟩] [⟨[], "7".toList, ["@p".toList], 0⟩]
    ⟨[], " <none> ".toList, ["r".toList], -1⟩ rfl (by decide!) (by decide!)
  have hp := C4_has_iff_trimmed_value_present sample_store "@p".toList
    [⟨[], [], ["e".toList], -1⟩, ⟨[], " <none> ".toList, ["r".toList], -1⟩] []
    ⟨[], "7".toList, ["@p".toList], 0⟩ rfl (by decide!) (by decide!)
  exact ⟨hr.2 (by decide!), hp.1.mpr (by decide!)⟩

/-- C5: for a well-formed schema with unique aliases and no argument after
`argv[0]`, and a declaration whose default, with the spaces at both ends
removed, is a decimal integer `n` in the range of `int`: `getByName(b, true,
INT)` for every alias `b` of the declaration stores exactly `n` and returns the
store unchanged, so no error is recorded and `check()` keeps its value. -/
theorem C5_default_integer_round_trip (fl : FloatLib) (argv0 keys : Str) (impl st : Impl)
    (d : CommandLineParserParams) (n : Int) (b : Str)
    (hs : parse_schema argv0 keys = .ok impl)
    (hc : CommandLineParser [argv0] keys = .ok st)
    (hu : UniqueAliases impl.data) (hd : d ∈ impl.data)
    (hdec : decimalInteger (cat_string d.def_value) = some n)
    (hlo : -(2 ^ 31) ≤ n) (hhi : n ≤ 2 ^ 31 - 1) (hb : b ∈ d.keys) :
    getByName fl st b true Param.INT = (st, some (Value.int n))
      ∧ get fl st b true Param.INT = (st, Value.int n)
      ∧ check (getByName fl st b true Param.INT).1 = check st := by
  obtain ⟨q, hq, hv⟩ := constructed_findByName hs hc hu hd hb
  have hv2 : q.def_value = d.def_value := hv
  obtain ⟨hne, hnn, hex⟩ := decimalInteger_extract hdec hlo hhi
  have hget : getByName fl st b true Param.INT = (st, some (Value.int n)) := by
    unfold getByName
    rw [hq]
    simp only [hv2]
    apply retrieve_ok
    · simp only [if_true]
      rintro (⟨h, _⟩ | h)
      · exact hne h
      · exact hnn h
    · simp only [if_true]
      have hfe : from_str_extract fl (cat_string d.def_value) Param.INT
          = some (extract_signed 32 (c_str (cat_string d.def_value))) := rfl
      rw [from_str_of_extract hfe, hex]
      rfl
  refine ⟨hget, ?_, ?_⟩
  · unfold get
    rw [hget]
    rfl
  · rw [hget]

/-- C5 at the schema `{n count| 100 |count of objects}` and the arguments `app`:
`get<int>("n")` and `get<int>("count")` are `100`, and `check()` is true. -/
theorem C5_witness :
    CommandLineParser ["app".toList] "{n count| 100 |count of objects}".toList = .ok C5_store
      ∧ get noFloat C5_store "n".toList true Param.INT = (C5_store, Value.int 100)
      ∧ get noFloat C5_store "count".toList true Param.INT = (C5_store, Value.int 100)
      ∧ check C5_store = true := by
  have hs : parse_schema "app".toList "{n count| 100 |count of objects}".toList
      = .ok C5_schema := by decide!
  have hc : CommandLineParser ["app".toList] "{n count| 100 |count of objects}".toList
      = .ok C5_store := by decide!
  have h := fun b hb => (C5_default_integer_round_trip noFloat "app".toList
    "{n count| 100 |count of objects}".toList C5_schema C5_store
    ⟨"count of objects".toList, " 100 ".toList, ["n".toList, "count".toList], -1⟩ 100 b
    hs hc (by decide!) (by decide!) (by decide!) (by decide!) (by decide!) hb).2.1
  exact ⟨hc, h "n".toList (by decide!), h "count".toList (by decide!), by decide!⟩

/-- C6: for a store, a requested type and a name listed by some declaration (or
a position some declaration has), with `v` the value of the first such
declaration, trimmed when `space_delete` is set: the retrieval sets the error
flag, appends `Missing parameter: '<name>'` (or `Missing parameter #<index>`)
and a newline to the error text and writes no result, so that `get` returns the
zero value of the type, exactly when `v` is empty and the type is not `STRING`,
or `v` is `<none>`.  A `STRING` request on an empty `v` returns the empty string
and leaves the store unchanged; a `STRING` request on `<none>` records the
error. -/
theorem C6_missing_parameter_iff (fl : FloatLib) (impl : Impl)
    (front back : List CommandLineParserParams) (p : CommandLineParserParams)
    (space_delete : Bool) (hdata : impl.data = front ++ p :: back) :
    (∀ (name : Str) (type : Param), (∀ q ∈ front, name ∉ q.keys) → name ∈ p.keys →
      ((getByName fl impl name space_delete type
            = ({ impl with error := true,
                           error_message := impl.error_message
                             ++ ("Missing parameter: '".toList ++ name ++ "'\n".toList) }, none)
          ↔ (((if space_delete then cat_string p.def_value else p.def_value) = []
                ∧ type ≠ Param.STRING)
              ∨ (if space_delete then cat_string p.def_value else p.def_value) = noneValue))
        ∧ ((if space_delete then cat_string p.def_value else p.def_value) = [] →
            getByName fl impl name space_delete Param.STRING = (impl, some (Value.str [])))
        ∧ (getByName fl impl name space_delete type
              = ({ impl with error := true,
                             error_message := impl.error_message
                               ++ ("Missing parameter: '".toList ++ name ++ "'\n".toList) }, none)
            → (get fl impl name space_delete type).2 = zeroValue type)))
    ∧ (∀ (index : Int) (type : Param), (∀ q ∈ front, q.number ≠ index) → p.number = index →
      ((getByIndex fl impl index space_delete type
            = ({ impl with error := true,
                           error_message := impl.error_message
                             ++ ("Missing parameter #".toList ++ to_string index
                               ++ "\n".toList) }, none)
          ↔ (((if space_delete then cat_string p.def_value else p.def_value) = []
                ∧ type ≠ Param.STRING)
              ∨ (if space_delete then cat_string p.def_value else p.def_value) = noneValue))
        ∧ ((if space_delete then cat_string p.def_value else p.def_value) = [] →
            getByIndex fl impl index space_delete Param.STRING = (impl, some (Value.str [])))
        ∧ (getByIndex fl impl index space_delete type
              = ({ impl with error := true,
                             error_message := impl.error_message
                               ++ ("Missing parameter #".toList ++ to_string index
                                 ++ "\n".toList) }, none)
            → (get_index fl impl index space_delete type).2 = zeroValue type))) := by
  refine ⟨?_, ?_⟩
  · intro name type hfront hp
    have hfind := findByName_first back hfront hp
    rw [← hdata] at hfind
    refine ⟨?_, ?_, ?_⟩
    · unfold getByName
      rw [hfind]
      exact retrieve_missing_iff fl impl _ _ p.def_value space_delete type rfl rfl
    · intro hv
      unfold getByName
      rw [hfind]
      have := retrieve_string fl impl ("Missing parameter: '".toList ++ name ++ "'\n".toList)
        ("Parameter '".toList ++ name ++ "': ".toList) p.def_value space_delete
        (by rw [hv]; decide)
      rw [hv] at this
      exact this
    · intro h
      unfold get
      rw [h]
      rfl
  · intro index type hfront hp
    have hfind := findByIndex_first back hfront hp
    rw [← hdata] at hfind
    refine ⟨?_, ?_, ?_⟩
    · unfold getByIndex
      rw [hfind]
      exact retrieve_missing_iff fl impl _ _ p.def_value space_delete type rfl rfl
    · intro hv
      unfold getByIndex
      rw [hfind]
      have := retrieve_string fl impl
        ("Missing parameter #".toList ++ to_string index ++ "\n".toList)
        ("Parameter #".toList ++ to_string index ++ " ".toList) p.def_value space_delete
        (by rw [hv]; decide)
      rw [hv] at this
      exact this
    · intro h
      unfold get_index
      rw [h]
      rfl

/-- C6 at a store whose declaration `e` has an empty value and whose declaration
`r` has the value `<none>` between spaces: `get<int>("e")` records `Missing
parameter: 'e'` and returns `0`, `get<String>("e")` returns the empty string
without an error, and `get<String>("r")` records `Missing parameter: 'r'`. -/
theorem C6_witness :
    get noFloat sample_store "e".toList true Param.INT
        = ({ sample_store with
               error := true,
               error_message := "earlier\nMissing parameter: 'e'\n".toList },
           Value.int 0)
      ∧ get noFloat sample_store "e".toList true Param.STRING = (sample_store, Value.str [])
      ∧ getByName noFloat sample_store "r".toList true Param.STRING
        = ({ sample_store with
               error := true,
               error_message := "earlier\nMissing parameter: 'r'\n".toList },
           none) := by
  have he := (C6_missing_parameter_iff noFloat sample_store []
    [⟨[], " <none> ".toList, ["r".toList], -1⟩, ⟨[], "7".toList, ["@p".toList], 0⟩]
    ⟨[], [], ["e".toList], -1⟩ true rfl).1
  have hr := (C6_missing_parameter_iff noFloat sample_store [⟨[], [], ["e".toList], -1⟩]
    [⟨[], "7".toList, ["@p".toList], 0⟩] ⟨[], " <none> ".toList, ["r".toList], -1⟩ true rfl).1
  have h1 := (he "e".toList Param.INT (by simp) (by decide!)).1.mpr (by decide!)
  have h2 := (he "e".toList Param.STRING (by simp) (by decide!)).2.1 (by decide!)
  have h3 := (hr "r".toList Param.STRING (by decide!) (by decide!)).1.mpr (by decide!)
  refine ⟨?_, ?_, ?_⟩
  · unfold get
    rw [h1]
    decide!
  · unfold get
    rw [h2]
    rfl
  · rw [h3]
    decide!

/-- C7 fails as stated.  With the schema `{v||}` and the arguments `app
-v=<TAB>5` the value is not empty, not `<none>`, and starts with a tab, which is
neither a sign nor a digit; yet `get<int>("v")` is `5` and `check()` stays true,
because the extraction skips leading white space.  With the default
`a<NUL>b` the error text is cut at the NUL character. -/
theorem C7_counterexample :
    (CommandLineParser ["app".toList, "-v=\t5".toList] "\x7bv||\x7d".toList = .ok C7_store_tab
      ∧ cat_string "\t5".toList = "\t5".toList
      ∧ get noFloat C7_store_tab "v".toList true Param.INT = (C7_store_tab, Value.int 5)
      ∧ check C7_store_tab = true)
    ∧ (CommandLineParser ["app".toList] "\x7bv|a\x00b|\x7d".toList = .ok C7_store_nul
      ∧ get noFloat C7_store_nul "v".toList true Param.INT
        = ({ C7_store_nul with
               error := true,
               error_message := "Parameter 'v': can not convert: [a\n".toList },
           Value.int 0)) := by
  decide!

/-- C7, amended: for a name listed by some declaration whose value `v`, with the
spaces at both ends removed, is not empty, is not `<none>`, contains no NUL
character and, after leading white space (tab, newline, vertical tab, form feed,
carriage return, space) and one optional sign, does not start with a decimal
digit: `get<int>(name)` returns `0`, sets the error flag so that `check()` is
false, and appends exactly `Parameter '<name>': can not convert: [<v>] to [int]`
and a newline to the error text. -/
theorem C7_non_numeric_value_is_conversion_error (fl : FloatLib) (impl : Impl) (name : Str)
    (front back : List CommandLineParserParams) (p : CommandLineParserParams)
    (hdata : impl.data = front ++ p :: back)
    (hfront : ∀ q ∈ front, name ∉ q.keys) (hp : name ∈ p.keys)
    (hne : cat_string p.def_value ≠ []) (hnn : cat_string p.def_value ≠ noneValue)
    (hnul : '\x00' ∉ cat_string p.def_value)
    (hnd : NoDigitHead (stripSign ((cat_string p.def_value).dropWhile isspace))) :
    get fl impl name true Param.INT
        = ({ impl with
               error := true,
               error_message := impl.error_message
                 ++ ("Parameter '".toList ++ name ++ "': can not convert: [".toList
                      ++ cat_string p.def_value ++ "] to [int]\n".toList) },
           Value.int 0)
      ∧ check (get fl impl name true Param.INT).1 = false := by
  have hfind := findByName_first back hfront hp
  rw [← hdata] at hfind
  have hex := extract_signed_no_digit 32 (c_str (cat_string p.def_value))
    (by rw [c_str_of_no_nul hnul]; exact hnd)
  have hfe : from_str_extract fl (cat_string p.def_value) Param.INT
      = some (extract_signed 32 (c_str (cat_string p.def_value))) := rfl
  have hmsg : c_str ("can not convert: [".toList ++ cat_string p.def_value ++ "] to [".toList
      ++ get_type_name Param.INT ++ "]".toList)
      = "can not convert: [".toList ++ cat_string p.def_value ++ "] to [int]".toList := by
    rw [c_str_of_no_nul]
    · simp only [List.append_assoc]
      rfl
    · simp only [List.mem_append, not_or]
      exact ⟨⟨⟨⟨by decide, hnul⟩, by decide⟩, by decide⟩, by decide⟩
  have hget : get fl impl name true Param.INT
      = ({ impl with
             error := true,
             error_message := impl.error_message
               ++ ("Parameter '".toList ++ name ++ "': can not convert: [".toList
                    ++ cat_string p.def_value ++ "] to [int]\n".toList) },
         Value.int 0) := by
    unfold get getByName
    rw [hfind]
    simp only
    rw [retrieve_thrown (extract_signed 32 (c_str (cat_string p.def_value))).stored
      ("can not convert: [".toList ++ cat_string p.def_value ++ "] to [int]".toList)]
    · refine Prod.ext ?_ hex.2
      simp only [List.append_assoc]
      rfl
    · simp only [if_true]
      rintro (⟨h, _⟩ | h)
      · exact hne h
      · exact hnn h
    · simp only [if_true]
      rw [from_str_of_extract hfe, hex.1, if_pos rfl, hmsg]
  refine ⟨hget, ?_⟩
  rw [hget]
  rfl

/-- C7, amended, at the schema `{v||}` and the arguments `app -v=notanumber`. -/
theorem C7_witness :
    CommandLineParser ["app".toList, "-v=notanumber".toList] "{v||}".toList = .ok C7_store
      ∧ get noFloat C7_store "v".toList true Param.INT
        = ({ C7_store with
               error := true,
               error_message :=
                 "Parameter 'v': can not convert: [notanumber] to [int]\n".toList },
           Value.int 0)
      ∧ check (get noFloat C7_store "v".toList true Param.INT).1 = false := by
  have h := C7_non_numeric_value_is_conversion_error noFloat C7_store "v".toList [] []
    ⟨[], "notanumber".toList, ["v".toList], -1⟩ rfl (by simp) (by decide!) (by decide!)
    (by decide!) (by decide!) (by
      have : stripSign ((cat_string "notanumber".toList).dropWhile isspace)
          = "notanumber".toList := by decide!
      show NoDigitHead (stripSign ((cat_string "notanumber".toList).dropWhile isspace))
      rw [this]
      intro c r hcr
      cases hcr
      decide)
  refine ⟨by decide!, ?_, h.2⟩
  rw [h.1]
  decide!

/-- C8 fails as stated: with the schema `{v|12abc|}` and the arguments `app`, the
value `12abc` is a whole number followed by other characters, yet `get<int>("v")`
is `12`, the store is unchanged and `check()` stays true; the same holds for the
three other integer types. -/
theorem C8_counterexample :
    CommandLineParser ["app".toList] "{v|12abc|}".toList = .ok C8_store
      ∧ get noFloat C8_store "v".toList true Param.INT = (C8_store, Value.int 12)
      ∧ get noFloat C8_store "v".toList true Param.UINT = (C8_store, Value.int 12)
      ∧ get noFloat C8_store "v".toList true Param.INT64 = (C8_store, Value.int 12)
      ∧ get noFloat C8_store "v".toList true Param.UINT64 = (C8_store, Value.int 12)
      ∧ check C8_store = true := by
  decide!

/-- C8, amended: for a name listed by some declaration whose value (trimmed when
`space_delete` is set) is a non-empty run of decimal digits `ds` followed by
characters `rest` the first of which is not a digit (as in `12abc`), retrieval
with `INT`, `UINT`, `INT64` or `UINT64` stores the number `ds` denotes and leaves
the store unchanged when that number is within the range of the type; the error
flag is set when the number is above the range of the type. -/
theorem C8_trailing_characters_are_ignored (fl : FloatLib) (impl : Impl) (name : Str)
    (front back : List CommandLineParserParams) (p : CommandLineParserParams)
    (space_delete : Bool) (type : Param) (ds rest : Str)
    (hdata : impl.data = front ++ p :: back)
    (hfront : ∀ q ∈ front, name ∉ q.keys) (hp : name ∈ p.keys)
    (htype : type = Param.INT ∨ type = Param.UINT ∨ type = Param.INT64 ∨ type = Param.UINT64)
    (hv : (if space_delete then cat_string p.def_value else p.def_value) = ds ++ rest)
    (hds : ∀ c ∈ ds, isdigit c = true) (hne : ds ≠ []) (hhead : NoDigitHead rest) :
    (digitsValue ds ≤ intMax type →
        getByName fl impl name space_delete type = (impl, some (Value.int (digitsValue ds)))
          ∧ get fl impl name space_delete type = (impl, Value.int (digitsValue ds)))
      ∧ (intMax type < digitsValue ds →
          check (getByName fl impl name space_delete type).1 = false) := by
  have hfind := findByName_first back hfront hp
  rw [← hdata] at hfind
  have h := retrieve_digits_prefix fl impl
    ("Missing parameter: '".toList ++ name ++ "'\n".toList)
    ("Parameter '".toList ++ name ++ "': ".toList) p.def_value space_delete type ds rest
    htype hv hds hne hhead
  have hget : getByName fl impl name space_delete type
      = retrieve fl impl ("Missing parameter: '".toList ++ name ++ "'\n".toList)
          ("Parameter '".toList ++ name ++ "': ".toList) p.def_value space_delete type := by
    unfold getByName
    rw [hfind]
  refine ⟨?_, ?_⟩
  · intro hle
    have h1 := h.1 hle
    refine ⟨hget.trans h1, ?_⟩
    unfold get
    rw [hget, h1]
    rfl
  · intro hlt
    rw [hget]
    unfold check
    rw [h.2 hlt]
    rfl

/-- C8, amended, at the store built from `{v|12abc|}`: `get<unsigned int>("v")`
is `12` and the store is unchanged. -/
theorem C8_witness :
    get noFloat C8_store "v".toList true Param.UINT = (C8_store, Value.int 12) := by
  have h := (C8_trailing_characters_are_ignored noFloat C8_store "v".toList [] []
    ⟨[], "12abc".toList, ["v".toList], -1⟩ true Param.UINT "12".toList "abc".toList rfl
    (by simp) (by decide!) (Or.inr (Or.inl rfl)) (by decide!) (by decide!) (by decide!)
    (by intro c r hcr; cases hcr; decide)).1 (by decide!)
  rw [h.2]
  decide!

/-- C9, the source at the failing input: with the schema `{b||}` and the
arguments `app -b=maybe`, `get<bool>("b")` returns `false`, the error text stays
empty and `check()` stays true; `from_str` throws nothing for the token
`maybe`. -/
theorem C9_malformed_boolean_is_not_reported :
    CommandLineParser ["app".toList, "-b=maybe".toList] "{b||}".toList = .ok C9_store
      ∧ get noFloat C9_store "b".toList true Param.BOOLEAN = (C9_store, Value.bool false)
      ∧ check (get noFloat C9_store "b".toList true Param.BOOLEAN).1 = true
      ∧ from_str noFloat "maybe".toList Param.BOOLEAN = ⟨some (Value.bool false), none⟩
      ∧ (from_str noFloat "maybe".toList Param.INT).thrown
          = some "can not convert: [maybe] to [int]".toList := by
  decide!

/-- C10: for a well-formed schema with unique aliases, a declaration `d` without
a position and an alias `k` of it that contains no `=`: when the last argument in
named form whose key is an alias of `d` is the text `--k`, or the text `-k` (if
`k` is `-x` with `x` not empty, that text is `--x` with the key `x`, which is
then to be an alias of `d` too), the value of the declaration after construction
is the text `true`, and `getByName(k, true, BOOLEAN)` stores `true` and returns
the store unchanged, so that no error is recorded. -/
theorem C10_bare_flag_reads_true (fl : FloatLib) (argv0 keys : Str)
    (pre post : List Str) (T k : Str) (impl st : Impl) (d : CommandLineParserParams)
    (hs : parse_schema argv0 keys = .ok impl)
    (hc : CommandLineParser (argv0 :: (pre ++ T :: post)) keys = .ok st)
    (hu : UniqueAliases impl.data) (hd : d ∈ impl.data) (hn : d.number = -1)
    (hform : T = '-' :: '-' :: k
      ∨ (T = '-' :: k ∧ (k.length ≤ 1 ∨ k.head? ≠ some '-' ∨ k.tail ∈ d.keys)))
    (hbare : '=' ∉ k) (hk : k ∈ d.keys)
    (hlast : ∀ t ∈ post, namedForm t = true → tokenKey t ∉ d.keys) :
    (∃ q, findByName st.data k = some q ∧ q.def_value = "true".toList)
      ∧ getByName fl st k true Param.BOOLEAN = (st, some (Value.bool true))
      ∧ get fl st k true Param.BOOLEAN = (st, Value.bool true) := by
  obtain ⟨q, hq, hv⟩ := constructed_findByName hs hc hu hd hk
  obtain ⟨hT, hkey, hval⟩ := bare_flag_form hform hbare (declared_alias_ne_nil hs hd hk) hk
  rw [overlay_last_named pre post T 0 d (by omega) hT hkey (unnamed_of_forms hlast), hval] at hv
  have hget : getByName fl st k true Param.BOOLEAN = (st, some (Value.bool true)) := by
    unfold getByName
    rw [hq]
    simp only [hv]
    exact retrieve_true_boolean fl st _ _
  refine ⟨⟨q, hq, hv⟩, hget, ?_⟩
  unfold get
  rw [hget]
  rfl

/-- C10 at the schema `{f||}`: with the arguments `app -f`, and with the
arguments `app --f`, `get<bool>("f")` is `true` and `check()` stays true. -/
theorem C10_witness :
    (CommandLineParser ["app".toList, "-f".toList] "{f||}".toList = .ok C10_store
      ∧ get noFloat C10_store "f".toList true Param.BOOLEAN = (C10_store, Value.bool true)
      ∧ check C10_store = true)
    ∧ (CommandLineParser ["app".toList, "--f".toList] "{f||}".toList = .ok C10_store
      ∧ (∃ q, findByName C10_store.data "f".toList = some q ∧ q.def_value = "true".toList)) := by
  have hs : parse_schema "app".toList "{f||}".toList = .ok C10_schema := by decide!
  have hc : CommandLineParser ("app".toList :: ([] ++ "-f".toList :: [])) "{f||}".toList
      = .ok C10_store := by decide!
  have hc2 : CommandLineParser ("app".toList :: ([] ++ "--f".toList :: [])) "{f||}".toList
      = .ok C10_store := by decide!
  have h := C10_bare_flag_reads_true noFloat "app".toList "{f||}".toList [] [] "-f".toList
    "f".toList C10_schema C10_store ⟨[], [], ["f".toList], -1⟩ hs hc (by decide!) (by decide!)
    rfl (Or.inr ⟨rfl, Or.inl (by decide)⟩) (by decide) (by decide!) (by simp)
  have h2 := C10_bare_flag_reads_true noFloat "app".toList "{f||}".toList [] [] "--f".toList
    "f".toList C10_schema C10_store ⟨[], [], ["f".toList], -1⟩ hs hc2 (by decide!) (by decide!)
    rfl (Or.inl rfl) (by decide) (by decide!) (by simp)
  exact ⟨⟨hc, h.2.2, by decide!⟩, hc2, h2.1⟩

/-- C12, the source at the failing input: for the schema `{{}` the second `{`
comes while the block opened by the first is still open, yet
`split_range_string` returns the one block body `{` and throws nothing, and the
schema `{{||}` is constructed into a store with a declaration whose alias is
`{`.  A `{` that does not directly follow the opening one is rejected, as in
`{a{b}`. -/
theorem C12_open_brace_after_open_brace_is_accepted :
    split_range_string "\x7b\x7b\x7d".toList '{' '}' = .ok ["\x7b".toList]
      ∧ CommandLineParser ["app".toList] "\x7b\x7b||\x7d".toList = .ok C12_store
      ∧ split_range_string "\x7ba\x7bb\x7d".toList '{' '}'
        = .error (.exception "error in split_range_string(\x7bb\x7d, \x7b, \x7d)".toList) := by
  decide!

/-- C15 fails as stated: in a store whose first two declarations both list the
key `k`, `apply_params("k", "v")` overwrites the value of the second one as well;
it does not keep its value `2`. -/
theorem C15_counterexample :
    (C15_store.apply_params "k".toList "v".toList).data
      = [⟨[], "v".toList, ["k".toList], -1⟩, ⟨[], "v".toList, ["j".toList, "k".toList], -1⟩,
         ⟨[], "3".toList, ["m".toList], -1⟩] := by
  decide!

/-- C15, amended: `apply_params(K, V)` overwrites the value of every declaration
that has `K` among its aliases and changes nothing else: a declaration that does
not list `K` is unchanged, the keys, the help text and the position of every
declaration are unchanged, the number and order of the declarations are
unchanged, and so are the error flag, the error text and the other fields of
the store; when no declaration lists `K` the store is unchanged. -/
theorem C15_apply_params_overwrites_every_match (impl : Impl) (K V : Str) :
    (impl.apply_params K V).error = impl.error
      ∧ (impl.apply_params K V).error_message = impl.error_message
      ∧ (impl.apply_params K V).about_message = impl.about_message
      ∧ (impl.apply_params K V).path_to_app = impl.path_to_app
      ∧ (impl.apply_params K V).app_name = impl.app_name
      ∧ (impl.apply_params K V).data.length = impl.data.length
      ∧ (∀ (i : Nat) (p : CommandLineParserParams), impl.data[i]? = some p →
          ∃ q, (impl.apply_params K V).data[i]? = some q
            ∧ q.keys = p.keys ∧ q.help_message = p.help_message ∧ q.number = p.number
            ∧ (K ∈ p.keys → q.def_value = V) ∧ (K ∉ p.keys → q = p))
      ∧ ((∀ p ∈ impl.data, K ∉ p.keys) → impl.apply_params K V = impl) := by
  refine ⟨rfl, rfl, rfl, rfl, rfl, ?_, ?_, ?_⟩
  · simp [Impl.apply_params]
  · intro i p hp
    refine ⟨set_if_key K V p, ?_, (set_if_key_fields K V p).1,
      (set_if_key_fields K V p).2.2, (set_if_key_fields K V p).2.1,
      fun h => set_if_key_of_mem h, fun h => set_if_key_of_not h⟩
    simp [Impl.apply_params, List.getElem?_map, hp]
  · intro h
    have hmap : impl.data.map (set_if_key K V) = impl.data := by
      conv_rhs => rw [← List.map_id impl.data]
      apply List.map_congr_left
      intro p hp
      simp [set_if_key_of_not (h p hp)]
    simp only [Impl.apply_params, hmap]

/-- C17: every operation that can be called after construction keeps a set error
flag set and only extends the error text, so the text before the call is a
prefix of the text after it; hence after any sequence of operations a `check()`
that was false is still false. -/
theorem C17_error_state_is_monotonic (fl : FloatLib) (impl : Impl) :
    (∀ op : Op, (impl.error = true → (step fl impl op).error = true)
        ∧ impl.error_message <+: (step fl impl op).error_message)
      ∧ (∀ ops : List Op, (check impl = false → check (run fl impl ops) = false)
        ∧ impl.error_message <+: (run fl impl ops).error_message) := by
  have hstep : ∀ (s : Impl) (op : Op), (s.error = true → (step fl s op).error = true)
      ∧ s.error_message <+: (step fl s op).error_message := by
    intro s op
    cases op with
    | getByName name sd type =>
      simp only [step, getByName]
      cases findByName s.data name with
      | some p => exact retrieve_monotone fl s _ _ p.def_value sd type
      | none =>
        refine ⟨fun _ => rfl, ?_⟩
        simp only [List.append_assoc]
        exact List.prefix_append _ _
    | getByIndex index sd type =>
      simp only [step, getByIndex]
      cases findByIndex s.data index with
      | some p => exact retrieve_monotone fl s _ _ p.def_value sd type
      | none =>
        refine ⟨fun _ => rfl, ?_⟩
        simp only [List.append_assoc]
        exact List.prefix_append _ _
    | about message => exact ⟨fun h => h, List.prefix_refl _⟩
    | has name => exact ⟨fun h => h, List.prefix_refl _⟩
    | check => exact ⟨fun h => h, List.prefix_refl _⟩
    | printErrors => exact ⟨fun h => h, List.prefix_refl _⟩
    | printMessage => exact ⟨fun h => h, List.prefix_refl _⟩
    | getPathToApplication => exact ⟨fun h => h, List.prefix_refl _⟩
  refine ⟨hstep impl, ?_⟩
  intro ops
  induction ops generalizing impl with
  | nil => exact ⟨fun h => h, List.prefix_refl _⟩
  | cons op ops ih =>
    obtain ⟨h1, h2⟩ := hstep impl op
    obtain ⟨h3, h4⟩ := ih (step fl impl op)
    refine ⟨?_, List.IsPrefix.trans h2 h4⟩
    intro hc
    apply h3
    have he : impl.error = true := by
      cases h : impl.error with
      | true => rfl
      | false => simp [check, h] at hc
    simp [check, h1 he]

/-- C19 fails as stated: with the schema `{a|1|}{@p a|2|}` and the arguments
`app`, the alias `a` of the declaration with position `0` is also listed by an
earlier record of the store; `get<int>(0)` is `2` and `get<int>("a")` is `1`. -/
theorem C19_counterexample :
    CommandLineParser ["app".toList] "{a|1|}{@p a|2|}".toList = .ok C19_store
      ∧ get_index noFloat C19_store 0 true Param.INT = (C19_store, Value.int 2)
      ∧ get noFloat C19_store "a".toList true Param.INT = (C19_store, Value.int 1) := by
  decide!

/-- C19, amended: for a store produced by construction, a declaration with
position `i` and an alias `a` of it that no other declaration lists, and every
`space_delete` flag and type: `getByIndex(i, ...)` and `getByName(a, ...)` write the
same result, end with the same error flag, and either both return the store
unchanged or both record an error. -/
theorem C19_retrieval_by_index_and_name_agree (fl : FloatLib) (argv0 keys : Str)
    (args : List Str) (impl st : Impl) (d : CommandLineParserParams) (i : Nat) (a : Str)
    (space_delete : Bool) (type : Param)
    (hs : parse_schema argv0 keys = .ok impl)
    (hc : CommandLineParser (argv0 :: args) keys = .ok st)
    (hd : d ∈ impl.data) (hi : d.number = (i : Int)) (ha : a ∈ d.keys)
    (honly : ∀ p ∈ impl.data, a ∈ p.keys → p = d) :
    (getByIndex fl st (i : Int) space_delete type).2 = (getByName fl st a space_delete type).2
      ∧ (getByIndex fl st (i : Int) space_delete type).1.error
          = (getByName fl st a space_delete type).1.error
      ∧ ((getByIndex fl st (i : Int) space_delete type).1 = st
          ↔ (getByName fl st a space_delete type).1 = st)
      ∧ (get_index fl st (i : Int) space_delete type).2 = (get fl st a space_delete type).2 := by
  obtain ⟨q1, hq1, hv1⟩ := constructed_findByName_of_only hs hc hd ha honly
  obtain ⟨q2, hq2, hv2⟩ := constructed_findByIndex hs hc hd hi
  have hv : q2.def_value = q1.def_value := hv2.trans hv1.symm
  have hn : getByName fl st a space_delete type
      = retrieve fl st ("Missing parameter: '".toList ++ a ++ "'\n".toList)
          ("Parameter '".toList ++ a ++ "': ".toList) q1.def_value space_delete type := by
    simp only [getByName, hq1]
  have hx : getByIndex fl st (i : Int) space_delete type
      = retrieve fl st ("Missing parameter #".toList ++ to_string (i : Int) ++ "\n".toList)
          ("Parameter #".toList ++ to_string (i : Int) ++ " ".toList) q1.def_value
          space_delete type := by
    simp only [getByIndex, hq2, hv]
  have h2 : (getByIndex fl st (i : Int) space_delete type).2
      = (getByName fl st a space_delete type).2 := by
    rw [hn, hx]
    exact retrieve_snd_indep fl st _ _ _ _ _ _ _
  refine ⟨h2, ?_, ?_, ?_⟩
  · rw [hn, hx]
    exact retrieve_error_indep fl st _ _ _ _ _ _ _
  · rw [hn, hx, retrieve_unchanged_iff fl st _ _ _ _ _ (by simp),
      retrieve_unchanged_iff fl st _ _ _ _ _ (by simp)]
  · simp only [get, get_index, h2]

/-- C19, amended, at the schema `{@b|200.0|}{s|str|}` and the arguments `app 7`:
`get<int>(0)` and `get<int>("@b")` are both `7` and leave the store unchanged. -/
theorem C19_witness :
    CommandLineParser ["app".toList, "7".toList] "{@b|200.0|}{s|str|}".toList = .ok C19_store_ok
      ∧ get_index noFloat C19_store_ok 0 true Param.INT = (C19_store_ok, Value.int 7)
      ∧ get noFloat C19_store_ok "@b".toList true Param.INT = (C19_store_ok, Value.int 7) := by
  have hs : parse_schema "app".toList "{@b|200.0|}{s|str|}".toList = .ok C19_schema_ok := by
    decide!
  have hc : CommandLineParser ["app".toList, "7".toList] "{@b|200.0|}{s|str|}".toList
      = .ok C19_store_ok := by decide!
  have h := C19_retrieval_by_index_and_name_agree noFloat "app".toList
    "{@b|200.0|}{s|str|}".toList ["7".toList] C19_schema_ok C19_store_ok
    ⟨[], "200.0".toList, ["@b".toList], 0⟩ 0 "@b".toList true Param.INT hs hc
    (by decide!) rfl (by decide!) (by decide!)
  have hi : get_index noFloat C19_store_ok 0 true Param.INT = (C19_store_ok, Value.int 7) := by
    decide!
  refine ⟨hc, hi, ?_⟩
  refine Prod.ext ?_ ?_
  · exact h.2.2.1.mp (by decide!)
  · rw [← h.2.2.2]
    decide!

/-- C20: for a parser constructed from `argv[0]`: when `argv[0]` contains a `/`
or a `\`, it is the path returned by `getPathToApplication()`, one such
separator and the application name, in this order, and the name contains no
separator, so the path is the text before the last separator and the name the
text after it; when `argv[0]` contains neither, the path is empty and the name is
`argv[0]`. -/
theorem C20_path_and_name_split_argv0 (argv0 keys : Str) (args : List Str) (st : Impl)
    (hc : CommandLineParser (argv0 :: args) keys = .ok st) :
    ((∃ c ∈ argv0, c = '/' ∨ c = '\\') →
        ∃ sep, (sep = '/' ∨ sep = '\\')
          ∧ argv0 = getPathToApplication st ++ sep :: st.app_name
          ∧ ∀ c ∈ st.app_name, c ≠ '/' ∧ c ≠ '\\')
      ∧ ((∀ c ∈ argv0, c ≠ '/' ∧ c ≠ '\\') →
          getPathToApplication st = [] ∧ st.app_name = argv0) := by
  obtain ⟨hp, hn⟩ := constructed_path hc
  have hset : ∀ c : Char, c ∈ "/\\".toList ↔ (c = '/' ∨ c = '\\') := by
    intro c
    have : "/\\".toList = ['/', '\\'] := rfl
    rw [this]
    simp
  unfold getPathToApplication
  cases hf : find_last_of argv0 "/\\".toList with
  | none =>
    rw [hf] at hp hn
    have hnone := find_last_of_none hf
    refine ⟨?_, fun _ => ⟨hp, hn⟩⟩
    rintro ⟨c, hc1, hc2⟩
    exact absurd ((hset c).mpr hc2) (hnone c hc1)
  | some i =>
    rw [hf] at hp hn
    obtain ⟨sep, hsep, hsplit, hrest⟩ := find_last_of_some hf
    have hname : st.app_name = argv0.drop (i + 1) := by
      rw [hn]
      unfold substr
      apply List.take_of_length_le
      rw [List.length_drop]
      omega
    have hpath : st.path_to_app = argv0.take i := by
      rw [hp]
      unfold substr
      rfl
    refine ⟨fun _ => ⟨sep, (hset sep).mp hsep, ?_, ?_⟩, ?_⟩
    · rw [hpath, hname]
      exact hsplit
    · intro c hc1
      rw [hname] at hc1
      have := hrest c hc1
      rw [hset] at this
      exact not_or.mp this
    · intro hno
      have hmem : sep ∈ argv0 := by
        rw [hsplit]
        simp
      have := hno sep hmem
      rcases (hset sep).mp hsep with h | h
      · exact absurd h this.1
      · exact absurd h this.2

/-- C20 at `./bin/my-executable`: the path is `./bin` and the name is
`my-executable`. -/
theorem C20_witness :
    CommandLineParser ["./bin/my-executable".toList] "{t||}".toList = .ok C20_store
      ∧ getPathToApplication C20_store = "./bin".toList
      ∧ ∃ sep, (sep = '/' ∨ sep = '\\')
          ∧ "./bin/my-executable".toList = getPathToApplication C20_store ++ sep :: C20_store.app_name
          ∧ ∀ c ∈ C20_store.app_name, c ≠ '/' ∧ c ≠ '\\' := by
  have hc : CommandLineParser ["./bin/my-executable".toList] "{t||}".toList = .ok C20_store := by
    decide!
  exact ⟨hc, by decide!, (C20_path_and_name_split_argv0 "./bin/my-executable".toList
    "{t||}".toList [] C20_store hc).1 ⟨'/', by decide!, Or.inl rfl⟩⟩

/-- C16 fails as stated: with the schema `{@x||}` and the arguments
`app -@x=1 -@x=2 abc`, two named tokens name the declaration and the last of them
carries `2`, but the positional token `abc` that follows overwrites the value:
`get<String>("@x")` is `abc`. -/
theorem C16_counterexample :
    CommandLineParser ["app".toList, "-@x=1".toList, "-@x=2".toList, "abc".toList]
        "{@x||}".toList = .ok C16_store_positional
      ∧ (key_value "-@x=2".toList) = ("@x".toList, "2".toList)
      ∧ get noFloat C16_store_positional "@x".toList true Param.STRING
        = (C16_store_positional, Value.str "abc".toList) := by
  decide!

/-- C16, amended: for a well-formed schema, a declaration `d` of it and the last
argument `T` in named form whose key is an alias of `d`, when no argument after
`T` that is not in named form is counted with the position of `d` (as is the case
for every declaration without a position): the store holds a record with the
keys, the help text and the position of `d`, and every such record has the value
carried by `T`, which is `true` when `T` contains no `=` and the text after its
first `=` otherwise. -/
theorem C16_last_named_token_wins (argv0 keys : Str) (pre post : List Str) (T : Str)
    (impl st : Impl) (d : CommandLineParserParams)
    (hs : parse_schema argv0 keys = .ok impl)
    (hc : CommandLineParser (argv0 :: (pre ++ T :: post)) keys = .ok st)
    (hd : d ∈ impl.data)
    (hT : hasSingleDash T = true) (hk : (key_value T).1 ∈ d.keys)
    (hlast : ∀ t ∈ post, hasSingleDash t = true → (key_value t).1 ∉ d.keys)
    (hpos : ∀ i : Nat, d.number = (i : Int) →
      i < (positionals pre).length
        ∨ (positionals pre).length + (positionals post).length ≤ i) :
    (∃ q ∈ st.data, q.keys = (sort_keys d).keys ∧ q.number = d.number
        ∧ q.help_message = d.help_message ∧ q.def_value = (key_value T).2)
      ∧ (∀ q ∈ st.data, q.keys = (sort_keys d).keys → q.number = d.number →
          q.def_value = (key_value T).2)
      ∧ ('=' ∉ T → (key_value T).2 = "true".toList)
      ∧ ('=' ∈ T → (key_value T).2 = (T.dropWhile (fun x => x ≠ '=')).drop 1) := by
  obtain ⟨hmem, _, _⟩ := constructed_store hs hc
  have hval : ∀ p : CommandLineParserParams, (∀ k, k ∈ p.keys ↔ k ∈ d.keys) →
      p.number = d.number →
      (overlay (pre ++ T :: post) 0 p).def_value = (key_value T).2 := by
    intro p hkeys hnum
    apply overlay_last_named_of_range pre post T 0 p hT ((hkeys _).mpr hk)
    · intro t ht hst hmemk
      exact hlast t ht hst ((hkeys _).mp hmemk)
    · intro i hi
      have := hpos i (hnum ▸ hi)
      omega
  refine ⟨?_, ?_, key_value_bare, key_value_after_equals hT⟩
  · refine ⟨_, (hmem _).mpr ⟨d, hd, rfl⟩, ?_, ?_, ?_, ?_⟩
    · simp only [sort_keys, (overlay_fields _ 0 d).1]
    · exact (overlay_fields _ 0 d).2.1
    · exact (overlay_fields _ 0 d).2.2
    · exact hval d (fun _ => Iff.rfl) rfl
  · intro q hq hqk hqn
    obtain ⟨p, _, rfl⟩ := (hmem q).mp hq
    have hk1 : (sort_keys p).keys = (sort_keys d).keys := by
      rw [← hqk]
      simp only [sort_keys, (overlay_fields _ 0 p).1]
    have hn1 : p.number = d.number := by
      rw [← hqn]
      exact ((overlay_fields _ 0 p).2.1).symm
    exact hval p (mem_keys_of_sorted_eq hk1) hn1

/-- C16, amended, at the schema `{n count|100|}{s|str|}` and the arguments
`app -n=1 --count=2 -s=x`: the record of `n count` holds `2`. -/
theorem C16_witness :
    CommandLineParser ["app".toList, "-n=1".toList, "--count=2".toList, "-s=x".toList]
        "{n count|100|}{s|str|}".toList = .ok C16_store
      ∧ ∀ q ∈ C16_store.data, q.keys = ["count".toList, "n".toList] → q.number = -1 →
          q.def_value = "2".toList := by
  have hs : parse_schema "app".toList "{n count|100|}{s|str|}".toList = .ok C16_schema := by
    decide!
  have hc : CommandLineParser ("app".toList :: (["-n=1".toList] ++ "--count=2".toList
      :: ["-s=x".toList])) "{n count|100|}{s|str|}".toList = .ok C16_store := by decide!
  have h := (C16_last_named_token_wins "app".toList "{n count|100|}{s|str|}".toList
    ["-n=1".toList] ["-s=x".toList] "--count=2".toList C16_schema C16_store
    ⟨[], "100".toList, ["n".toList, "count".toList], -1⟩ hs hc (by decide!) (by decide!)
    (by decide!) (by decide!) (by intro i hi; have h1 : (-1 : Int) = (i : Int) := hi; omega)).2.1
  have hk : (sort_keys ⟨[], "100".toList, ["n".toList, "count".toList], -1⟩).keys
      = ["count".toList, "n".toList] := by decide!
  have hv : (key_value "--count=2".toList).2 = "2".toList := by decide!
  rw [hk, hv] at h
  exact ⟨hc, h⟩

/-- The shapes of unbalanced braces that are rejected: (1) some `{` of the schema
has no `}` after it, as in `{a|b`, or (2) a `}` comes at a point where the `{`
before it are not more numerous than the `}` before it, or (3) a `}` comes right
after a text that the scan accepts as complete blocks, so that no block is open.
Then `split_range_string` throws an exception, and so does the constructor for
every `argv`; no parser object is produced. -/
theorem unbalanced_braces_rejected (keys : Str)
    (h : (∃ pre post, keys = pre ++ '{' :: post ∧ '}' ∉ post)
      ∨ (∃ pre post, keys = pre ++ '}' :: post ∧ pre.count '{' ≤ pre.count '}')
      ∨ (∃ pre post blocks, keys = pre ++ '}' :: post
          ∧ split_range_string pre '{' '}' = .ok blocks)) :
    ∃ e, e ≠ Failure.undefined ∧ split_range_string keys '{' '}' = .error e
      ∧ ∀ (argv0 : Str) (args : List Str), CommandLineParser (argv0 :: args) keys = .error e := by
  have hthrows : Throws (split_range_string keys '{' '}') := by
    unfold split_range_string
    rcases h with h1 | ⟨pre, post, hsplit, hcount⟩ | ⟨pre, post, blocks, hsplit, hok⟩
    · exact loop_throws_of_unclosed _ keys [] [] false rfl (Or.inl h1)
    · exact loop_throws_of_extra_close _ keys [] [] false rfl
        ⟨pre, post, hsplit, by simpa using hcount⟩
    · obtain ⟨w, hw⟩ := loop_append_of_ok _ pre [] [] false blocks rfl hok ('}' :: post)
      rw [hsplit, hw, loop_close_closed]
      exact throws_error_exception _
  obtain ⟨e, he, hne⟩ := hthrows
  refine ⟨e, hne, he, ?_⟩
  intro argv0 args
  simp only [CommandLineParser, parse_schema, he]

/-- The schemas `{a|b` and `{a}}`: the scan throws and no parser is
constructed. -/
theorem unbalanced_braces_rejected_examples :
    (split_range_string "\x7ba|b".toList '{' '}'
        = .error (.exception "error in split_range_string(, \x7b, \x7d)".toList)
      ∧ ∃ e, e ≠ Failure.undefined
          ∧ CommandLineParser ["app".toList, "-a=1".toList] "\x7ba|b".toList = .error e)
    ∧ (∃ e, e ≠ Failure.undefined
          ∧ CommandLineParser ["app".toList] "\x7ba\x7d\x7d".toList = .error e) := by
  obtain ⟨e, hne, _, hc⟩ := unbalanced_braces_rejected "\x7ba|b".toList
    (Or.inl ⟨[], "a|b".toList, rfl, by decide⟩)
  obtain ⟨e2, hne2, _, hc2⟩ := unbalanced_braces_rejected "\x7ba\x7d\x7d".toList
    (Or.inr (Or.inr ⟨"\x7ba\x7d".toList, [], ["a".toList], rfl, by decide!⟩))
  exact ⟨⟨by decide!, e, hne, hc _ _⟩, e2, hne2, hc2 _ _⟩

/-- C11, the source at the failing input: the schema `{a||}{{b||}` has three `{`
and two `}`, so one `{` is never closed, yet `split_range_string` returns the
two block bodies `a||` and `{b||` and throws nothing, and the constructor
produces a store with the declarations `a` and `{b`.  The scan does not compare
the character that directly follows an opening `{` with `{`. -/
theorem C11_unclosed_brace_is_accepted :
    "\x7ba||\x7d\x7b\x7bb||\x7d".toList.count '{' = 3
      ∧ "\x7ba||\x7d\x7b\x7bb||\x7d".toList.count '}' = 2
      ∧ split_range_string "\x7ba||\x7d\x7b\x7bb||\x7d".toList '{' '}'
          = .ok ["a||".toList, "\x7bb||".toList]
      ∧ CommandLineParser ["app".toList] "\x7ba||\x7d\x7b\x7bb||\x7d".toList = .ok C11_store
      ∧ check C11_store = true := by
  decide!

/-- C13: for a schema whose braces scan into `blocks`, each with at least two `|`
(three fields), and any arguments: the constructor returns a store; the store
holds exactly one declaration for each block whose key field contains a
character other than a space, with the aliases of that block (sorted) as its
keys, and none for the other blocks; and `check()` right after construction is
false exactly when some block has no alias, whatever the arguments are. -/
theorem C13_one_declaration_per_block_with_alias (argv0 keys : Str) (args blocks : List Str)
    (hwf : split_range_string keys '{' '}' = .ok blocks)
    (hfields : ∀ b ∈ blocks, 2 ≤ b.count '|') :
    ∃ st, CommandLineParser (argv0 :: args) keys = .ok st
      ∧ st.data.length = (blocks.filter hasAlias).length
      ∧ (st.data.map (fun p => p.keys)).Perm
          ((blocks.filter hasAlias).map
            (fun b => (aliases b).insertionSort (fun x y => str_lt x y = true)))
      ∧ (check st = false ↔ ∃ b ∈ blocks, hasAlias b = false) := by
  obtain ⟨impl, hs⟩ := parse_schema_ok argv0 keys blocks hwf hfields
  have hc : CommandLineParser (argv0 :: args) keys
      = .ok (parse_argv args 0 impl).sort_params := by
    simp only [CommandLineParser, hs]
  obtain ⟨hperm, herr, _⟩ := constructed_perm hs hc
  obtain ⟨blocks2, impl0, r, hb2, hdata0, herr0, hr, hri⟩ := parse_schema_parts hs
  rw [hwf] at hb2
  cases hb2
  have hkeys := parse_keys_keys blocks hr
  rw [hri, hdata0] at hkeys
  simp only [List.map_nil, List.nil_append] at hkeys
  have hkperm : ((parse_argv args 0 impl).sort_params.data.map (fun p => p.keys)).Perm
      ((blocks.filter hasAlias).map
        (fun b => (aliases b).insertionSort (fun x y => str_lt x y = true))) := by
    have h1 := hperm.map (fun p => p.keys)
    have h2 : (impl.data.map (fun p => sort_keys (overlay args 0 p))).map (fun p => p.keys)
        = (impl.data.map (fun p => p.keys)).map
            (fun ks => ks.insertionSort (fun x y => str_lt x y = true)) := by
      simp only [List.map_map]
      apply List.map_congr_left
      intro p _
      simp only [Function.comp, sort_keys, (overlay_fields args 0 p).1]
    rw [h2, hkeys, List.map_map] at h1
    exact h1
  refine ⟨_, hc, ?_, hkperm, ?_⟩
  · have := hkperm.length_eq
    simpa using this
  · have he := parse_keys_error blocks hr
    rw [hri, herr0] at he
    unfold check
    rw [herr]
    cases hie : impl.error with
    | true =>
      rw [hie] at he
      simpa using he
    | false =>
      rw [hie] at he
      simpa using he

/-- C13 at the schema `{t||}{ ||}{@a||}` and the arguments `app zzz -u extra`:
the store has two declarations and `check()` is false. -/
theorem C13_witness :
    ∃ st, CommandLineParser ["app".toList, "zzz".toList, "-u".toList, "extra".toList]
        "{t||}{ ||}{@a||}".toList = .ok st
      ∧ st.data.length = 2 ∧ check st = false := by
  obtain ⟨st, hc, hlen, _, hcheck⟩ := C13_one_declaration_per_block_with_alias "app".toList
    "{t||}{ ||}{@a||}".toList ["zzz".toList, "-u".toList, "extra".toList]
    ["t||".toList, " ||".toList, "@a||".toList] (by decide!) (by decide!)
  refine ⟨st, hc, ?_, hcheck.mpr (by decide!)⟩
  rw [hlen]
  decide!

/-- C14: in the declarations of a well-formed schema, taken in the order of
their blocks (a block without alias gives no declaration), those whose first
alias starts with `@` carry the positions `0, 1, ..., k - 1` in this order, and
every other declaration carries `-1`; the constructed store holds the same
positions. -/
theorem C14_positions_are_consecutive (argv0 keys : Str) (impl : Impl)
    (hs : parse_schema argv0 keys = .ok impl) :
    (impl.data.filter isPositional).map (fun p => p.number)
        = (List.range (impl.data.filter isPositional).length).map Int.ofNat
      ∧ (∀ p ∈ impl.data, isPositional p = false → p.number = -1)
      ∧ (∃ blocks, split_range_string keys '{' '}' = .ok blocks
          ∧ impl.data.map (fun p => p.keys) = (blocks.filter hasAlias).map aliases)
      ∧ (∀ (args : List Str) (st : Impl), CommandLineParser (argv0 :: args) keys = .ok st →
          (st.data.map (fun p => p.number)).Perm (impl.data.map (fun p => p.number))) := by
  obtain ⟨blocks, impl0, r, hb, hdata0, _, hr, hri⟩ := parse_schema_parts hs
  have hinv0 : PositionsInv impl0 0 := by
    unfold PositionsInv
    rw [hdata0]
    exact ⟨rfl, fun p hp => by cases hp⟩
  have hinv := parse_keys_positions blocks hinv0 hr
  rw [hri] at hinv
  have hlen : (impl.data.filter isPositional).length = r.2 := by
    have := congrArg List.length hinv.1
    simpa using this
  refine ⟨by rw [hlen]; exact hinv.1, hinv.2, ⟨blocks, hb, ?_⟩, ?_⟩
  · have hkeys := parse_keys_keys blocks hr
    rw [hri, hdata0] at hkeys
    simpa using hkeys
  · intro args st hc
    have h1 := (constructed_perm hs hc).1.map (fun p => p.number)
    have h2 : (impl.data.map (fun p => sort_keys (overlay args 0 p))).map (fun p => p.number)
        = impl.data.map (fun p => p.number) := by
      simp only [List.map_map]
      apply List.map_congr_left
      intro p _
      simp only [Function.comp, sort_keys, (overlay_fields args 0 p).2.1]
    rw [h2] at h1
    exact h1

/-- C14 at the schema `{help h||}{@a||}{ ||}{@b||}{s||}`: the positional
declarations carry `0` and `1`, the block without alias takes no position. -/
theorem C14_witness :
    parse_schema "app".toList "{help h||}{@a||}{ ||}{@b||}{s||}".toList = .ok C14_schema
      ∧ (C14_schema.data.filter isPositional).map (fun p => p.number) = [0, 1]
      ∧ C14_schema.data.map (fun p => p.number) = [-1, 0, 1, -1] := by
  have hs : parse_schema "app".toList "{help h||}{@a||}{ ||}{@b||}{s||}".toList
      = .ok C14_schema := by decide!
  have h := (C14_positions_are_consecutive "app".toList
    "{help h||}{@a||}{ ||}{@b||}{s||}".toList C14_schema hs).1
  refine ⟨hs, ?_, by decide!⟩
  rw [h]
  decide!

/-- C21: `split_string(s, c, true)` is the reference split of `s` at `c` (the
split of the list library): it has one segment more than `s` has occurrences of
`c`, no segment contains `c`, and the segments joined with `c` give `s`; so a
block body with at least two `|` has fields `0`, `1` and `2` and the body of the
schema loop returns for it; and `split_string(s, c, false)` is that same list
with the empty segments removed, in the same order. -/
theorem C21_split_string_is_reference_split (s : Str) (c : Char) :
    split_string s c true = reference_split s c
      ∧ split_string s c true = s.splitOn c
      ∧ (split_string s c true).length = s.count c + 1
      ∧ (∀ seg ∈ split_string s c true, c ∉ seg)
      ∧ [c].intercalate (split_string s c true) = s
      ∧ (2 ≤ s.count c → ∃ l0 l1 l2 tail, split_string s c true = l0 :: l1 :: l2 :: tail)
      ∧ (2 ≤ s.count '|' → ∀ (impl : Impl) (jj : Nat), ∃ r, parse_block impl jj s = .ok r)
      ∧ split_string s c false
          = (split_string s c true).filter (fun seg => decide (seg ≠ [])) := by
  have hkeep : split_string s c true = reference_split s c := by
    unfold split_string reference_split
    rw [split_string_loop_keep]
    simp
  have hlen : (split_string s c true).length = s.count c + 1 := by
    rw [hkeep]
    simp [reference_split, first_and_rest_length]
  refine ⟨hkeep, hkeep.trans (reference_split_eq_splitOn c s), hlen, ?_, ?_, ?_, ?_, ?_⟩
  · intro seg hseg
    rw [hkeep] at hseg
    unfold reference_split at hseg
    rcases List.mem_cons.mp hseg with rfl | hseg
    · exact (first_and_rest_no_delimiter c s).1
    · exact (first_and_rest_no_delimiter c s).2 seg hseg
  · rw [hkeep]
    exact reference_split_intercalate c s
  · intro h2
    cases hl : split_string s c true with
    | nil => rw [hl] at hlen; simp at hlen
    | cons a t =>
      cases t with
      | nil => rw [hl] at hlen; simp at hlen; omega
      | cons b t2 =>
        cases t2 with
        | nil => rw [hl] at hlen; simp at hlen; omega
        | cons d t3 => exact ⟨a, b, d, t3, rfl⟩
  · intro h2 impl jj
    exact parse_block_ok impl jj s h2
  · rw [hkeep]
    unfold split_string reference_split
    rw [split_string_loop_drop]
    simp

/-- C21 at the text `a||b` and the delimiter `|`: with empty items kept the
segments are `a`, the empty text and `b`; without them `a` and `b`. -/
theorem C21_witness :
    split_string "a||b".toList '|' true = ["a".toList, [], "b".toList]
      ∧ split_string "a||b".toList '|' false = ["a".toList, "b".toList] := by
  have h := C21_split_string_is_reference_split "a||b".toList '|'
  refine ⟨?_, ?_⟩
  · rw [h.1]
    decide!
  · rw [h.2.2.2.2.2.2.2, h.1]
    decide!

end CmdLine
